import Mathlib

/-!
# A heap-level model of `List<T, Allocator>` from `src/list.hpp`

The container is a ring of `BaseNode`s linked through raw pointers, so the
model is a store of cells addressed by natural numbers.  Every statement of
the C++ methods is translated into a step of a state monad whose results
distinguish normal completion, a propagating C++ exception and undefined
behaviour (use of freed or unconstructed storage, treating the sentinel as a
value node, releasing storage twice).

Conventions.

* An address is an index into `Heap.mem`.  Storage is never reused, so a fresh
  allocation always gets the address `mem.length`.
* A `List` object is one cell (`Cell.list`) holding the link fields of its
  member `fictitious_` together with `size_`, `list_alloc_` and `node_alloc_`;
  the address of the object is the address of `fictitious_`.
* `size_t` is 64 bits wide.  The subtractions `count - 1`, `size_ - 1` and
  `--size_` wrap modulo `2 ^ 64`.  `++size_` is modelled without wrap-around:
  `size_` counts value nodes, each of which occupies its own storage of more
  than one byte, so it cannot reach `2 ^ 64` on a 64 bit machine.
* Whether an allocation or a payload construction fails is decided by two
  budgets carried in the heap (`none`: never fails, `some k`: the next `k`
  succeed, then they fail).
-/

namespace MyList

/-- Addresses of cells. -/
abbrev Addr := Nat

/-- The modulus of `size_t` arithmetic. -/
def sizeMod : Nat := 2 ^ 64

/-- The value of the `size_t` expression `n - 1`: it wraps to `2 ^ 64 - 1` at
zero. On every `size_t` value this is `(n + 2 ^ 64 - 1) % 2 ^ 64`. -/
def decWrap (n : Nat) : Nat := if n = 0 then sizeMod - 1 else n - 1

/-- The two kinds of exception that can travel through the container:
`std::bad_alloc` from `allocate`, and whatever the constructor of `T` throws. -/
inductive Exn where
  | bad_alloc
  | payload
  deriving DecidableEq, Repr

/-- One cell of storage.
* `freed`: storage that has been released (or whose object has gone away);
* `raw`: storage obtained from `allocate` that holds no object;
* `node`: a constructed `Node<T>`;
* `list`: a `List` object, with the links of its `fictitious_` member. -/
inductive Cell (T A : Type) where
  | freed
  | raw
  | node (previous following : Addr) (value_ : T)
  | list (previous following : Addr) (size_ : Nat) (list_alloc_ node_alloc_ : A)
  deriving DecidableEq, Repr

/-- The calls made on `node_alloc_traits`, in program order. -/
inductive Event where
  | allocate (p : Addr)
  | construct (p : Addr)
  | destroy (p : Addr)
  | deallocate (p : Addr)
  deriving DecidableEq, Repr

/-- The store together with the failure budgets and the allocator call log. -/
structure Heap (T A : Type) where
  mem : List (Cell T A)
  allocBudget : Option Nat
  ctorBudget : Option Nat
  trace : List Event
  deriving DecidableEq, Repr

/-- Result of running a piece of code. `ub` carries the store at the first
undefined operation; `timeout` means a loop ran out of fuel. -/
inductive Res (σ α : Type) where
  | ok (a : α) (s : σ)
  | threw (e : Exn) (s : σ)
  | ub (s : σ)
  | timeout
  deriving DecidableEq, Repr

/-- Computations over the heap. -/
def M (T A α : Type) : Type := Heap T A → Res (Heap T A) α

section Monad
variable {T A : Type}

/-- Return a value without touching the heap. -/
def M.pure {α : Type} (a : α) : M T A α := fun h => Res.ok a h

/-- Sequential composition: exceptions, undefined behaviour and timeouts of the
first computation end the whole computation. -/
def M.bind {α β : Type} (x : M T A α) (f : α → M T A β) : M T A β := fun h =>
  match x h with
  | Res.ok a h1 => f a h1
  | Res.threw e h1 => Res.threw e h1
  | Res.ub h1 => Res.ub h1
  | Res.timeout => Res.timeout

instance : Monad (M T A) where
  pure := M.pure
  bind := M.bind

/-- The C++ `throw`. -/
def throwExn {α : Type} (e : Exn) : M T A α := fun h => Res.threw e h

/-- The C++ `try { body } catch (...) { handler }`. -/
def tryCatch {α : Type} (body : M T A α) (handler : Exn → M T A α) : M T A α := fun h =>
  match body h with
  | Res.threw e h1 => handler e h1
  | r => r

/-- The undefined operation. -/
def undefinedOp {α : Type} : M T A α := fun h => Res.ub h

/-- A loop that has used up its fuel. -/
def outOfFuel {α : Type} : M T A α := fun _ => Res.timeout

end Monad

/-! ## Allocator interface -/

/-- What the container uses of the allocator type: a default constructed
allocator `Allocator()`, `select_on_container_copy_construction`, `operator!=`
and the flag `propagate_on_container_copy_assignment`. -/
structure AllocTraits (A : Type) where
  dflt : A
  select : A → A
  ne : A → A → Bool
  pocca : Bool

section Primitives
variable {T A : Type}

/-- The call `node_alloc_traits::allocate(node_alloc_, 1)`. -/
def allocate : M T A Addr := fun h =>
  if h.allocBudget = some 0 then Res.threw Exn.bad_alloc h
  else Res.ok h.mem.length
    { h with mem := h.mem ++ [Cell.raw],
             allocBudget := h.allocBudget.map (fun k => k - 1),
             trace := h.trace ++ [Event.allocate h.mem.length] }

/-- The call `node_alloc_traits::deallocate(node_alloc_, p, 1)`. Releasing storage
that is not currently allocated (or the sentinel, which was never allocated) is
undefined. -/
def deallocate (p : Addr) : M T A Unit := fun h =>
  match h.mem[p]? with
  | some Cell.raw =>
    Res.ok () { h with mem := h.mem.set p Cell.freed, trace := h.trace ++ [Event.deallocate p] }
  | some (Cell.node _ _ _) =>
    Res.ok () { h with mem := h.mem.set p Cell.freed, trace := h.trace ++ [Event.deallocate p] }
  | _ => Res.ub h

/-- The call `node_alloc_traits::construct(node_alloc_, p, v)`, that is
`new (p) Node<T>(v)`. The base class constructor `BaseNode()` links the node to
itself; the copy of the payload may throw. -/
def construct (p : Addr) (v : T) : M T A Unit := fun h =>
  match h.mem[p]? with
  | some Cell.raw =>
    if h.ctorBudget = some 0 then Res.threw Exn.payload h
    else Res.ok ()
      { h with mem := h.mem.set p (Cell.node p p v),
               ctorBudget := h.ctorBudget.map (fun k => k - 1),
               trace := h.trace ++ [Event.construct p] }
  | _ => Res.ub h

/-- The call `node_alloc_traits::destroy(node_alloc_, p)`: ends the life of a
constructed node. -/
def destroy (p : Addr) : M T A Unit := fun h =>
  match h.mem[p]? with
  | some (Cell.node _ _ _) =>
    Res.ok () { h with mem := h.mem.set p Cell.raw, trace := h.trace ++ [Event.destroy p] }
  | _ => Res.ub h

/-- Read `p->following`. -/
def getFollowing (p : Addr) : M T A Addr := fun h =>
  match h.mem[p]? with
  | some (Cell.node _ f _) => Res.ok f h
  | some (Cell.list _ f _ _ _) => Res.ok f h
  | _ => Res.ub h

/-- Read `p->previous`. -/
def getPrevious (p : Addr) : M T A Addr := fun h =>
  match h.mem[p]? with
  | some (Cell.node b _ _) => Res.ok b h
  | some (Cell.list b _ _ _ _) => Res.ok b h
  | _ => Res.ub h

/-- Write `p->following = q`. -/
def setFollowing (p q : Addr) : M T A Unit := fun h =>
  match h.mem[p]? with
  | some (Cell.node b _ v) => Res.ok () { h with mem := h.mem.set p (Cell.node b q v) }
  | some (Cell.list b _ n la na) => Res.ok () { h with mem := h.mem.set p (Cell.list b q n la na) }
  | _ => Res.ub h

/-- Write `p->previous = q`. -/
def setPrevious (p q : Addr) : M T A Unit := fun h =>
  match h.mem[p]? with
  | some (Cell.node _ f v) => Res.ok () { h with mem := h.mem.set p (Cell.node q f v) }
  | some (Cell.list _ f n la na) => Res.ok () { h with mem := h.mem.set p (Cell.list q f n la na) }
  | _ => Res.ub h

/-- The call `p->get_value()`; the sentinel has no payload. -/
def get_value (p : Addr) : M T A T := fun h =>
  match h.mem[p]? with
  | some (Cell.node _ _ v) => Res.ok v h
  | _ => Res.ub h

/-- Read the member `size_` of the list object at `this`. -/
def getSize (this : Addr) : M T A Nat := fun h =>
  match h.mem[this]? with
  | some (Cell.list _ _ n _ _) => Res.ok n h
  | _ => Res.ub h

/-- Write the member `size_`. -/
def setSize (this : Addr) (n : Nat) : M T A Unit := fun h =>
  match h.mem[this]? with
  | some (Cell.list b f _ la na) => Res.ok () { h with mem := h.mem.set this (Cell.list b f n la na) }
  | _ => Res.ub h

/-- Read the member `list_alloc_`. -/
def getListAlloc (this : Addr) : M T A A := fun h =>
  match h.mem[this]? with
  | some (Cell.list _ _ _ la _) => Res.ok la h
  | _ => Res.ub h

/-- Write the member `list_alloc_`. -/
def setListAlloc (this : Addr) (a : A) : M T A Unit := fun h =>
  match h.mem[this]? with
  | some (Cell.list b f n _ na) => Res.ok () { h with mem := h.mem.set this (Cell.list b f n a na) }
  | _ => Res.ub h

/-- Read the member `node_alloc_`. -/
def getNodeAlloc (this : Addr) : M T A A := fun h =>
  match h.mem[this]? with
  | some (Cell.list _ _ _ _ na) => Res.ok na h
  | _ => Res.ub h

/-- Write the member `node_alloc_`. -/
def setNodeAlloc (this : Addr) (a : A) : M T A Unit := fun h =>
  match h.mem[this]? with
  | some (Cell.list b f n la _) => Res.ok () { h with mem := h.mem.set this (Cell.list b f n la a) }
  | _ => Res.ub h

/-- The default member initialisers shared by every constructor: `node_alloc_`
and `list_alloc_` default constructed, `fictitious_` linked to itself by
`BaseNode()`, `size_ = 0`. The object gets storage of its own (it is not
obtained from the node allocator). -/
def List_members (τ : AllocTraits A) : M T A Addr := fun h =>
  Res.ok h.mem.length
    { h with mem := h.mem ++ [Cell.list h.mem.length h.mem.length 0 τ.dflt τ.dflt] }

/-- The storage of a list object goes away (end of `~List`, or a constructor
left by an exception). -/
def endObject (this : Addr) : M T A Unit := fun h =>
  match h.mem[this]? with
  | some (Cell.list _ _ _ _ _) => Res.ok () { h with mem := h.mem.set this Cell.freed }
  | _ => Res.ub h

/-- The statement `++size_`. -/
def incSize (this : Addr) : M T A Unit := do
  let n ← getSize this
  setSize this (n + 1)

/-- The statement `--size_`. -/
def decSize (this : Addr) : M T A Unit := do
  let n ← getSize this
  setSize this (decWrap n)

/-- A constructor body: when it is left by an exception the members of the
object under construction are destroyed and the exception travels on. -/
def ctorBody {α : Type} (this : Addr) (body : M T A α) : M T A α :=
  tryCatch body (fun e => do endObject this; throwExn e)

end Primitives

/-! ## The iterator family (`List::Iterator<IsConst, IsReversed>`) -/

/-- An iterator is a cursor on a node; `IsConst` has no effect on the position. -/
structure Iterator where
  actual_ : Addr
  deriving DecidableEq, Repr

/-- The member `Iterator::operator==`: identity of the referenced node. -/
def Iterator.operator_eq (it compared : Iterator) : Bool := it.actual_ == compared.actual_

/-- The member `Iterator::operator!=`. -/
def Iterator.operator_ne (it compared : Iterator) : Bool := it.actual_ != compared.actual_

section Methods
variable {T A : Type}

/-- The member `Iterator::operator++`. -/
def Iterator.inc (IsReversed : Bool) (it : Iterator) : M T A Iterator := do
  let it ← (if !IsReversed then do
              let f ← getFollowing it.actual_
              pure (Iterator.mk f)
            else pure it : M T A Iterator)
  let it ← (if IsReversed then do
              let b ← getPrevious it.actual_
              pure (Iterator.mk b)
            else pure it : M T A Iterator)
  pure it

/-- The member `Iterator::operator--`. -/
def Iterator.dec (IsReversed : Bool) (it : Iterator) : M T A Iterator := do
  let it ← (if !IsReversed then do
              let b ← getPrevious it.actual_
              pure (Iterator.mk b)
            else pure it : M T A Iterator)
  let it ← (if IsReversed then do
              let f ← getFollowing it.actual_
              pure (Iterator.mk f)
            else pure it : M T A Iterator)
  pure it

/-- The member `Iterator::operator*`. -/
def Iterator.deref (it : Iterator) : M T A T := get_value it.actual_

/-- The members `begin()` and `cbegin()`: `iterator(fictitious_.following)`. -/
def begin_ (this : Addr) : M T A Iterator := do
  let f ← getFollowing this
  pure (Iterator.mk f)

/-- The members `end()` and `cend()`: `iterator(&fictitious_)`. -/
def end_ (this : Addr) : M T A Iterator := pure (Iterator.mk this)

/-- The members `rbegin()` and `crbegin()`: `reverse_iterator(fictitious_.previous)`. -/
def rbegin (this : Addr) : M T A Iterator := do
  let b ← getPrevious this
  pure (Iterator.mk b)

/-- The members `rend()` and `crend()`: `reverse_iterator(&fictitious_)`. -/
def rend (this : Addr) : M T A Iterator := pure (Iterator.mk this)

/-! ## The container -/

/-- The member `size()`. -/
def size (this : Addr) : M T A Nat := getSize this

/-- The member `empty()`: `size_ == 0`. -/
def empty (this : Addr) : M T A Bool := do
  let n ← getSize this
  pure (n == 0)

/-- The member `get_allocator()`. -/
def get_allocator (this : Addr) : M T A A := getListAlloc this

/-- The constructor `List() = default`. -/
def List_default (τ : AllocTraits A) : M T A Addr := List_members τ

/-- The member `remove_one(idx, node)`; returns the new values of the two
reference parameters. -/
def remove_one (idx : Nat) (node : Addr) : M T A (Nat × Addr) := do
  let p ← getPrevious node
  destroy p
  let p ← getPrevious node
  deallocate p
  let nxt ← getFollowing node
  pure (idx + 1, nxt)

/-- The loop `while (idx < deleted_size) remove_one(idx, actual)`. The first
argument bounds the number of iterations; `idx` grows by one in each, so
`deleted_size` iterations always suffice. -/
def remove_loop (deleted_size : Nat) : Nat → Nat → Addr → M T A Unit
  | 0, _, _ => pure ()
  | n + 1, idx, actual =>
    if idx < deleted_size then do
      let r ← remove_one idx actual
      remove_loop deleted_size n r.1 r.2
    else pure ()

/-- The member `remove(deleted_size)`. -/
def remove (this : Addr) (deleted_size : Nat) : M T A Unit := do
  let first ← getFollowing this
  let actual ← getFollowing first
  remove_loop deleted_size deleted_size 0 actual

/-- The member `dealloc(actual)`. -/
def dealloc (actual : Addr) : M T A Unit := do
  let f ← getFollowing actual
  deallocate f
  destroy actual
  deallocate actual

/-- The handler `catch (...) { remove(size_ - 1); dealloc(actual); throw; }` of
the bulk constructors, for a given value of the local `actual`. -/
def rollback {α : Type} (this actual : Addr) (e : Exn) : M T A α := do
  let n ← getSize this
  remove this (decWrap n)
  dealloc actual
  throwExn e

/-- The destructor `~List() { remove(size_); }`, followed by the end of the
object. -/
def List_dtor (this : Addr) : M T A Unit := do
  let n ← getSize this
  remove this n
  endObject this

/-- One iteration of the loop of the fill constructor. The handler of the
enclosing `try` reads the local `actual`, which changes only in the last
statement of an iteration, so each iteration is guarded by the handler for the
value `actual` has at its start. -/
def fill_step (this : Addr) (value : T) (actual : Addr) : M T A Addr :=
  tryCatch (do
    let p ← allocate
    setFollowing actual p
    let nx ← getFollowing actual
    construct nx value
    incSize this
    let nx ← getFollowing actual
    setPrevious nx actual
    getFollowing actual) (rollback this actual)

/-- The loop `for (size_t i = 0; i < count - 1; ++i)` of the fill constructors,
given the number of iterations. -/
def fill_loop (this : Addr) (value : T) : Nat → Addr → M T A Addr
  | 0, actual => pure actual
  | n + 1, actual => do
    let actual ← fill_step this value actual
    fill_loop this value n actual

/-- The constructor `List(size_t count, const T& value, const Allocator& alloc)`. -/
def List_fill (τ : AllocTraits A) (count : Nat) (value : T) (alloc : A) : M T A Addr := do
  let this ← List_members τ
  ctorBody this (do
    let actual ← allocate
    setListAlloc this alloc
    tryCatch (do
      construct actual value
      incSize this
      setFollowing this actual
      setPrevious actual this) (rollback this actual)
    let actual ← fill_loop this value (decWrap count) actual
    setFollowing actual this
    setPrevious this actual
    pure this)

/-- The constructor `List(size_t count, const Allocator& alloc)`: the same code
with `construct(node_alloc_, p)`, which value-initialises the payload. -/
def List_count (τ : AllocTraits A) (dfltT : T) (count : Nat) (alloc : A) : M T A Addr := do
  let this ← List_members τ
  ctorBody this (do
    let actual ← allocate
    setListAlloc this alloc
    tryCatch (do
      construct actual dfltT
      setFollowing this actual
      setPrevious actual this
      incSize this) (rollback this actual)
    let actual ← fill_loop this dfltT (decWrap count) actual
    setFollowing actual this
    setPrevious this actual
    pure this)

/-- The read `*iter` of an `std::initializer_list` iterator at position `i`;
reading at or past `init.end()` is undefined. -/
def readInit (init : List T) (i : Nat) : M T A T :=
  match init[i]? with
  | some v => pure v
  | none => undefinedOp

/-- One iteration of the loop of the initializer list constructor (guarded as
in `fill_step`), copying the element `v = *iter`. -/
def init_step (this : Addr) (v : T) (actual : Addr) : M T A Addr :=
  tryCatch (do
    let p ← allocate
    setFollowing actual p
    let nx ← getFollowing actual
    construct nx v
    incSize this
    let nx ← getFollowing actual
    setPrevious nx actual
    getFollowing actual) (rollback this actual)

/-- The loop `for (; iter < init_end; ++iter)` over the remaining elements. -/
def init_loop (this : Addr) : List T → Addr → M T A Addr
  | [], actual => pure actual
  | v :: rest, actual => do
    let actual ← init_step this v actual
    init_loop this rest actual

/-- The constructor `List(std::initializer_list<T> init, const Allocator& alloc)`. -/
def List_init (τ : AllocTraits A) (init : List T) (alloc : A) : M T A Addr := do
  let this ← List_members τ
  ctorBody this (do
    setListAlloc this alloc
    let actual ← allocate
    tryCatch (do
      let v ← readInit init 0
      construct actual v
      setFollowing this actual
      setPrevious actual this
      incSize this) (rollback this actual)
    let actual ← init_loop this (init.drop 1) actual
    setFollowing actual this
    setPrevious this actual
    pure this)

/-- One iteration of the loop of the copy constructor (guarded as in
`fill_step`); returns the new values of `new_begin` and `actual`. -/
def copy_step (this : Addr) (new_begin : Iterator) (actual : Addr) :
    M T A (Iterator × Addr) :=
  tryCatch (do
    let p ← allocate
    setFollowing actual p
    let nx ← getFollowing actual
    let v ← Iterator.deref new_begin
    construct nx v
    incSize this
    let nx ← getFollowing actual
    setPrevious nx actual
    let actual1 ← getFollowing actual
    let nb ← Iterator.inc false new_begin
    pure (nb, actual1)) (rollback this actual)

/-- The loop `for (; new_begin != new_end; ++new_begin)` of the copy
constructor. Nothing in the loop bounds the number of iterations, so the model
takes fuel. -/
def copy_loop (this : Addr) (new_end : Iterator) : Nat → Iterator → Addr → M T A Addr
  | fuel, new_begin, actual =>
    if new_begin.actual_ = new_end.actual_ then pure actual
    else
      match fuel with
      | 0 => outOfFuel
      | fuel + 1 => do
        let r ← copy_step this new_begin actual
        copy_loop this new_end fuel r.1 r.2

/-- The copy constructor `List(const List& src)`. -/
def List_copy (τ : AllocTraits A) (fuel : Nat) (src : Addr) : M T A Addr := do
  let this ← List_members τ
  ctorBody this (do
    let actual ← allocate
    let new_end ← end_ src
    let new_begin ← begin_ src
    let new_begin ← tryCatch (do
      let v ← Iterator.deref new_begin
      construct actual v
      setFollowing this actual
      setPrevious actual this
      let nb ← Iterator.inc false new_begin
      incSize this
      pure nb) (rollback this actual)
    let actual ← copy_loop this new_end fuel new_begin actual
    setFollowing actual this
    setPrevious this actual
    let la ← getListAlloc src
    setListAlloc this (τ.select la)
    let na ← getNodeAlloc src
    setNodeAlloc this (τ.select na)
    pure this)

/-- The member `swap(first, second)`: `std::swap` of the two `fictitious_`
members (their link fields are exchanged by value) and of the two `size_`. -/
def swap (first second : Addr) : M T A Unit := do
  let fp ← getPrevious first
  let ff ← getFollowing first
  let sp ← getPrevious second
  let sf ← getFollowing second
  setPrevious first sp
  setFollowing first sf
  setPrevious second fp
  setFollowing second ff
  let fn ← getSize first
  let sn ← getSize second
  setSize first sn
  setSize second fn

/-- The copy assignment `operator=(const List& src)`, up to and including the
destruction of the local `tmp` at the closing brace. -/
def assign (τ : AllocTraits A) (fuel : Nat) (this src : Addr) : M T A Unit := do
  let tmp ← List_copy τ fuel src
  swap this tmp
  let b ← getPrevious this
  setFollowing b this
  let f ← getFollowing this
  setPrevious f this
  let la ← getListAlloc this
  let sa ← getListAlloc src
  (if τ.ne la sa && τ.pocca then setListAlloc this sa else pure ())
  let e ← empty tmp
  (if !e then do
      let b ← getPrevious tmp
      setFollowing b tmp
      let f ← getFollowing tmp
      setPrevious f tmp
    else pure ())
  let e ← empty tmp
  (if e then do
      setPrevious tmp tmp
      setFollowing tmp tmp
    else pure ())
  List_dtor tmp

/-- The statements of `operator=(const List& src)` up to `return *this`, that
is the copy assignment without the destruction of the local `tmp` at the closing
brace; the result is the address of `tmp`. -/
def assign_body (τ : AllocTraits A) (fuel : Nat) (this src : Addr) : M T A Addr := do
  let tmp ← List_copy τ fuel src
  swap this tmp
  let b ← getPrevious this
  setFollowing b this
  let f ← getFollowing this
  setPrevious f this
  let la ← getListAlloc this
  let sa ← getListAlloc src
  (if τ.ne la sa && τ.pocca then setListAlloc this sa else pure ())
  let e ← empty tmp
  (if !e then do
      let b ← getPrevious tmp
      setFollowing b tmp
      let f ← getFollowing tmp
      setPrevious f tmp
    else pure ())
  let e ← empty tmp
  (if e then do
      setPrevious tmp tmp
      setFollowing tmp tmp
    else pure ())
  pure tmp

/-- The expression `static_cast<Node<T>>(p)` of `front()` and `back()`, where
`p` is a `BaseNode*`. The target type is the class `Node<T>`, not a pointer to
it, so the cast does not refer to the node `p` points to: it makes a temporary
`Node<T>` by the constructor `Node(const T&)` from the pointer converted to `T`
(the conversion `conv`; only element types that have one, such as `bool`, have
these members at all). The temporary is an object of its own, linked to itself
by `BaseNode()`; the copy of the payload may throw. -/
def castToNode (conv : Addr → T) (p : Addr) : M T A Addr := fun h =>
  if h.ctorBudget = some 0 then Res.threw Exn.payload h
  else Res.ok h.mem.length
    { h with mem := h.mem ++ [Cell.node h.mem.length h.mem.length (conv p)],
             ctorBudget := h.ctorBudget.map (fun k => k - 1) }

/-- The end of the life of a temporary node at the end of the full expression
that made it. -/
def endTemporary (p : Addr) : M T A Unit := fun h =>
  match h.mem[p]? with
  | some (Cell.node _ _ _) => Res.ok () { h with mem := h.mem.set p Cell.freed }
  | _ => Res.ub h

/-- The members `front()`:
`return static_cast<Node<T>>(fictitious_.following).get_value();`. The result
is the address of the node whose payload the returned reference refers to. -/
def front (conv : Addr → T) (this : Addr) : M T A Addr := do
  let f ← getFollowing this
  let t ← castToNode conv f
  endTemporary t
  pure t

/-- The members `back()`:
`return static_cast<Node<T>>(fictitious_.previous).get_value();`. -/
def back (conv : Addr → T) (this : Addr) : M T A Addr := do
  let b ← getPrevious this
  let t ← castToNode conv b
  endTemporary t
  pure t

/-- The member `pop_front()`. -/
def pop_front (this : Addr) : M T A Unit := do
  let f ← getFollowing this
  let ff ← getFollowing f
  setFollowing this ff
  let f ← getFollowing this
  let p ← getPrevious f
  destroy p
  decSize this
  let f ← getFollowing this
  let p ← getPrevious f
  deallocate p
  let f ← getFollowing this
  setPrevious f this

/-- The member `pop_back()`. -/
def pop_back (this : Addr) : M T A Unit := do
  let b ← getPrevious this
  let bb ← getPrevious b
  setPrevious this bb
  let b ← getPrevious this
  let p ← getFollowing b
  destroy p
  decSize this
  let b ← getPrevious this
  let p ← getFollowing b
  deallocate p
  let b ← getPrevious this
  setFollowing b this

/-- The members `push_front(const T&)` and `push_front(T&&)` (the two bodies are
the same; both copy `value`). The handler releases the storage and does not
rethrow. -/
def push_front (this : Addr) (value : T) : M T A Unit := do
  let tmp ← allocate
  tryCatch (construct tmp value) (fun _ => deallocate tmp)
  let f ← getFollowing this
  setFollowing tmp f
  let f ← getFollowing this
  setPrevious f tmp
  incSize this
  setPrevious tmp this
  setFollowing this tmp

/-- The members `push_back(const T&)` and `push_back(T&&)` (the two bodies are the
same). The handler releases the storage and does not rethrow. -/
def push_back (this : Addr) (value : T) : M T A Unit := do
  let tmp ← allocate
  tryCatch (construct tmp value) (fun _ => deallocate tmp)
  incSize this
  let b ← getPrevious this
  setPrevious tmp b
  let b ← getPrevious this
  setFollowing b tmp
  setFollowing tmp this
  setPrevious this tmp

/-- The client loop `for (it = begin(); it != end(); ++it) out.push_back(*it)`,
generic in the direction; `fuel` bounds the number of iterations. -/
def walk (IsReversed : Bool) (stop : Iterator) : Nat → Iterator → M T A (List T)
  | fuel, it =>
    if it.actual_ = stop.actual_ then pure []
    else
      match fuel with
      | 0 => outOfFuel
      | fuel + 1 => do
        let v ← Iterator.deref it
        let it1 ← Iterator.inc IsReversed it
        let rest ← walk IsReversed stop fuel it1
        pure (v :: rest)

/-- Forward traversal from `begin()` to `end()`. -/
def forward (fuel : Nat) (this : Addr) : M T A (List T) := do
  let b ← begin_ this
  let e ← end_ this
  walk false e fuel b

/-- Reverse traversal from `rbegin()` to `rend()`. -/
def backward (fuel : Nat) (this : Addr) : M T A (List T) := do
  let b ← rbegin this
  let e ← rend this
  walk true e fuel b

end Methods

/-! ## Sequences of end operations and their abstract counterpart -/

/-- The four operations at the two ends of the list. -/
inductive Op (T : Type) where
  | push_back (v : T)
  | push_front (v : T)
  | pop_back
  | pop_front
  deriving DecidableEq, Repr

section Sequences
variable {T A : Type}

/-- Run one operation on the list object at `this`. -/
def Op.run (this : Addr) : Op T → M T A Unit
  | Op.push_back v => MyList.push_back this v
  | Op.push_front v => MyList.push_front this v
  | Op.pop_back => MyList.pop_back this
  | Op.pop_front => MyList.pop_front this

/-- The effect of one operation on a mathematical sequence: `push_front`
prepends, `push_back` appends, `pop_front` drops the first element, `pop_back`
drops the last; a pop of the empty sequence is not allowed (`none`). -/
def Op.spec : Op T → List T → Option (List T)
  | Op.push_back v, xs => some (xs ++ [v])
  | Op.push_front v, xs => some (v :: xs)
  | Op.pop_back, [] => none
  | Op.pop_back, x :: xs => some (List.dropLast (x :: xs))
  | Op.pop_front, [] => none
  | Op.pop_front, _ :: xs => some xs

/-- The client program that applies the operations one after the other and,
after every step, records `size()` and the forward traversal. -/
def runObs (fuel : Nat) (this : Addr) : List (Op T) → M T A (List (Nat × List T))
  | [] => pure []
  | op :: ops => do
    op.run this
    let n ← size this
    let xs ← forward fuel this
    let rest ← runObs fuel this ops
    pure ((n, xs) :: rest)

/-- What the client program must record according to the abstract sequence. -/
def specObs : List (Op T) → List T → Option (List (Nat × List T))
  | [], _ => some []
  | op :: ops, xs =>
    match op.spec xs with
    | none => none
    | some ys => (specObs ops ys).map (fun rest => (ys.length, ys) :: rest)

end Sequences

/-! ## The ring invariant -/

section Invariant
variable {T A : Type}

/-- Address of the first node of a run of nodes, or `d` when the run is empty. -/
def headAddr (ns : List (Addr × T)) (d : Addr) : Addr :=
  match ns with
  | [] => d
  | n :: _ => n.1

/-- Address of the last node of a run of nodes, or `d` when the run is empty. -/
def lastAddr : List (Addr × T) → Addr → Addr
  | [], d => d
  | n :: rest, _ => lastAddr rest n.1

/-- The run `ns` of (address, payload) pairs is a doubly linked segment of
constructed nodes in `m`: the node before the first one is `prev`, the node
after the last one is `nxt`, and neighbours point at each other. -/
def Seg (m : List (Cell T A)) : Addr → List (Addr × T) → Addr → Prop
  | _, [], _ => True
  | prev, n :: rest, nxt =>
    m[n.1]? = some (Cell.node prev (headAddr rest nxt) n.2) ∧ Seg m n.1 rest nxt

/-- The ring invariant of the list object at `this`: the sentinel and the value
nodes `ns` (in traversal order) are pairwise distinct, the `following` chain
from the sentinel runs through `ns` and comes back to the sentinel, the
`previous` chain does the same in the opposite order, and `size_` is the number
of value nodes. `la` and `na` are the values of `list_alloc_` and `node_alloc_`. -/
def Ring (h : Heap T A) (this : Addr) (ns : List (Addr × T)) (la na : A) : Prop :=
  (this :: ns.map Prod.fst).Nodup ∧
  h.mem[this]? = some (Cell.list (lastAddr ns this) (headAddr ns this) ns.length la na) ∧
  Seg h.mem this ns this

/-- The part of the store outside the footprint `fp` is the same in `h1` as in
`h`, and `h1` has not lost any cell. -/
def Frame (fp : List Addr) (h h1 : Heap T A) : Prop :=
  h.mem.length ≤ h1.mem.length ∧
  ∀ q, q < h.mem.length → q ∉ fp → h1.mem[q]? = h.mem[q]?

/-- No allocation and no payload construction will fail. -/
def NoFail (h : Heap T A) : Prop := h.allocBudget = none ∧ h.ctorBudget = none

/-- The state of a list object while a bulk constructor is linking nodes: the
nodes built so far hang off the sentinel in order, `fictitious_.previous` still
points at the sentinel itself, the last node is still linked to itself by
`BaseNode()`, and `size_` counts the nodes. Everything involved lives at or
above the address `b0`. -/
def Building (h : Heap T A) (this : Addr) (built : List (Addr × T)) (la na : A)
    (b0 : Nat) : Prop :=
  built ≠ [] ∧ (this :: built.map Prod.fst).Nodup ∧
  (∀ p ∈ this :: built.map Prod.fst, b0 ≤ p) ∧
  h.mem[this]? = some (Cell.list this (headAddr built this) built.length la na) ∧
  Seg h.mem this built (lastAddr built this)

/-- The allocator calls made while linking the nodes `news`. -/
def buildTrace (news : List (Addr × T)) : List Event :=
  news.flatMap (fun p => [Event.allocate p.1, Event.construct p.1])

/-- The cell at `a` is a node or a sentinel whose links are `previous = b` and
`following = f`. -/
def Links (m : List (Cell T A)) (a b f : Addr) : Prop :=
  (∃ v, m[a]? = some (Cell.node b f v)) ∨ (∃ n la na, m[a]? = some (Cell.list b f n la na))

/-- The allocator calls made while releasing the nodes `rs` in order. -/
def freeTrace (rs : List (Addr × T)) : List Event :=
  rs.flatMap (fun r => [Event.destroy r.1, Event.deallocate r.1])

/-- The link `p->following` in a store, when `p` is a node or a sentinel. -/
def followingOf (m : List (Cell T A)) (p : Addr) : Option Addr :=
  match m[p]? with
  | some (Cell.node _ f _) => some f
  | some (Cell.list _ f _ _ _) => some f
  | _ => none

/-- The link `p->previous` in a store. -/
def previousOf (m : List (Cell T A)) (p : Addr) : Option Addr :=
  match m[p]? with
  | some (Cell.node b _ _) => some b
  | some (Cell.list b _ _ _ _) => some b
  | _ => none

/-- The value nodes met when following the `following` links from `p` until the
sentinel `this` is reached, if it is reached within `fuel` steps. -/
def chase (m : List (Cell T A)) (this : Addr) : Nat → Addr → Option (List Addr)
  | fuel, p =>
    if p = this then some []
    else
      match fuel with
      | 0 => none
      | fuel + 1 =>
        match m[p]? with
        | some (Cell.node _ f _) => (chase m this fuel f).map (fun ps => p :: ps)
        | _ => none

/-- Both neighbours of `x` link back to `x`: `x.following.previous == x` and
`x.previous.following == x`. -/
def LinkedBack (m : List (Cell T A)) (x : Addr) : Prop :=
  (followingOf m x).bind (previousOf m) = some x ∧
  (previousOf m x).bind (followingOf m) = some x

/-- The ring invariant in the words of the specification: following the
`following` links from the sentinel visits each of the `size_` value nodes
exactly once and returns to the sentinel, and every node of the ring is linked
back by both of its neighbours. -/
def RingInvariant (h : Heap T A) (this : Addr) : Prop :=
  ∃ (b f n : Nat) (la na : A) (path : List Addr),
    h.mem[this]? = some (Cell.list b f n la na) ∧
    chase h.mem this n f = some path ∧ path.length = n ∧ path.Nodup ∧
    ∀ x ∈ this :: path, LinkedBack h.mem x

/-- The segment predicate can be checked by running along the segment. -/
instance Seg.decide [DecidableEq T] [DecidableEq A] (m : List (Cell T A)) :
    ∀ (prev : Addr) (ns : List (Addr × T)) (nxt : Addr), Decidable (Seg m prev ns nxt)
  | _, [], _ => isTrue trivial
  | prev, n :: rest, nxt =>
    match decEq (m[n.1]?) (some (Cell.node prev (headAddr rest nxt) n.2)),
        Seg.decide m n.1 rest nxt with
    | isTrue h1, isTrue h2 => isTrue ⟨h1, h2⟩
    | isFalse h1, _ => isFalse (fun h => h1 h.1)
    | _, isFalse h2 => isFalse (fun h => h2 h.2)

/-- The ring invariant can be checked on a concrete store. -/
instance Ring.decide [DecidableEq T] [DecidableEq A] (h : Heap T A) (this : Addr)
    (ns : List (Addr × T)) (la na : A) : Decidable (Ring h this ns la na) :=
  inferInstanceAs (Decidable (_ ∧ _ ∧ _))

end Invariant

/-! ## Partial correctness statements -/

section Hoare
variable {T A : Type}

/-- Partial correctness: whenever `m` runs to completion from a store
satisfying `P`, its result and the final store satisfy `Q`. -/
def Triple {α : Type} (P : Heap T A → Prop) (m : M T A α) (Q : α → Heap T A → Prop) : Prop :=
  ∀ h a h1, P h → m h = Res.ok a h1 → Q a h1

/-- The computation never completes normally (it throws, or worse). -/
def NeverOk {α : Type} (m : M T A α) : Prop := ∀ h a h1, m h ≠ Res.ok a h1

/-- The cell at `p` is a list object whose member `list_alloc_` is `la`. -/
def HasAlloc (p : Addr) (la : A) (h : Heap T A) : Prop :=
  ∃ b f n na, h.mem[p]? = some (Cell.list b f n la na)

/-- Running `m` to completion keeps `list_alloc_ = la` in the list object at `p`. -/
def Keeps {α : Type} (p : Addr) (la : A) (m : M T A α) : Prop :=
  Triple (HasAlloc p la) m (fun _ => HasAlloc p la)

end Hoare

/-! ## Concrete inputs -/

/-- Traits of a stateful allocator identified by a number: the default
allocator is number `0`, copies of a container get the same allocator, two
allocators differ when their numbers differ, and the allocator does not
propagate on copy assignment. -/
def natTraits : AllocTraits Nat := ⟨0, id, fun a b => a != b, false⟩

/-- The same allocator type with `propagate_on_container_copy_assignment` set. -/
def natTraitsProp : AllocTraits Nat := ⟨0, id, fun a b => a != b, true⟩

/-- The empty store in which nothing fails. -/
def emptyHeap : Heap Nat Nat := ⟨[], none, none, []⟩

/-- The empty store in which the payload constructor throws after `k`
successful constructions. -/
def throwAfter (k : Nat) : Heap Nat Nat := ⟨[], none, some k, []⟩

/-- The empty store in which memory runs out after `k` node allocations. -/
def memoryFor (k : Nat) : Heap Nat Nat := ⟨[], some k, none, []⟩

/-- A store holding one well formed list at address `0` with the elements
`10, 20` and allocator number `7`. -/
def heapA : Heap Nat Nat :=
  ⟨[Cell.list 2 1 2 7 0, Cell.node 0 2 10, Cell.node 1 0 20], none, none, []⟩

/-- The store `heapA` after the list at `0` has been copied to a new list at `3`. -/
def heapB : Heap Nat Nat :=
  ⟨[Cell.list 2 1 2 7 0, Cell.node 0 2 10, Cell.node 1 0 20, Cell.list 5 4 2 7 0,
    Cell.node 3 5 10, Cell.node 4 3 20], none, none,
    [Event.allocate 4, Event.construct 4, Event.allocate 5, Event.construct 5]⟩

/-- A store holding the list `1, 2, 3` with allocator number `7` at address `0`. -/
def heapE : Heap Nat Nat :=
  ⟨[Cell.list 3 1 3 7 0, Cell.node 0 2 1, Cell.node 1 3 2, Cell.node 2 0 3], none, none, []⟩

/-- A store holding the list `10, 20` with allocator number `7` at address `0`
and the list `30` with allocator number `8` at address `3`. -/
def heapC : Heap Nat Nat :=
  ⟨[Cell.list 2 1 2 7 0, Cell.node 0 2 10, Cell.node 1 0 20, Cell.list 4 4 1 8 0,
    Cell.node 3 3 30], none, none, []⟩

/-- The store `heapC` after the list at `0` has been assigned to the list at `3`
with a propagating allocator. -/
def heapD : Heap Nat Nat :=
  ⟨[Cell.list 2 1 2 7 0, Cell.node 0 2 10, Cell.node 1 0 20, Cell.list 7 6 2 7 0,
    Cell.freed, Cell.freed, Cell.node 3 7 10, Cell.node 6 3 20], none, none,
    [Event.allocate 6, Event.construct 6, Event.allocate 7, Event.construct 7,
      Event.destroy 4, Event.deallocate 4]⟩

/-! ## Basic facts about the model -/

section Lemmas
variable {T A : Type}

@[simp]
theorem bind_run {α β : Type} (x : M T A α) (f : α → M T A β) (h : Heap T A) :
    (x >>= f) h = M.bind x f h := rfl

@[simp]
theorem pure_run {α : Type} (a : α) (h : Heap T A) :
    (pure a : M T A α) h = Res.ok a h := rfl

@[simp]
theorem headAddr_nil (d : Addr) : headAddr ([] : List (Addr × T)) d = d := rfl
@[simp]
theorem headAddr_cons (n : Addr × T) (rest : List (Addr × T)) (d : Addr) :
    headAddr (n :: rest) d = n.1 := rfl
@[simp]
theorem lastAddr_nil (d : Addr) : lastAddr ([] : List (Addr × T)) d = d := rfl
@[simp]
theorem lastAddr_cons (n : Addr × T) (rest : List (Addr × T)) (d : Addr) :
    lastAddr (n :: rest) d = lastAddr rest n.1 := rfl

theorem exists_of_run {α : Type} {P : Heap T A → Prop} {x : Res (Heap T A) α} {a : α}
    (hk : ∀ r, x = r → ∃ h1, r = Res.ok a h1 ∧ P h1) : ∃ h1, x = Res.ok a h1 ∧ P h1 :=
  hk x rfl

theorem headAddr_append (as bs : List (Addr × T)) (d : Addr) :
    headAddr (as ++ bs) d = headAddr as (headAddr bs d) := by
  cases as <;> simp

theorem lastAddr_append (as bs : List (Addr × T)) (d : Addr) :
    lastAddr (as ++ bs) d = lastAddr bs (lastAddr as d) := by
  induction as generalizing d with
  | nil => simp
  | cons a as ih => simp [ih]

theorem lastAddr_mem (ns : List (Addr × T)) (d : Addr) :
    lastAddr ns d = d ∨ lastAddr ns d ∈ ns.map Prod.fst := by
  induction ns generalizing d with
  | nil => simp
  | cons a as ih =>
    rcases ih a.1 with h | h
    · right; simp [h]
    · right; simp only [lastAddr_cons, List.map_cons, List.mem_cons]; exact Or.inr h

theorem snoc_cases (ns : List (Addr × T)) : ns = [] ∨ ∃ ns0 n, ns = ns0 ++ [n] := by
  rcases List.eq_nil_or_concat ns with h | ⟨L, b, h⟩
  · exact Or.inl h
  · exact Or.inr ⟨L, b, by simpa using h⟩

theorem nodup_snoc {α : Type} {l : List α} {x : α} (hl : l.Nodup) (hx : x ∉ l) :
    (l ++ [x]).Nodup :=
  (List.Perm.nodup_iff (List.perm_append_singleton x l)).mpr (List.nodup_cons.mpr ⟨hx, hl⟩)

theorem nodup_snoc_iff {α : Type} {l : List α} {x : α} :
    (l ++ [x]).Nodup ↔ x ∉ l ∧ l.Nodup := by
  rw [List.Perm.nodup_iff (List.perm_append_singleton x l), List.nodup_cons]

theorem lt_of_cell {m : List (Cell T A)} {p : Addr} {c : Cell T A} (hc : m[p]? = some c) :
    p < m.length := by
  rcases Nat.lt_or_ge p m.length with hlt | hge
  · exact hlt
  · rw [List.getElem?_eq_none hge] at hc
    cases hc

theorem Seg_append (m : List (Cell T A)) :
    ∀ (as : List (Addr × T)) (prev : Addr) (bs : List (Addr × T)) (nxt : Addr),
      Seg m prev (as ++ bs) nxt ↔
        Seg m prev as (headAddr bs nxt) ∧ Seg m (lastAddr as prev) bs nxt := by
  intro as
  induction as with
  | nil => intro prev bs nxt; simp [Seg]
  | cons a as ih =>
    intro prev bs nxt
    have hstep : Seg m prev ((a :: as) ++ bs) nxt ↔
        (m[a.1]? = some (Cell.node prev (headAddr (as ++ bs) nxt) a.2) ∧
          Seg m a.1 (as ++ bs) nxt) := Iff.rfl
    rw [hstep, ih, headAddr_append]
    simp [Seg, and_assoc]

theorem Seg_lt {m : List (Cell T A)} :
    ∀ {ns : List (Addr × T)} {prev nxt : Addr}, Seg m prev ns nxt →
      ∀ p ∈ ns.map Prod.fst, p < m.length := by
  intro ns
  induction ns with
  | nil => intro _ _ _ p hp; simp at hp
  | cons a as ih =>
    intro prev nxt hs p hp
    simp only [List.map_cons, List.mem_cons] at hp
    rcases hp with rfl | hp
    · exact lt_of_cell hs.1
    · exact ih hs.2 p hp

theorem Seg_congr {m m1 : List (Cell T A)} :
    ∀ {ns : List (Addr × T)} {prev nxt : Addr},
      (∀ p ∈ ns.map Prod.fst, m1[p]? = m[p]?) → Seg m prev ns nxt → Seg m1 prev ns nxt := by
  intro ns
  induction ns with
  | nil => intro _ _ _ _; trivial
  | cons a as ih =>
    intro prev nxt hagree hs
    refine ⟨?_, ih (fun p hp => hagree p (by simp [hp])) hs.2⟩
    rw [hagree a.1 (by simp)]
    exact hs.1

theorem Ring_lt {h : Heap T A} {this : Addr} {ns : List (Addr × T)} {la na : A}
    (hr : Ring h this ns la na) : ∀ p ∈ this :: ns.map Prod.fst, p < h.mem.length := by
  intro p hp
  rcases List.mem_cons.mp hp with rfl | hp
  · exact lt_of_cell hr.2.1
  · exact Seg_lt hr.2.2 p hp

theorem Ring_frame {h h1 : Heap T A} {this : Addr} {ns : List (Addr × T)} {la na : A}
    (hr : Ring h this ns la na)
    (hagree : ∀ p ∈ this :: ns.map Prod.fst, h1.mem[p]? = h.mem[p]?) :
    Ring h1 this ns la na := by
  refine ⟨hr.1, ?_, Seg_congr (fun p hp => hagree p (List.mem_cons_of_mem _ hp)) hr.2.2⟩
  rw [hagree this (List.mem_cons_self _ _)]
  exact hr.2.1

theorem walk_seg (this : Addr) (h : Heap T A) :
    ∀ (ns : List (Addr × T)) (prev : Addr) (fuel : Nat),
      this ∉ ns.map Prod.fst → Seg h.mem prev ns this → ns.length ≤ fuel →
      walk false (Iterator.mk this) fuel (Iterator.mk (headAddr ns this)) h
        = Res.ok (ns.map Prod.snd) h := by
  intro ns
  induction ns with
  | nil =>
    intro prev fuel _ _ _
    unfold walk
    simp
  | cons n rest ih =>
    intro prev fuel hnot hseg hfuel
    obtain ⟨hc, hrest⟩ := hseg
    simp only [List.map_cons, List.mem_cons, not_or] at hnot
    cases fuel with
    | zero => simp at hfuel
    | succ fuel =>
      unfold walk
      have hne : n.1 ≠ this := fun e => hnot.1 e.symm
      have ih1 := ih n.1 fuel hnot.2 hrest (by simpa using hfuel)
      simp [hne, M.bind, Iterator.deref, get_value, hc, Iterator.inc, getFollowing, ih1]

theorem forward_ring {h : Heap T A} {this : Addr} {ns : List (Addr × T)} {la na : A}
    (hr : Ring h this ns la na) (fuel : Nat) (hfuel : ns.length ≤ fuel) :
    forward fuel this h = Res.ok (ns.map Prod.snd) h := by
  obtain ⟨hnd, hc, hseg⟩ := hr
  have hnot : this ∉ ns.map Prod.fst := (List.nodup_cons.mp hnd).1
  simp [forward, M.bind, begin_, end_, getFollowing, hc, walk_seg this h ns this fuel hnot hseg hfuel]

theorem size_ring {h : Heap T A} {this : Addr} {ns : List (Addr × T)} {la na : A}
    (hr : Ring h this ns la na) : size this h = Res.ok ns.length h := by
  obtain ⟨_, hc, _⟩ := hr
  simp [size, getSize, hc]

end Lemmas

/-! ## The four end operations on a well formed ring -/

section Ops
variable {T A : Type}

theorem push_front_ring {h : Heap T A} {this : Addr} {ns : List (Addr × T)} {la na : A}
    (hr : Ring h this ns la na) (hnf : NoFail h) (v : T) :
    ∃ h1, push_front this v h = Res.ok () h1 ∧
      Ring h1 this ((h.mem.length, v) :: ns) la na ∧ NoFail h1 ∧
      Frame (this :: ns.map Prod.fst) h h1 ∧ h1.mem.length = h.mem.length + 1 ∧
      h1.trace = h.trace ++ [Event.allocate h.mem.length, Event.construct h.mem.length] := by
  have hlts := Ring_lt hr
  obtain ⟨hnd, hc, hseg⟩ := hr
  obtain ⟨hab, hcb⟩ := hnf
  have hlt := lt_of_cell hc
  have hne : this ≠ h.mem.length := Nat.ne_of_lt hlt
  cases ns with
  | nil =>
    simp only [lastAddr_nil, headAddr_nil, List.length_nil] at hc
    apply exists_of_run
    intro r hrun
    simp [-List.getElem?_eq_getElem, List.getElem?_cons_zero, push_front, M.bind, allocate,
          tryCatch, construct, hab, hcb, getFollowing, setFollowing,
          setPrevious, incSize, getSize, setSize, List.getElem?_append, List.getElem?_set, hlt, hc, hne,
        hne.symm] at hrun
    subst hrun
    refine ⟨_, rfl, ?_⟩
    · refine ⟨⟨?_, ?_, ?_⟩, ⟨rfl, rfl⟩, ⟨?_, ?_⟩, ?_, rfl⟩
      · simp [hne]
      · simp [-List.getElem?_eq_getElem, List.getElem?_append, List.getElem?_set, hlt]
      · simp [-List.getElem?_eq_getElem, List.getElem?_cons_zero, Seg, List.getElem?_append,
          List.getElem?_set, hlt]
      · simp
      · intro q hq hqn
        simp only [List.map_nil, List.mem_singleton] at hqn
        simp [-List.getElem?_eq_getElem, List.getElem?_append, List.getElem?_set, hq, Ne.symm hqn]
      · simp
  | cons n rest =>
    obtain ⟨hn, hrest⟩ := hseg
    have hnlt := lt_of_cell hn
    have hnne : n.1 ≠ h.mem.length := Nat.ne_of_lt hnlt
    have hnd0 := hnd
    simp only [List.map_cons, List.nodup_cons, List.mem_cons, not_or] at hnd
    obtain ⟨⟨htn, htr⟩, hnr, hrnd⟩ := hnd
    simp only [lastAddr_cons, headAddr_cons, List.length_cons] at hc
    apply exists_of_run
    intro r hrun
    simp [-List.getElem?_eq_getElem, List.getElem?_cons_zero, push_front, M.bind, allocate,
          tryCatch, construct, hab, hcb, getFollowing, setFollowing,
          setPrevious, incSize, getSize, setSize, List.getElem?_append, List.getElem?_set, hlt, hc, hne,
        hne.symm, hn, hnlt, hnne, hnne.symm, htn, Ne.symm htn] at hrun
    subst hrun
    refine ⟨_, rfl, ?_⟩
    · have hfresh : h.mem.length ∉ this :: List.map Prod.fst (n :: rest) :=
        fun hm => Nat.lt_irrefl _ (hlts _ hm)
      refine ⟨⟨?_, ?_, ?_, ?_⟩, ⟨rfl, rfl⟩, ⟨?_, ?_⟩, ?_, rfl⟩
      · have hnd1 : (h.mem.length :: this :: List.map Prod.fst (n :: rest)).Nodup :=
          List.nodup_cons.mpr ⟨hfresh, hnd0⟩
        exact (List.Perm.nodup_iff (List.Perm.swap _ _ _)).mp hnd1
      · simp [-List.getElem?_eq_getElem, List.getElem?_append, List.getElem?_set, hlt]
      · simp [-List.getElem?_eq_getElem, List.getElem?_cons_zero, List.getElem?_append,
          List.getElem?_set, hlt]
      · refine ⟨?_, Seg_congr ?_ hrest⟩
        · simp [-List.getElem?_eq_getElem, List.getElem?_append, List.getElem?_set, hnlt,
            htn]
        · intro p hp
          have hpl := Seg_lt hrest p hp
          have hpt : this ≠ p := fun e => htr (e ▸ hp)
          have hpn : n.1 ≠ p := fun e => hnr (e ▸ hp)
          simp [-List.getElem?_eq_getElem, List.getElem?_append, List.getElem?_set, hpl, hpt, hpn]
      · simp
      · intro q hq hqn
        simp only [List.map_cons, List.mem_cons, not_or] at hqn
        simp [-List.getElem?_eq_getElem, List.getElem?_append, List.getElem?_set, hq,
          Ne.symm hqn.1, Ne.symm hqn.2.1]
      · simp

theorem pop_front_ring {h : Heap T A} {this : Addr} {n : Addr × T} {rest : List (Addr × T)}
    {la na : A} (hr : Ring h this (n :: rest) la na) :
    ∃ h1, pop_front this h = Res.ok () h1 ∧
      Ring h1 this rest la na ∧ h1.allocBudget = h.allocBudget ∧ h1.ctorBudget = h.ctorBudget ∧
      Frame (this :: (n :: rest).map Prod.fst) h h1 ∧ h1.mem.length = h.mem.length ∧
      h1.mem[n.1]? = some Cell.freed ∧
      h1.trace = h.trace ++ [Event.destroy n.1, Event.deallocate n.1] := by
  have hlts := Ring_lt hr
  obtain ⟨hnd, hc, hseg⟩ := hr
  have hlt := lt_of_cell hc
  obtain ⟨hn, hrest⟩ := hseg
  have hnlt := lt_of_cell hn
  simp only [List.map_cons, List.nodup_cons, List.mem_cons, not_or] at hnd
  obtain ⟨⟨htn, htr⟩, hnr, hrnd⟩ := hnd
  simp only [lastAddr_cons, headAddr_cons, List.length_cons] at hc
  cases rest with
  | nil =>
    simp only [lastAddr_nil, headAddr_nil, List.length_nil] at hc hn
    apply exists_of_run
    intro r hrun
    simp [-List.getElem?_eq_getElem, pop_front, M.bind, destroy, deallocate, decSize, decWrap,
      getFollowing, getPrevious, setFollowing, setPrevious, getSize, setSize,
      List.getElem?_set, hlt, hc, hn, hnlt, htn, Ne.symm htn] at hrun
    subst hrun
    refine ⟨_, rfl, ⟨?_, ?_, trivial⟩, rfl, rfl, ⟨?_, ?_⟩, ?_, ?_, rfl⟩
    · simp
    · simp [-List.getElem?_eq_getElem, List.getElem?_set, hlt, htn, Ne.symm htn]
    · simp
    · intro q hq hqn
      simp only [List.map_cons, List.map_nil, List.mem_cons, List.not_mem_nil, or_false, not_or] at hqn
      simp [-List.getElem?_eq_getElem, List.getElem?_set, Ne.symm hqn.1, Ne.symm hqn.2]
    · simp
    · simp [-List.getElem?_eq_getElem, List.getElem?_set, hnlt, htn, Ne.symm htn]
  | cons m rest =>
    obtain ⟨hm, hrest⟩ := hrest
    have hmlt := lt_of_cell hm
    simp only [List.map_cons, List.nodup_cons, List.mem_cons, not_or] at htr hnr hrnd
    obtain ⟨htm, htr⟩ := htr
    obtain ⟨hnm, hnr⟩ := hnr
    obtain ⟨hmr, hrnd⟩ := hrnd
    simp only [lastAddr_cons, headAddr_cons, List.length_cons] at hc hn
    apply exists_of_run
    intro r hrun
    simp [-List.getElem?_eq_getElem, pop_front, M.bind, destroy, deallocate, decSize, decWrap,
      getFollowing, getPrevious, setFollowing, setPrevious, getSize, setSize,
      List.getElem?_set, hlt, hc, hn, hnlt, htn, Ne.symm htn, hm, hmlt, htm, Ne.symm htm, hnm,
      Ne.symm hnm] at hrun
    subst hrun
    refine ⟨_, rfl, ⟨?_, ?_, ?_, ?_⟩, rfl, rfl, ⟨?_, ?_⟩, ?_, ?_, rfl⟩
    · simp [htm, htr, hmr, hrnd]
    · simp [-List.getElem?_eq_getElem, List.getElem?_set, hlt, htn, Ne.symm htn, htm, Ne.symm htm]
    · simp [-List.getElem?_eq_getElem, List.getElem?_set, hmlt, htn, Ne.symm htn, htm,
        Ne.symm htm, hnm, Ne.symm hnm]
    · refine Seg_congr ?_ hrest
      intro p hp
      have hpt : this ≠ p := fun e => htr (e ▸ hp)
      have hpn : n.1 ≠ p := fun e => hnr (e ▸ hp)
      have hpm : m.1 ≠ p := fun e => hmr (e ▸ hp)
      simp [-List.getElem?_eq_getElem, List.getElem?_set, hpt, hpn, hpm]
    · simp
    · intro q hq hqn
      simp only [List.map_cons, List.mem_cons, not_or] at hqn
      simp [-List.getElem?_eq_getElem, List.getElem?_set, Ne.symm hqn.1, Ne.symm hqn.2.1,
        Ne.symm hqn.2.2.1]
    · simp
    · simp [-List.getElem?_eq_getElem, List.getElem?_set, hnlt, htn, Ne.symm htn, hnm,
        Ne.symm hnm]

theorem push_back_ring {h : Heap T A} {this : Addr} {ns : List (Addr × T)} {la na : A}
    (hr : Ring h this ns la na) (hnf : NoFail h) (v : T) :
    ∃ h1, push_back this v h = Res.ok () h1 ∧
      Ring h1 this (ns ++ [(h.mem.length, v)]) la na ∧ NoFail h1 ∧
      Frame (this :: ns.map Prod.fst) h h1 ∧ h1.mem.length = h.mem.length + 1 ∧
      h1.trace = h.trace ++ [Event.allocate h.mem.length, Event.construct h.mem.length] := by
  have hlts := Ring_lt hr
  obtain ⟨hnd, hc, hseg⟩ := hr
  obtain ⟨hab, hcb⟩ := hnf
  have hlt := lt_of_cell hc
  have hne : this ≠ h.mem.length := Nat.ne_of_lt hlt
  rcases snoc_cases ns with rfl | ⟨ns0, n, rfl⟩
  · simp only [lastAddr_nil, headAddr_nil, List.length_nil] at hc
    apply exists_of_run
    intro r hrun
    simp [-List.getElem?_eq_getElem, List.getElem?_cons_zero, push_back, M.bind, allocate,
      tryCatch, construct, hab, hcb, getPrevious, setFollowing,
      setPrevious, incSize, getSize, setSize, List.getElem?_append, List.getElem?_set, hlt, hc, hne,
      hne.symm] at hrun
    subst hrun
    refine ⟨_, rfl, ⟨?_, ?_, ?_⟩, ⟨rfl, rfl⟩, ⟨?_, ?_⟩, ?_, rfl⟩
    · simp [hne]
    · simp [-List.getElem?_eq_getElem, List.getElem?_append, List.getElem?_set, hlt]
    · simp [-List.getElem?_eq_getElem, List.getElem?_cons_zero, Seg, List.getElem?_append,
        List.getElem?_set, hlt]
    · simp
    · intro q hq hqn
      simp only [List.map_nil, List.mem_singleton] at hqn
      simp [-List.getElem?_eq_getElem, List.getElem?_append, List.getElem?_set, hq, Ne.symm hqn]
    · simp
  · rw [Seg_append] at hseg
    obtain ⟨hseg0, hn, _⟩ := hseg
    simp only [lastAddr_append, headAddr_append, lastAddr_cons, headAddr_cons, lastAddr_nil,
      headAddr_nil, List.length_append, List.length_singleton] at hc hn hseg0
    have hnlt := lt_of_cell hn
    have hnne : n.1 ≠ h.mem.length := Nat.ne_of_lt hnlt
    have hnd0 := hnd
    simp only [List.map_append, List.map_cons, List.map_nil, List.nodup_cons, List.mem_append,
      List.mem_singleton, not_or, nodup_snoc_iff] at hnd
    obtain ⟨⟨htr, htn⟩, hnr, hrnd⟩ := hnd
    apply exists_of_run
    intro r hrun
    simp [-List.getElem?_eq_getElem, List.getElem?_cons_zero, push_back, M.bind, allocate,
      tryCatch, construct, hab, hcb, getPrevious, setFollowing,
      setPrevious, incSize, getSize, setSize, List.getElem?_append, List.getElem?_set, hlt, hc, hne,
      hne.symm, hn, hnlt, hnne, hnne.symm, htn, Ne.symm htn] at hrun
    subst hrun
    have hfresh : h.mem.length ∉ this :: List.map Prod.fst (ns0 ++ [n]) :=
      fun hm => Nat.lt_irrefl _ (hlts _ hm)
    refine ⟨_, rfl, ⟨?_, ?_, ?_⟩, ⟨rfl, rfl⟩, ⟨?_, ?_⟩, ?_, rfl⟩
    · rw [List.map_append, ← List.cons_append]
      exact nodup_snoc hnd0 hfresh
    · simp [-List.getElem?_eq_getElem, List.getElem?_append, List.getElem?_set, hlt,
        lastAddr_append, headAddr_append]
    · simp only [Seg_append, Seg, lastAddr_append, headAddr_append, lastAddr_cons, headAddr_cons,
        lastAddr_nil, headAddr_nil, and_true]
      refine ⟨⟨Seg_congr ?_ hseg0, ?_⟩, ?_⟩
      · intro p hp
        have hpl := Seg_lt hseg0 p hp
        have hpt : this ≠ p := fun e => htr (e ▸ hp)
        have hpn : n.1 ≠ p := fun e => hnr (e ▸ hp)
        simp [-List.getElem?_eq_getElem, List.getElem?_append, List.getElem?_set, hpl, hpt, hpn]
      · simp [-List.getElem?_eq_getElem, List.getElem?_append, List.getElem?_set, hnlt, htn]
      · simp [-List.getElem?_eq_getElem, List.getElem?_cons_zero, List.getElem?_append,
          List.getElem?_set, hlt]
    · simp
    · intro q hq hqn
      simp only [List.map_append, List.map_cons, List.map_nil, List.mem_cons, List.mem_append,
        List.mem_singleton, not_or] at hqn
      simp [-List.getElem?_eq_getElem, List.getElem?_append, List.getElem?_set, hq,
        Ne.symm hqn.1, Ne.symm hqn.2.2.1]
    · simp

theorem pop_back_ring {h : Heap T A} {this : Addr} {ns0 : List (Addr × T)} {n : Addr × T}
    {la na : A} (hr : Ring h this (ns0 ++ [n]) la na) :
    ∃ h1, pop_back this h = Res.ok () h1 ∧
      Ring h1 this ns0 la na ∧ h1.allocBudget = h.allocBudget ∧ h1.ctorBudget = h.ctorBudget ∧
      Frame (this :: (ns0 ++ [n]).map Prod.fst) h h1 ∧ h1.mem.length = h.mem.length ∧
      h1.mem[n.1]? = some Cell.freed ∧
      h1.trace = h.trace ++ [Event.destroy n.1, Event.deallocate n.1] := by
  have hlts := Ring_lt hr
  obtain ⟨hnd, hc, hseg⟩ := hr
  have hlt := lt_of_cell hc
  rw [Seg_append] at hseg
  obtain ⟨hseg0, hn, _⟩ := hseg
  simp only [lastAddr_append, headAddr_append, lastAddr_cons, headAddr_cons, lastAddr_nil,
    headAddr_nil, List.length_append, List.length_singleton] at hc hn hseg0
  have hnlt := lt_of_cell hn
  simp only [List.map_append, List.map_cons, List.map_nil, List.nodup_cons, List.mem_append,
    List.mem_singleton, not_or, nodup_snoc_iff] at hnd
  obtain ⟨⟨htr, htn⟩, hnr, hrnd⟩ := hnd
  rcases snoc_cases ns0 with rfl | ⟨ns00, m, rfl⟩
  · simp only [lastAddr_nil, headAddr_nil, List.length_nil] at hc hn
    apply exists_of_run
    intro r hrun
    simp [-List.getElem?_eq_getElem, pop_back, M.bind, destroy, deallocate, decSize, decWrap,
      getFollowing, getPrevious, setFollowing, setPrevious, getSize, setSize,
      List.getElem?_set, hlt, hc, hn, hnlt, htn, Ne.symm htn] at hrun
    subst hrun
    refine ⟨_, rfl, ⟨?_, ?_, trivial⟩, rfl, rfl, ⟨?_, ?_⟩, ?_, ?_, rfl⟩
    · simp
    · simp [-List.getElem?_eq_getElem, List.getElem?_set, hlt, htn, Ne.symm htn]
    · simp
    · intro q hq hqn
      simp only [List.nil_append, List.map_cons, List.map_nil, List.mem_cons, List.not_mem_nil,
        or_false, not_or] at hqn
      simp [-List.getElem?_eq_getElem, List.getElem?_set, Ne.symm hqn.1, Ne.symm hqn.2]
    · simp
    · simp [-List.getElem?_eq_getElem, List.getElem?_set, hnlt, htn, Ne.symm htn]
  · rw [Seg_append] at hseg0
    obtain ⟨hseg00, hm, _⟩ := hseg0
    simp only [lastAddr_append, headAddr_append, lastAddr_cons, headAddr_cons, lastAddr_nil,
      headAddr_nil, List.length_append, List.length_singleton] at hc hn hm hseg00
    have hmlt := lt_of_cell hm
    simp only [List.map_append, List.map_cons, List.map_nil, List.mem_append,
      List.mem_singleton, not_or, nodup_snoc_iff] at htr hnr hrnd
    obtain ⟨htr, htm⟩ := htr
    obtain ⟨hnr, hnm⟩ := hnr
    obtain ⟨hmr, hrnd⟩ := hrnd
    apply exists_of_run
    intro r hrun
    simp [-List.getElem?_eq_getElem, pop_back, M.bind, destroy, deallocate, decSize, decWrap,
      getFollowing, getPrevious, setFollowing, setPrevious, getSize, setSize,
      List.getElem?_set, hlt, hc, hn, hnlt, htn, Ne.symm htn, hm, hmlt, htm, Ne.symm htm, hnm,
      Ne.symm hnm] at hrun
    subst hrun
    refine ⟨_, rfl, ⟨?_, ?_, ?_⟩, rfl, rfl, ⟨?_, ?_⟩, ?_, ?_, rfl⟩
    · simp only [List.map_append, List.map_cons, List.map_nil, List.nodup_cons, List.mem_append,
        List.mem_singleton, not_or, nodup_snoc_iff]
      exact ⟨⟨htr, htm⟩, hmr, hrnd⟩
    · simp [-List.getElem?_eq_getElem, List.getElem?_set, hlt, htn, Ne.symm htn, htm, Ne.symm htm,
        lastAddr_append, headAddr_append]
    · simp only [Seg_append, Seg, lastAddr_append, headAddr_append, lastAddr_cons, headAddr_cons,
        lastAddr_nil, headAddr_nil, and_true]
      refine ⟨Seg_congr ?_ hseg00, ?_⟩
      · intro p hp
        have hpt : this ≠ p := fun e => htr (e ▸ hp)
        have hpn : n.1 ≠ p := fun e => hnr (e ▸ hp)
        have hpm : m.1 ≠ p := fun e => hmr (e ▸ hp)
        simp [-List.getElem?_eq_getElem, List.getElem?_set, hpt, hpn, hpm]
      · simp [-List.getElem?_eq_getElem, List.getElem?_set, hmlt, htn, Ne.symm htn, htm,
          Ne.symm htm, hnm, Ne.symm hnm]
    · simp
    · intro q hq hqn
      simp only [List.map_append, List.map_cons, List.map_nil, List.mem_cons, List.mem_append,
        List.mem_singleton, List.not_mem_nil, or_false, not_or] at hqn
      simp [-List.getElem?_eq_getElem, List.getElem?_set, Ne.symm hqn.1, Ne.symm hqn.2.1.2,
        Ne.symm hqn.2.2]
    · simp
    · simp [-List.getElem?_eq_getElem, List.getElem?_set, hnlt, htn, Ne.symm htn, hnm,
        Ne.symm hnm]
end Ops

/-! ## Sequences of operations on a default constructed list -/

section SequenceProofs
variable {T A : Type}

theorem List_default_ring (τ : AllocTraits A) (h : Heap T A) :
    ∃ h1, List_default τ h = Res.ok h.mem.length h1 ∧
      Ring h1 h.mem.length [] τ.dflt τ.dflt ∧ h1.allocBudget = h.allocBudget ∧
      h1.ctorBudget = h.ctorBudget ∧ h1.trace = h.trace ∧
      h1.mem = h.mem ++ [Cell.list h.mem.length h.mem.length 0 τ.dflt τ.dflt] := by
  refine ⟨_, rfl, ⟨?_, ?_, trivial⟩, rfl, rfl, rfl, rfl⟩
  · simp
  · simp [-List.getElem?_eq_getElem, List.getElem?_append, List.getElem?_cons_zero]

theorem run_ring {h : Heap T A} {this : Addr} {ns : List (Addr × T)} {la na : A}
    (hr : Ring h this ns la na) (hnf : NoFail h) (op : Op T) (ys : List T)
    (hspec : op.spec (ns.map Prod.snd) = some ys) :
    ∃ h1 ns1, op.run this h = Res.ok () h1 ∧ Ring h1 this ns1 la na ∧ NoFail h1 ∧
      ns1.map Prod.snd = ys ∧ ns1.length ≤ ns.length + 1 ∧
      Frame (this :: ns.map Prod.fst) h h1 := by
  cases op with
  | push_back v =>
    obtain ⟨h1, hrun, hr1, hnf1, hfr, _⟩ := push_back_ring hr hnf v
    simp only [Op.spec, Option.some.injEq] at hspec
    exact ⟨h1, _, hrun, hr1, hnf1, by simp [← hspec], by simp, hfr⟩
  | push_front v =>
    obtain ⟨h1, hrun, hr1, hnf1, hfr, _⟩ := push_front_ring hr hnf v
    simp only [Op.spec, Option.some.injEq] at hspec
    exact ⟨h1, _, hrun, hr1, hnf1, by simp [← hspec], by simp, hfr⟩
  | pop_back =>
    rcases snoc_cases ns with rfl | ⟨ns0, n, rfl⟩
    · simp [Op.spec] at hspec
    · obtain ⟨h1, hrun, hr1, hab, hcb, hfr, _⟩ := pop_back_ring hr
      have hys : ys = ns0.map Prod.snd := by
        have hm : List.map Prod.snd (ns0 ++ [n]) = List.map Prod.snd ns0 ++ [n.2] := by simp
        rw [hm] at hspec
        cases hl : List.map Prod.snd ns0 with
        | nil => rw [hl] at hspec; simp [Op.spec] at hspec; exact hspec
        | cons x xs =>
          rw [hl] at hspec
          simp only [List.cons_append, Op.spec, Option.some.injEq] at hspec
          rw [← hspec, ← List.cons_append, List.dropLast_concat]
      exact ⟨h1, ns0, hrun, hr1, ⟨hab.trans hnf.1, hcb.trans hnf.2⟩, hys.symm, by simp only [List.length_append, List.length_singleton]; omega, hfr⟩
  | pop_front =>
    cases ns with
    | nil => simp [Op.spec] at hspec
    | cons n rest =>
      obtain ⟨h1, hrun, hr1, hab, hcb, hfr, _⟩ := pop_front_ring hr
      simp only [List.map_cons, Op.spec, Option.some.injEq] at hspec
      exact ⟨h1, rest, hrun, hr1, ⟨hab.trans hnf.1, hcb.trans hnf.2⟩, hspec, by simp only [List.length_cons]; omega, hfr⟩

theorem runObs_ring (this : Addr) (la na : A) :
    ∀ (ops : List (Op T)) (h : Heap T A) (ns : List (Addr × T)),
      Ring h this ns la na → NoFail h →
      ∀ obs, specObs ops (ns.map Prod.snd) = some obs →
      ∀ fuel, ns.length + ops.length ≤ fuel →
      ∃ h1, runObs fuel this ops h = Res.ok obs h1 := by
  intro ops
  induction ops with
  | nil =>
    intro h ns _ _ obs hobs fuel _
    simp only [specObs, Option.some.injEq] at hobs
    subst hobs
    exact ⟨h, rfl⟩
  | cons op ops ih =>
    intro h ns hr hnf obs hobs fuel hfuel
    simp only [List.length_cons] at hfuel
    simp only [specObs] at hobs
    cases hs : op.spec (List.map Prod.snd ns) with
    | none => simp [hs] at hobs
    | some ys =>
      obtain ⟨h1, ns1, hrun, hr1, hnf1, hmap, hlen, _⟩ := run_ring hr hnf op ys hs
      simp only [hs] at hobs
      cases hrest : specObs ops ys with
      | none => simp [hrest] at hobs
      | some rest =>
        simp only [hrest, Option.map_some', Option.some.injEq] at hobs
        subst hobs
        obtain ⟨h2, hrun2⟩ := ih h1 ns1 hr1 hnf1 rest (by rw [hmap]; exact hrest) fuel (by omega)
        refine ⟨h2, ?_⟩
        have hf := forward_ring hr1 fuel (by omega)
        have hlen2 : ys.length = ns1.length := by rw [← hmap]; simp
        simp [runObs, M.bind, hrun, size_ring hr1, hf, hrun2, hmap, hlen2]

/-- Claim C1. Start from a default constructed list and apply any sequence of
`push_back` / `push_front` / `pop_back` / `pop_front` in which no pop meets an
empty list, with no allocation or payload construction failing. Then the
program runs to completion and, after every step, `size()` is the length of the
abstract sequence and the forward traversal from `begin()` to `end()` is that
sequence (the traversal needs no more iterations than there were operations). -/
theorem ops_track_abstract_sequence (τ : AllocTraits A) (h : Heap T A) (hnf : NoFail h)
    (ops : List (Op T)) (obs : List (Nat × List T)) (hobs : specObs ops [] = some obs)
    (fuel : Nat) (hfuel : ops.length ≤ fuel) :
    ∃ h1, (do let l ← List_default τ; runObs fuel l ops : M T A _) h = Res.ok obs h1 := by
  obtain ⟨h0, hrun0, hr0, hab, hcb, _⟩ := List_default_ring τ h
  have hnf0 : NoFail h0 := ⟨hab.trans hnf.1, hcb.trans hnf.2⟩
  obtain ⟨h1, hrun1⟩ := runObs_ring h.mem.length τ.dflt τ.dflt ops h0 [] hr0 hnf0 obs hobs fuel
    (by simpa using hfuel)
  exact ⟨h1, by simp [M.bind, hrun0, hrun1]⟩

theorem ops_track_abstract_sequence_witness :
    NoFail emptyHeap ∧
    specObs [Op.push_back 1, Op.push_front 0, Op.push_back 2, Op.pop_back, Op.pop_front] []
      = some [(1, [1]), (2, [0, 1]), (3, [0, 1, 2]), (2, [0, 1]), (1, [1])] ∧
    ∃ h1, (do let l ← List_default natTraits
              runObs 5 l [Op.push_back 1, Op.push_front 0, Op.push_back 2, Op.pop_back,
                Op.pop_front] : M Nat Nat _) emptyHeap
      = Res.ok [(1, [1]), (2, [0, 1]), (3, [0, 1, 2]), (2, [0, 1]), (1, [1])] h1 :=
  ⟨⟨rfl, rfl⟩, by decide,
    ops_track_abstract_sequence natTraits emptyHeap ⟨rfl, rfl⟩ _ _ (by decide) 5 (by decide)⟩

end SequenceProofs

/-! ## The bulk constructors when nothing fails -/

section Bulk
variable {T A : Type}

theorem Building_lt {h : Heap T A} {this : Addr} {built : List (Addr × T)} {la na : A}
    {b0 : Nat} (hb : Building h this built la na b0) :
    ∀ p ∈ this :: built.map Prod.fst, p < h.mem.length := by
  intro p hp
  rcases List.mem_cons.mp hp with rfl | hp
  · exact lt_of_cell hb.2.2.2.1
  · exact Seg_lt hb.2.2.2.2 p hp

theorem fill_step_building {h : Heap T A} {this : Addr} {built : List (Addr × T)} {la na : A}
    {b0 : Nat} (hb : Building h this built la na b0) (hnf : NoFail h) (v : T) :
    ∃ h1, fill_step this v (lastAddr built this) h = Res.ok h.mem.length h1 ∧
      Building h1 this (built ++ [(h.mem.length, v)]) la na b0 ∧ NoFail h1 ∧
      (∀ q, q < b0 → h1.mem[q]? = h.mem[q]?) ∧ h1.mem.length = h.mem.length + 1 ∧
      h1.trace = h.trace ++ [Event.allocate h.mem.length, Event.construct h.mem.length] := by
  have hlts := Building_lt hb
  obtain ⟨hne0, hnd, hlow, hc, hseg⟩ := hb
  obtain ⟨hab, hcb⟩ := hnf
  have hlt := lt_of_cell hc
  have hne : this ≠ h.mem.length := Nat.ne_of_lt hlt
  rcases snoc_cases built with rfl | ⟨built0, n, rfl⟩
  · exact absurd rfl hne0
  · rw [Seg_append] at hseg
    obtain ⟨hseg0, hn, _⟩ := hseg
    simp only [lastAddr_append, headAddr_append, lastAddr_cons, headAddr_cons, lastAddr_nil,
      headAddr_nil, List.length_append, List.length_singleton] at hc hn hseg0 ⊢
    have hnlt := lt_of_cell hn
    have hnne : n.1 ≠ h.mem.length := Nat.ne_of_lt hnlt
    have hnd0 := hnd
    simp only [List.map_append, List.map_cons, List.map_nil, List.nodup_cons, List.mem_append,
      List.mem_singleton, not_or, nodup_snoc_iff] at hnd
    obtain ⟨⟨htr, htn⟩, hnr, hrnd⟩ := hnd
    apply exists_of_run
    intro r hrun
    simp [-List.getElem?_eq_getElem, List.getElem?_cons_zero, fill_step, M.bind, allocate,
      tryCatch, construct, hab, hcb, getFollowing, setFollowing,
      setPrevious, incSize, getSize, setSize, List.getElem?_append, List.getElem?_set, hlt, hc, hne,
      hne.symm, hn, hnlt, hnne, hnne.symm, htn, Ne.symm htn] at hrun
    subst hrun
    have hfresh : h.mem.length ∉ this :: List.map Prod.fst (built0 ++ [n]) :=
      fun hm => Nat.lt_irrefl _ (hlts _ hm)
    refine ⟨_, rfl, ⟨?_, ?_, ?_, ?_, ?_⟩, ⟨rfl, rfl⟩, ?_, ?_, rfl⟩
    · simp
    · rw [List.map_append, ← List.cons_append]
      exact nodup_snoc hnd0 hfresh
    · intro p hp
      rw [List.map_append, ← List.cons_append, List.mem_append] at hp
      rcases hp with hp | hp
      · exact hlow p hp
      · simp only [List.map_cons, List.map_nil, List.mem_singleton] at hp
        subst hp
        exact Nat.le_trans (hlow this (List.mem_cons_self _ _)) (Nat.le_of_lt hlt)
    · simp [-List.getElem?_eq_getElem, List.getElem?_append, List.getElem?_set, hlt,
        lastAddr_append, headAddr_append, htn, Ne.symm htn]
    · simp only [Seg_append, Seg, lastAddr_append, headAddr_append, lastAddr_cons, headAddr_cons,
        lastAddr_nil, headAddr_nil, and_true]
      refine ⟨⟨Seg_congr ?_ hseg0, ?_⟩, ?_⟩
      · intro p hp
        have hpl := Seg_lt hseg0 p hp
        have hpt : this ≠ p := fun e => htr (e ▸ hp)
        have hpn : n.1 ≠ p := fun e => hnr (e ▸ hp)
        simp [-List.getElem?_eq_getElem, List.getElem?_append, List.getElem?_set, hpl, hpt, hpn]
      · simp [-List.getElem?_eq_getElem, List.getElem?_append, List.getElem?_set, hnlt, htn]
      · simp [-List.getElem?_eq_getElem, List.getElem?_cons_zero, List.getElem?_append,
          List.getElem?_set, hlt]
    · intro q hq
      have hqt : this ≠ q := fun e => Nat.lt_irrefl _
        (Nat.lt_of_lt_of_le (e ▸ hq) (hlow this (List.mem_cons_self _ _)))
      have hqn : n.1 ≠ q := fun e => Nat.lt_irrefl _
        (Nat.lt_of_lt_of_le (e ▸ hq) (hlow n.1 (by simp)))
      have hql : q < h.mem.length :=
        Nat.lt_of_lt_of_le hq (Nat.le_trans (hlow this (List.mem_cons_self _ _)) (Nat.le_of_lt hlt))
      simp [-List.getElem?_eq_getElem, List.getElem?_append, List.getElem?_set, hql, hqt, hqn]
    · simp


theorem fill_loop_building (this : Addr) (v : T) (la na : A) (b0 : Nat) :
    ∀ (n : Nat) (h : Heap T A) (built : List (Addr × T)),
      Building h this built la na b0 → NoFail h →
      ∃ h1 news, fill_loop this v n (lastAddr built this) h
          = Res.ok (lastAddr (built ++ news) this) h1 ∧
        Building h1 this (built ++ news) la na b0 ∧ NoFail h1 ∧
        news.map Prod.snd = List.replicate n v ∧
        (∀ q, q < b0 → h1.mem[q]? = h.mem[q]?) ∧ h1.mem.length = h.mem.length + n ∧
        h1.trace = h.trace ++ buildTrace news := by
  intro n
  induction n with
  | zero =>
    intro h built hb hnf
    exact ⟨h, [], by simp [fill_loop], by simpa using hb, hnf, rfl, fun _ _ => rfl, rfl,
      by simp [buildTrace]⟩
  | succ n ih =>
    intro h built hb hnf
    obtain ⟨h1, hrun1, hb1, hnf1, hfr1, hlen1, htr1⟩ := fill_step_building hb hnf v
    obtain ⟨h2, news, hrun2, hb2, hnf2, hval2, hfr2, hlen2, htr2⟩ := ih h1 _ hb1 hnf1
    have hlast : lastAddr (built ++ [(h.mem.length, v)]) this = h.mem.length := by
      simp [lastAddr_append]
    rw [hlast] at hrun2
    refine ⟨h2, (h.mem.length, v) :: news, ?_, ?_, hnf2, ?_, ?_, ?_, ?_⟩
    · simp only [fill_loop, bind_run, M.bind, hrun1, hrun2]
      simp
    · simpa using hb2
    · simp [hval2, List.replicate_succ]
    · intro q hq
      rw [hfr2 q hq, hfr1 q hq]
    · omega
    · rw [htr2, htr1]
      simp [buildTrace]

theorem Building_close {h : Heap T A} {this : Addr} {built : List (Addr × T)} {la na : A}
    {b0 : Nat} (hb : Building h this built la na b0) :
    ∃ hm h1, setFollowing (lastAddr built this) this h = Res.ok () hm ∧
      setPrevious this (lastAddr built this) hm = Res.ok () h1 ∧
      Ring h1 this built la na ∧ h1.allocBudget = h.allocBudget ∧
      h1.ctorBudget = h.ctorBudget ∧ h1.trace = h.trace ∧ h1.mem.length = h.mem.length ∧
      (∀ q, q < b0 → h1.mem[q]? = h.mem[q]?) := by
  obtain ⟨hne0, hnd, hlow, hc, hseg⟩ := hb
  have hlt := lt_of_cell hc
  rcases snoc_cases built with rfl | ⟨built0, n, rfl⟩
  · exact absurd rfl hne0
  · rw [Seg_append] at hseg
    obtain ⟨hseg0, hn, _⟩ := hseg
    simp only [lastAddr_append, headAddr_append, lastAddr_cons, headAddr_cons, lastAddr_nil,
      headAddr_nil, List.length_append, List.length_singleton] at hc hn hseg0 ⊢
    have hnlt := lt_of_cell hn
    have hnd0 := hnd
    simp only [List.map_append, List.map_cons, List.map_nil, List.nodup_cons, List.mem_append,
      List.mem_singleton, not_or, nodup_snoc_iff] at hnd
    obtain ⟨⟨htr, htn⟩, hnr, hrnd⟩ := hnd
    refine ⟨Heap.mk (h.mem.set n.1 (Cell.node (lastAddr built0 this) this n.2))
        h.allocBudget h.ctorBudget h.trace,
      Heap.mk ((h.mem.set n.1 (Cell.node (lastAddr built0 this) this n.2)).set this
        (Cell.list n.1 (headAddr built0 n.1) (built0.length + 1) la na))
        h.allocBudget h.ctorBudget h.trace,
      by simp only [setFollowing, hn], ?_, ⟨hnd0, ?_, ?_⟩, rfl, rfl, rfl, ?_, ?_⟩
    · simp [-List.getElem?_eq_getElem, setPrevious, List.getElem?_set, hlt, hc,
        hn, hnlt, htn, Ne.symm htn]
    · simp [-List.getElem?_eq_getElem, List.getElem?_set, hlt,
        lastAddr_append, headAddr_append, htn, Ne.symm htn]
    · simp only [Seg_append, Seg, lastAddr_append, headAddr_append, lastAddr_cons, headAddr_cons,
        lastAddr_nil, headAddr_nil, and_true]
      refine ⟨Seg_congr ?_ hseg0, ?_⟩
      · intro p hp
        have hpt : this ≠ p := fun e => htr (e ▸ hp)
        have hpn : n.1 ≠ p := fun e => hnr (e ▸ hp)
        simp [-List.getElem?_eq_getElem, List.getElem?_set, hpt, hpn]
      · simp [-List.getElem?_eq_getElem, List.getElem?_set, hnlt, htn]
    · simp
    · intro q hq
      have hqt : this ≠ q := fun e => Nat.lt_irrefl _
        (Nat.lt_of_lt_of_le (e ▸ hq) (hlow this (List.mem_cons_self _ _)))
      have hqn : n.1 ≠ q := fun e => Nat.lt_irrefl _
        (Nat.lt_of_lt_of_le (e ▸ hq) (hlow n.1 (by simp)))
      simp [-List.getElem?_eq_getElem, List.getElem?_set, hqt, hqn]

theorem List_fill_ring (τ : AllocTraits A) (h : Heap T A) (hnf : NoFail h) (count : Nat)
    (v : T) (alloc : A) :
    ∃ h1 ns, List_fill τ count v alloc h = Res.ok h.mem.length h1 ∧
      Ring h1 h.mem.length ns alloc τ.dflt ∧
      ns.map Prod.snd = List.replicate (decWrap count + 1) v ∧ NoFail h1 ∧
      (∀ q, q < h.mem.length → h1.mem[q]? = h.mem[q]?) ∧
      h1.trace = h.trace ++ buildTrace ns := by
  obtain ⟨hab, hcb⟩ := hnf
  suffices hk : ∀ r, List_fill τ count v alloc h = r → ∃ h1 ns, r = Res.ok h.mem.length h1 ∧
      Ring h1 h.mem.length ns alloc τ.dflt ∧
      ns.map Prod.snd = List.replicate (decWrap count + 1) v ∧ NoFail h1 ∧
      (∀ q, q < h.mem.length → h1.mem[q]? = h.mem[q]?) ∧
      h1.trace = h.trace ++ buildTrace ns from hk _ rfl
  intro r hrun
  simp [-List.getElem?_eq_getElem, List.getElem?_cons_zero, List_fill, List_members, ctorBody,
    M.bind, allocate, tryCatch, construct, hab, hcb, getFollowing, setFollowing, setListAlloc,
    setPrevious, incSize, getSize, setSize, List.getElem?_append, List.getElem?_set] at hrun
  generalize hH : (Heap.mk (h.mem ++
      [Cell.list h.mem.length (h.mem.length + 1) 1 alloc τ.dflt,
        Cell.node h.mem.length (h.mem.length + 1) v]) none none
      (h.trace ++ [Event.allocate (h.mem.length + 1),
        Event.construct (h.mem.length + 1)]) : Heap T A) = H at hrun
  have hB : Building H h.mem.length [(h.mem.length + 1, v)] alloc τ.dflt h.mem.length := by
    subst hH
    refine ⟨by simp, by simp, ?_, ?_, ?_, trivial⟩
    · intro p hp
      simp only [List.map_cons, List.map_nil, List.mem_cons, List.not_mem_nil, or_false] at hp
      rcases hp with rfl | rfl <;> omega
    · simp [-List.getElem?_eq_getElem, List.getElem?_append, List.getElem?_cons_zero]
    · simp [-List.getElem?_eq_getElem, List.getElem?_append, List.getElem?_cons_succ,
        List.getElem?_cons_zero]
  have hnfH : NoFail H := by subst hH; exact ⟨rfl, rfl⟩
  have hHlow : ∀ q, q < h.mem.length → H.mem[q]? = h.mem[q]? := by
    intro q hq
    subst hH
    simp [-List.getElem?_eq_getElem, List.getElem?_append, hq]
  have hHtr : H.trace = h.trace ++ buildTrace [(h.mem.length + 1, v)] := by
    subst hH; simp [buildTrace]
  obtain ⟨h1, news, hrun1, hb1, hnf1, hval1, hfr1, hlen1, htr1⟩ :=
    fill_loop_building h.mem.length v alloc τ.dflt h.mem.length (decWrap count) H _ hB hnfH
  obtain ⟨hm, h2, hrunm, hrun2, hr2, hab2, hcb2, htr2, hlen2, hfr2⟩ := Building_close hb1
  simp only [lastAddr_cons, lastAddr_nil] at hrun1
  simp only [setFollowing] at hrunm
  simp only [setPrevious] at hrun2
  rw [hrun1] at hrun
  simp only [hrunm, hrun2] at hrun
  subst hrun
  refine ⟨h2, _, rfl, hr2, ?_, ⟨hab2.trans hnf1.1, hcb2.trans hnf1.2⟩, ?_, ?_⟩
  · simp [hval1, List.replicate_succ]
  · intro q hq
    rw [hfr2 q hq, hfr1 q hq, hHlow q hq]
  · rw [htr2, htr1, hHtr]
    simp [buildTrace]

end Bulk

/-! ## The copy constructor -/

section Copy
variable {T A : Type}

theorem copy_step_building {h : Heap T A} {this : Addr} {built : List (Addr × T)} {la na : A}
    {b0 : Nat} (hb : Building h this built la na b0) (hnf : NoFail h)
    {ps nxt : Addr} {n : Addr × T} {rest : List (Addr × T)}
    (hsrc : Seg h.mem ps (n :: rest) nxt) (hsb : n.1 < b0) :
    ∃ h1, copy_step this (Iterator.mk n.1) (lastAddr built this) h
        = Res.ok (Iterator.mk (headAddr rest nxt), h.mem.length) h1 ∧
      Building h1 this (built ++ [(h.mem.length, n.2)]) la na b0 ∧ NoFail h1 ∧
      (∀ q, q < b0 → h1.mem[q]? = h.mem[q]?) ∧ h1.mem.length = h.mem.length + 1 ∧
      h1.trace = h.trace ++ [Event.allocate h.mem.length, Event.construct h.mem.length] := by
  have hlts := Building_lt hb
  obtain ⟨hne0, hnd, hlow, hc, hseg⟩ := hb
  obtain ⟨hab, hcb⟩ := hnf
  obtain ⟨hs, _⟩ := hsrc
  have hlt := lt_of_cell hc
  have hslt := lt_of_cell hs
  have hne : this ≠ h.mem.length := Nat.ne_of_lt hlt
  have hsne : n.1 ≠ h.mem.length := Nat.ne_of_lt hslt
  have hst : this ≠ n.1 := fun e => Nat.lt_irrefl _
    (Nat.lt_of_lt_of_le (e ▸ hsb) (hlow this (List.mem_cons_self _ _)))
  rcases snoc_cases built with rfl | ⟨built0, m, rfl⟩
  · exact absurd rfl hne0
  · rw [Seg_append] at hseg
    obtain ⟨hseg0, hm, _⟩ := hseg
    simp only [lastAddr_append, headAddr_append, lastAddr_cons, headAddr_cons, lastAddr_nil,
      headAddr_nil, List.length_append, List.length_singleton] at hc hm hseg0 ⊢
    have hmlt := lt_of_cell hm
    have hmne : m.1 ≠ h.mem.length := Nat.ne_of_lt hmlt
    have hsm : m.1 ≠ n.1 := fun e => Nat.lt_irrefl _
      (Nat.lt_of_lt_of_le (e ▸ hsb) (hlow m.1 (by simp)))
    have hnd0 := hnd
    simp only [List.map_append, List.map_cons, List.map_nil, List.nodup_cons, List.mem_append,
      List.mem_singleton, not_or, nodup_snoc_iff] at hnd
    obtain ⟨⟨htr, htm⟩, hmr, hrnd⟩ := hnd
    apply exists_of_run
    intro r hrun
    simp [-List.getElem?_eq_getElem, List.getElem?_cons_zero, copy_step, M.bind, allocate,
      tryCatch, construct, hab, hcb, getFollowing, setFollowing, Iterator.deref, get_value,
      Iterator.inc,
      setPrevious, incSize, getSize, setSize, List.getElem?_append, List.getElem?_set, hlt, hc, hne,
      hne.symm, hm, hmlt, hmne, hmne.symm, htm, Ne.symm htm, hs, hslt, hsne, hsne.symm, hst,
      Ne.symm hst, hsm, Ne.symm hsm] at hrun
    subst hrun
    have hfresh : h.mem.length ∉ this :: List.map Prod.fst (built0 ++ [m]) :=
      fun hmm => Nat.lt_irrefl _ (hlts _ hmm)
    refine ⟨_, rfl, ⟨?_, ?_, ?_, ?_, ?_⟩, ⟨rfl, rfl⟩, ?_, ?_, rfl⟩
    · simp
    · rw [List.map_append, ← List.cons_append]
      exact nodup_snoc hnd0 hfresh
    · intro p hp
      rw [List.map_append, ← List.cons_append, List.mem_append] at hp
      rcases hp with hp | hp
      · exact hlow p hp
      · simp only [List.map_cons, List.map_nil, List.mem_singleton] at hp
        subst hp
        exact Nat.le_trans (hlow this (List.mem_cons_self _ _)) (Nat.le_of_lt hlt)
    · simp [-List.getElem?_eq_getElem, List.getElem?_append, List.getElem?_set, hlt,
        lastAddr_append, headAddr_append, htm, Ne.symm htm]
    · simp only [Seg_append, Seg, lastAddr_append, headAddr_append, lastAddr_cons, headAddr_cons,
        lastAddr_nil, headAddr_nil, and_true]
      refine ⟨⟨Seg_congr ?_ hseg0, ?_⟩, ?_⟩
      · intro p hp
        have hpl := Seg_lt hseg0 p hp
        have hpt : this ≠ p := fun e => htr (e ▸ hp)
        have hpn : m.1 ≠ p := fun e => hmr (e ▸ hp)
        simp [-List.getElem?_eq_getElem, List.getElem?_append, List.getElem?_set, hpl, hpt, hpn]
      · simp [-List.getElem?_eq_getElem, List.getElem?_append, List.getElem?_set, hmlt, htm]
      · simp [-List.getElem?_eq_getElem, List.getElem?_cons_zero, List.getElem?_append,
          List.getElem?_set, hlt]
    · intro q hq
      have hqt : this ≠ q := fun e => Nat.lt_irrefl _
        (Nat.lt_of_lt_of_le (e ▸ hq) (hlow this (List.mem_cons_self _ _)))
      have hqn : m.1 ≠ q := fun e => Nat.lt_irrefl _
        (Nat.lt_of_lt_of_le (e ▸ hq) (hlow m.1 (by simp)))
      have hql : q < h.mem.length :=
        Nat.lt_of_lt_of_le hq (Nat.le_trans (hlow this (List.mem_cons_self _ _)) (Nat.le_of_lt hlt))
      simp [-List.getElem?_eq_getElem, List.getElem?_append, List.getElem?_set, hql, hqt, hqn]
    · simp

theorem copy_loop_building (this src : Addr) (la na : A) (b0 : Nat) :
    ∀ (rest : List (Addr × T)) (ps : Addr) (h : Heap T A) (built : List (Addr × T)) (fuel : Nat),
      Building h this built la na b0 → NoFail h →
      Seg h.mem ps rest src → (∀ p ∈ rest.map Prod.fst, p < b0) → src ∉ rest.map Prod.fst →
      rest.length ≤ fuel →
      ∃ h1 news, copy_loop this (Iterator.mk src) fuel (Iterator.mk (headAddr rest src))
            (lastAddr built this) h
          = Res.ok (lastAddr (built ++ news) this) h1 ∧
        Building h1 this (built ++ news) la na b0 ∧ NoFail h1 ∧
        news.map Prod.snd = rest.map Prod.snd ∧
        (∀ q, q < b0 → h1.mem[q]? = h.mem[q]?) ∧ h1.mem.length = h.mem.length + rest.length ∧
        h1.trace = h.trace ++ buildTrace news := by
  intro rest
  induction rest with
  | nil =>
    intro ps h built fuel hb hnf _ _ _ _
    refine ⟨h, [], ?_, by simpa using hb, hnf, rfl, fun _ _ => rfl, rfl, by simp [buildTrace]⟩
    unfold copy_loop
    simp
  | cons n rest ih =>
    intro ps h built fuel hb hnf hsrc hlow hnot hfuel
    simp only [List.map_cons, List.mem_cons, not_or] at hnot
    have hnb : n.1 < b0 := hlow n.1 (by simp)
    obtain ⟨h1, hrun1, hb1, hnf1, hfr1, hlen1, htr1⟩ := copy_step_building hb hnf hsrc hnb
    have hsrc1 : Seg h1.mem n.1 rest src :=
      Seg_congr (fun p hp => hfr1 p (hlow p (by simp [hp]))) hsrc.2
    cases fuel with
    | zero => simp at hfuel
    | succ fuel =>
      obtain ⟨h2, news, hrun2, hb2, hnf2, hval2, hfr2, hlen2, htr2⟩ :=
        ih n.1 h1 _ fuel hb1 hnf1 hsrc1 (fun p hp => hlow p (by simp [hp])) hnot.2
          (by simpa using hfuel)
      have hlast : lastAddr (built ++ [(h.mem.length, n.2)]) this = h.mem.length := by
        simp [lastAddr_append]
      rw [hlast] at hrun2
      refine ⟨h2, (h.mem.length, n.2) :: news, ?_, ?_, hnf2, ?_, ?_, ?_, ?_⟩
      · unfold copy_loop
        have hne : n.1 ≠ src := fun e => hnot.1 e.symm
        simp [hne, M.bind, hrun1, hrun2]
      · simpa using hb2
      · simp [hval2]
      · intro q hq
        rw [hfr2 q hq, hfr1 q hq]
      · simp only [List.length_cons]; omega
      · rw [htr2, htr1]
        simp [buildTrace]


theorem List_copy_ring (τ : AllocTraits A) {h : Heap T A} {src : Addr} {n : Addr × T}
    {rest : List (Addr × T)} {la na : A} (hr : Ring h src (n :: rest) la na) (hnf : NoFail h)
    (fuel : Nat) (hfuel : rest.length ≤ fuel) :
    ∃ h1 cs, List_copy τ fuel src h = Res.ok h.mem.length h1 ∧
      Ring h1 h.mem.length cs (τ.select la) (τ.select na) ∧
      cs.map Prod.snd = (n :: rest).map Prod.snd ∧ NoFail h1 ∧
      (∀ q, q < h.mem.length → h1.mem[q]? = h.mem[q]?) ∧
      (∀ p ∈ h.mem.length :: cs.map Prod.fst, h.mem.length ≤ p) ∧
      h1.trace = h.trace ++ buildTrace cs := by
  have hlts := Ring_lt hr
  obtain ⟨hnd, hc, hseg⟩ := hr
  obtain ⟨hab, hcb⟩ := hnf
  have hlt := lt_of_cell hc
  obtain ⟨hn, hrest⟩ := hseg
  have hnlt := lt_of_cell hn
  simp only [lastAddr_cons, headAddr_cons, List.length_cons] at hc
  suffices hk : ∀ r, List_copy τ fuel src h = r → ∃ h1 cs, r = Res.ok h.mem.length h1 ∧
      Ring h1 h.mem.length cs (τ.select la) (τ.select na) ∧
      cs.map Prod.snd = (n :: rest).map Prod.snd ∧ NoFail h1 ∧
      (∀ q, q < h.mem.length → h1.mem[q]? = h.mem[q]?) ∧
      (∀ p ∈ h.mem.length :: cs.map Prod.fst, h.mem.length ≤ p) ∧
      h1.trace = h.trace ++ buildTrace cs from hk _ rfl
  intro r hrun
  simp [-List.getElem?_eq_getElem, List.getElem?_cons_zero, List_copy, List_members, ctorBody,
    M.bind, allocate, tryCatch, construct, hab, hcb, getFollowing, setFollowing, setListAlloc,
    begin_, end_, Iterator.deref, get_value, Iterator.inc,
    setPrevious, incSize, getSize, setSize, List.getElem?_append, List.getElem?_set,
    hlt, hc, hn, hnlt, Nat.ne_of_lt hlt, Nat.ne_of_lt hnlt,
    Nat.lt_succ_of_lt hlt, Nat.lt_succ_of_lt hnlt] at hrun
  generalize hH : (Heap.mk (h.mem ++
      [Cell.list h.mem.length (h.mem.length + 1) 1 τ.dflt τ.dflt,
        Cell.node h.mem.length (h.mem.length + 1) n.2]) none none
      (h.trace ++ [Event.allocate (h.mem.length + 1),
        Event.construct (h.mem.length + 1)]) : Heap T A) = H at hrun
  have hB : Building H h.mem.length [(h.mem.length + 1, n.2)] τ.dflt τ.dflt h.mem.length := by
    subst hH
    refine ⟨by simp, by simp, ?_, ?_, ?_, trivial⟩
    · intro p hp
      simp only [List.map_cons, List.map_nil, List.mem_cons, List.not_mem_nil, or_false] at hp
      rcases hp with rfl | rfl <;> omega
    · simp [-List.getElem?_eq_getElem, List.getElem?_append, List.getElem?_cons_zero]
    · simp [-List.getElem?_eq_getElem, List.getElem?_append, List.getElem?_cons_succ,
        List.getElem?_cons_zero]
  have hnfH : NoFail H := by subst hH; exact ⟨rfl, rfl⟩
  have hHlow : ∀ q, q < h.mem.length → H.mem[q]? = h.mem[q]? := by
    intro q hq
    subst hH
    simp [-List.getElem?_eq_getElem, List.getElem?_append, hq]
  have hHtr : H.trace = h.trace ++ buildTrace [(h.mem.length + 1, n.2)] := by
    subst hH; simp [buildTrace]
  have hrlt : ∀ p ∈ rest.map Prod.fst, p < h.mem.length :=
    fun p hp => hlts p (by simp only [List.map_cons, List.mem_cons]; exact Or.inr (Or.inr hp))
  have hsrcH : Seg H.mem n.1 rest src :=
    Seg_congr (fun p hp => hHlow p (hrlt p hp)) hrest
  have hsnot : src ∉ rest.map Prod.fst := by
    simp only [List.map_cons, List.nodup_cons, List.mem_cons, not_or] at hnd
    exact hnd.1.2
  obtain ⟨h1, news, hrun1, hb1, hnf1, hval1, hfr1, hlen1, htr1⟩ :=
    copy_loop_building h.mem.length src τ.dflt τ.dflt h.mem.length rest n.1 H _ fuel hB hnfH
      hsrcH hrlt hsnot hfuel
  obtain ⟨hm, h2, hrunm, hrun2, hr2, hab2, hcb2, htr2, hlen2, hfr2⟩ := Building_close hb1
  simp only [lastAddr_cons, lastAddr_nil] at hrun1
  simp only [setFollowing] at hrunm
  simp only [setPrevious] at hrun2
  rw [hrun1] at hrun
  simp only [hrunm, hrun2] at hrun
  have hsrc2 : h2.mem[src]? =
      some (Cell.list (lastAddr rest n.1) n.1 (rest.length + 1) la na) := by
    rw [hfr2 src hlt, hfr1 src hlt, hHlow src hlt]
    exact hc
  have hlow2 := hb1.2.2.1
  obtain ⟨hnd2, hc2, hseg2⟩ := hr2
  have hlt2 := lt_of_cell hc2
  simp [-List.getElem?_eq_getElem, getListAlloc, getNodeAlloc, setNodeAlloc, hsrc2, hc2,
    List.getElem?_set, hlt2, Nat.ne_of_gt hlt] at hrun
  subst hrun
  refine ⟨_, _, rfl, ⟨hnd2, ?_, ?_⟩, ?_, ⟨hab2.trans hnf1.1, hcb2.trans hnf1.2⟩, ?_, hlow2, ?_⟩
  · simp [-List.getElem?_eq_getElem, List.getElem?_set, hlt2]
  · refine Seg_congr ?_ hseg2
    intro p hp
    have hpt : h.mem.length ≠ p := fun e => (List.nodup_cons.mp hnd2).1 (e ▸ hp)
    simp [-List.getElem?_eq_getElem, List.getElem?_set, hpt]
  · simp [hval1]
  · intro q hq
    have hqt : h.mem.length ≠ q := Nat.ne_of_gt hq
    simp only [List.getElem?_set, hqt, if_false]
    rw [hfr2 q hq, hfr1 q hq, hHlow q hq]
  · show h2.trace = _
    rw [htr2, htr1, hHtr]
    simp [buildTrace]

theorem List_copy_empty (τ : AllocTraits A) {h : Heap T A} {src : Addr} {la na : A}
    (hr : Ring h src [] la na) (hab : h.allocBudget ≠ some 0) (fuel : Nat) :
    ∃ h1, List_copy τ fuel src h = Res.ub h1 := by
  obtain ⟨_, hc, _⟩ := hr
  have hlt := lt_of_cell hc
  simp only [lastAddr_nil, headAddr_nil, List.length_nil] at hc
  suffices hk : ∀ r, List_copy τ fuel src h = r → ∃ h1, r = Res.ub h1 from hk _ rfl
  intro r hrun
  simp [-List.getElem?_eq_getElem, List.getElem?_cons_zero, List_copy, List_members, ctorBody,
    M.bind, allocate, tryCatch, hab, getFollowing,
    begin_, end_, Iterator.deref, get_value,
    List.getElem?_append, List.getElem?_set,
    hlt, hc, Nat.ne_of_lt hlt, Nat.lt_succ_of_lt hlt] at hrun
  exact ⟨_, hrun.symm⟩

end Copy

/-! ## The other bulk constructors when nothing fails -/

section MoreBulk
variable {T A : Type}

theorem init_loop_building (this : Addr) (la na : A) (b0 : Nat) :
    ∀ (vs : List T) (h : Heap T A) (built : List (Addr × T)),
      Building h this built la na b0 → NoFail h →
      ∃ h1 news, init_loop this vs (lastAddr built this) h
          = Res.ok (lastAddr (built ++ news) this) h1 ∧
        Building h1 this (built ++ news) la na b0 ∧ NoFail h1 ∧
        news.map Prod.snd = vs ∧
        (∀ q, q < b0 → h1.mem[q]? = h.mem[q]?) ∧ h1.mem.length = h.mem.length + vs.length ∧
        h1.trace = h.trace ++ buildTrace news := by
  intro vs
  induction vs with
  | nil =>
    intro h built hb hnf
    exact ⟨h, [], by simp [init_loop], by simpa using hb, hnf, rfl, fun _ _ => rfl, rfl,
      by simp [buildTrace]⟩
  | cons v vs ih =>
    intro h built hb hnf
    obtain ⟨h1, hrun1, hb1, hnf1, hfr1, hlen1, htr1⟩ := fill_step_building hb hnf v
    obtain ⟨h2, news, hrun2, hb2, hnf2, hval2, hfr2, hlen2, htr2⟩ := ih h1 _ hb1 hnf1
    have hlast : lastAddr (built ++ [(h.mem.length, v)]) this = h.mem.length := by
      simp [lastAddr_append]
    rw [hlast] at hrun2
    have hstep : init_step this v (lastAddr built this) h = Res.ok h.mem.length h1 := hrun1
    refine ⟨h2, (h.mem.length, v) :: news, ?_, ?_, hnf2, ?_, ?_, ?_, ?_⟩
    · simp only [init_loop, bind_run, M.bind, hstep, hrun2]
      simp
    · simpa using hb2
    · simp [hval2]
    · intro q hq
      rw [hfr2 q hq, hfr1 q hq]
    · simp only [List.length_cons]; omega
    · rw [htr2, htr1]
      simp [buildTrace]

theorem List_init_ring (τ : AllocTraits A) (h : Heap T A) (hnf : NoFail h) (x : T)
    (xs : List T) (alloc : A) :
    ∃ h1 ns, List_init τ (x :: xs) alloc h = Res.ok h.mem.length h1 ∧
      Ring h1 h.mem.length ns alloc τ.dflt ∧
      ns.map Prod.snd = x :: xs ∧ NoFail h1 ∧
      (∀ q, q < h.mem.length → h1.mem[q]? = h.mem[q]?) ∧
      h1.trace = h.trace ++ buildTrace ns := by
  obtain ⟨hab, hcb⟩ := hnf
  suffices hk : ∀ r, List_init τ (x :: xs) alloc h = r → ∃ h1 ns, r = Res.ok h.mem.length h1 ∧
      Ring h1 h.mem.length ns alloc τ.dflt ∧
      ns.map Prod.snd = x :: xs ∧ NoFail h1 ∧
      (∀ q, q < h.mem.length → h1.mem[q]? = h.mem[q]?) ∧
      h1.trace = h.trace ++ buildTrace ns from hk _ rfl
  intro r hrun
  simp [-List.getElem?_eq_getElem, List.getElem?_cons_zero, List_init, List_members, ctorBody,
    M.bind, allocate, tryCatch, construct, hab, hcb, getFollowing, setFollowing, setListAlloc,
    readInit, setPrevious, incSize, getSize, setSize, List.getElem?_append,
    List.getElem?_set] at hrun
  generalize hH : (Heap.mk (h.mem ++
      [Cell.list h.mem.length (h.mem.length + 1) 1 alloc τ.dflt,
        Cell.node h.mem.length (h.mem.length + 1) x]) none none
      (h.trace ++ [Event.allocate (h.mem.length + 1),
        Event.construct (h.mem.length + 1)]) : Heap T A) = H at hrun
  have hB : Building H h.mem.length [(h.mem.length + 1, x)] alloc τ.dflt h.mem.length := by
    subst hH
    refine ⟨by simp, by simp, ?_, ?_, ?_, trivial⟩
    · intro p hp
      simp only [List.map_cons, List.map_nil, List.mem_cons, List.not_mem_nil, or_false] at hp
      rcases hp with rfl | rfl <;> omega
    · simp [-List.getElem?_eq_getElem, List.getElem?_append, List.getElem?_cons_zero]
    · simp [-List.getElem?_eq_getElem, List.getElem?_append, List.getElem?_cons_succ,
        List.getElem?_cons_zero]
  have hnfH : NoFail H := by subst hH; exact ⟨rfl, rfl⟩
  have hHlow : ∀ q, q < h.mem.length → H.mem[q]? = h.mem[q]? := by
    intro q hq
    subst hH
    simp [-List.getElem?_eq_getElem, List.getElem?_append, hq]
  have hHtr : H.trace = h.trace ++ buildTrace [(h.mem.length + 1, x)] := by
    subst hH; simp [buildTrace]
  obtain ⟨h1, news, hrun1, hb1, hnf1, hval1, hfr1, hlen1, htr1⟩ :=
    init_loop_building h.mem.length alloc τ.dflt h.mem.length xs H _ hB hnfH
  obtain ⟨hm, h2, hrunm, hrun2, hr2, hab2, hcb2, htr2, hlen2, hfr2⟩ := Building_close hb1
  simp only [lastAddr_cons, lastAddr_nil] at hrun1
  simp only [setFollowing] at hrunm
  simp only [setPrevious] at hrun2
  rw [hrun1] at hrun
  simp only [hrunm, hrun2] at hrun
  subst hrun
  refine ⟨h2, _, rfl, hr2, ?_, ⟨hab2.trans hnf1.1, hcb2.trans hnf1.2⟩, ?_, ?_⟩
  · simp [hval1]
  · intro q hq
    rw [hfr2 q hq, hfr1 q hq, hHlow q hq]
  · rw [htr2, htr1, hHtr]
    simp [buildTrace]

theorem List_count_ring (τ : AllocTraits A) (h : Heap T A) (hnf : NoFail h) (dfltT : T)
    (count : Nat) (alloc : A) :
    ∃ h1 ns, List_count τ dfltT count alloc h = Res.ok h.mem.length h1 ∧
      Ring h1 h.mem.length ns alloc τ.dflt ∧
      ns.map Prod.snd = List.replicate (decWrap count + 1) dfltT ∧ NoFail h1 ∧
      (∀ q, q < h.mem.length → h1.mem[q]? = h.mem[q]?) ∧
      h1.trace = h.trace ++ buildTrace ns := by
  obtain ⟨hab, hcb⟩ := hnf
  suffices hk : ∀ r, List_count τ dfltT count alloc h = r →
      ∃ h1 ns, r = Res.ok h.mem.length h1 ∧
      Ring h1 h.mem.length ns alloc τ.dflt ∧
      ns.map Prod.snd = List.replicate (decWrap count + 1) dfltT ∧ NoFail h1 ∧
      (∀ q, q < h.mem.length → h1.mem[q]? = h.mem[q]?) ∧
      h1.trace = h.trace ++ buildTrace ns from hk _ rfl
  intro r hrun
  simp [-List.getElem?_eq_getElem, List.getElem?_cons_zero, List_count, List_members, ctorBody,
    M.bind, allocate, tryCatch, construct, hab, hcb, getFollowing, setFollowing, setListAlloc,
    setPrevious, incSize, getSize, setSize, List.getElem?_append, List.getElem?_set] at hrun
  generalize hH : (Heap.mk (h.mem ++
      [Cell.list h.mem.length (h.mem.length + 1) 1 alloc τ.dflt,
        Cell.node h.mem.length (h.mem.length + 1) dfltT]) none none
      (h.trace ++ [Event.allocate (h.mem.length + 1),
        Event.construct (h.mem.length + 1)]) : Heap T A) = H at hrun
  have hB : Building H h.mem.length [(h.mem.length + 1, dfltT)] alloc τ.dflt h.mem.length := by
    subst hH
    refine ⟨by simp, by simp, ?_, ?_, ?_, trivial⟩
    · intro p hp
      simp only [List.map_cons, List.map_nil, List.mem_cons, List.not_mem_nil, or_false] at hp
      rcases hp with rfl | rfl <;> omega
    · simp [-List.getElem?_eq_getElem, List.getElem?_append, List.getElem?_cons_zero]
    · simp [-List.getElem?_eq_getElem, List.getElem?_append, List.getElem?_cons_succ,
        List.getElem?_cons_zero]
  have hnfH : NoFail H := by subst hH; exact ⟨rfl, rfl⟩
  have hHlow : ∀ q, q < h.mem.length → H.mem[q]? = h.mem[q]? := by
    intro q hq
    subst hH
    simp [-List.getElem?_eq_getElem, List.getElem?_append, hq]
  have hHtr : H.trace = h.trace ++ buildTrace [(h.mem.length + 1, dfltT)] := by
    subst hH; simp [buildTrace]
  obtain ⟨h1, news, hrun1, hb1, hnf1, hval1, hfr1, hlen1, htr1⟩ :=
    fill_loop_building h.mem.length dfltT alloc τ.dflt h.mem.length (decWrap count) H _ hB hnfH
  obtain ⟨hm, h2, hrunm, hrun2, hr2, hab2, hcb2, htr2, hlen2, hfr2⟩ := Building_close hb1
  simp only [lastAddr_cons, lastAddr_nil] at hrun1
  simp only [setFollowing] at hrunm
  simp only [setPrevious] at hrun2
  rw [hrun1] at hrun
  simp only [hrunm, hrun2] at hrun
  subst hrun
  refine ⟨h2, _, rfl, hr2, ?_, ⟨hab2.trans hnf1.1, hcb2.trans hnf1.2⟩, ?_, ?_⟩
  · simp [hval1, List.replicate_succ]
  · intro q hq
    rw [hfr2 q hq, hfr1 q hq, hHlow q hq]
  · rw [htr2, htr1, hHtr]
    simp [buildTrace]

theorem decWrap_pos {count : Nat} (hc : 1 ≤ count) : decWrap count + 1 = count := by
  unfold decWrap
  have : count ≠ 0 := by omega
  simp only [this, if_false]
  omega

theorem buildTrace_allocations (ns : List (Addr × T)) :
    ((buildTrace ns).filter (fun e => match e with | Event.allocate _ => true | _ => false)).length
      = ns.length := by
  induction ns with
  | nil => rfl
  | cons n ns ih =>
    simp only [buildTrace, List.flatMap_cons, List.length_cons] at ih ⊢
    simp [List.filter_cons, ih]

/-- For `count ≥ 1` the fill constructors build exactly what is asked for: a
well formed list of `count` copies of the value, out of `count` allocations,
leaving the rest of the store alone. -/
theorem List_fill_positive (τ : AllocTraits A) (h : Heap T A) (hnf : NoFail h) (count : Nat)
    (hc : 1 ≤ count) (v : T) (alloc : A) :
    ∃ h1 ns, List_fill τ count v alloc h = Res.ok h.mem.length h1 ∧
      Ring h1 h.mem.length ns alloc τ.dflt ∧ ns.length = count ∧
      size h.mem.length h1 = Res.ok count h1 ∧
      forward count h.mem.length h1 = Res.ok (List.replicate count v) h1 ∧
      (∀ q, q < h.mem.length → h1.mem[q]? = h.mem[q]?) ∧
      h1.trace = h.trace ++ buildTrace ns := by
  obtain ⟨h1, ns, hrun, hr, hval, _, hfr, htr⟩ := List_fill_ring τ h hnf count v alloc
  rw [decWrap_pos hc] at hval
  have hlen : ns.length = count := by simpa using congrArg List.length hval
  refine ⟨h1, ns, hrun, hr, hlen, ?_, ?_, hfr, htr⟩
  · rw [size_ring hr, hlen]
  · rw [forward_ring hr count (by omega), hval]

end MoreBulk

/-! ## Deep-copy isolation -/

section Isolation
variable {T A : Type}

theorem Ring_observe {h : Heap T A} {this : Addr} {ns : List (Addr × T)} {la na : A}
    (hr : Ring h this ns la na) :
    size this h = Res.ok ns.length h ∧
      ∀ fuel, ns.length ≤ fuel → forward fuel this h = Res.ok (ns.map Prod.snd) h :=
  ⟨size_ring hr, fun fuel hf => forward_ring hr fuel hf⟩

theorem Ring_of_Frame {h h1 : Heap T A} {this : Addr} {ns : List (Addr × T)} {la na : A}
    {fp : List Addr} (hr : Ring h this ns la na) (hfr : Frame fp h h1)
    (hdis : ∀ p ∈ this :: ns.map Prod.fst, p ∉ fp) : Ring h1 this ns la na :=
  Ring_frame hr (fun p hp => hfr.2 p (Ring_lt hr p hp) (hdis p hp))

/-- Claim C5. Deep-copy isolation. Let `src` be a well formed list. If it is not
empty the copy constructor returns a copy. Let `c` be the list the copy
constructor made of `src`. Then `c` is a well formed list with the same payloads
whose sentinel and value nodes are all different from those of `src`, and `src`
is as it was. Consequently each of `push_back`, `push_front`, `pop_back`,
`pop_front` (a pop only on a non-empty list) applied to `c` runs to completion
and leaves `size()` and the forward traversal of `src` unchanged, and each of
them applied to `src` leaves `size()` and the forward traversal of `c`
unchanged. -/
theorem copy_isolation (τ : AllocTraits A) {h : Heap T A} {src : Addr}
    {ns : List (Addr × T)} {la na : A} (hr : Ring h src ns la na) (hnf : NoFail h)
    (fuel : Nat) (hfuel : ns.length ≤ fuel) :
    (ns ≠ [] → ∃ c h1, List_copy τ fuel src h = Res.ok c h1) ∧
    ∀ (c : Addr) (h1 : Heap T A), List_copy τ fuel src h = Res.ok c h1 →
    ∃ cs, Ring h1 c cs (τ.select la) (τ.select na) ∧ Ring h1 src ns la na ∧
      cs.map Prod.snd = ns.map Prod.snd ∧
      (∀ p ∈ c :: cs.map Prod.fst, p ∉ src :: ns.map Prod.fst) ∧
      ∀ (op : Op T),
        (∀ ys, op.spec (cs.map Prod.snd) = some ys →
          ∃ h2, op.run c h1 = Res.ok () h2 ∧
            size src h2 = Res.ok ns.length h2 ∧
            ∀ f, ns.length ≤ f → forward f src h2 = Res.ok (ns.map Prod.snd) h2) ∧
        (∀ ys, op.spec (ns.map Prod.snd) = some ys →
          ∃ h2, op.run src h1 = Res.ok () h2 ∧
            size c h2 = Res.ok cs.length h2 ∧
            ∀ f, cs.length ≤ f → forward f c h2 = Res.ok (cs.map Prod.snd) h2) := by
  cases ns with
  | nil =>
    refine ⟨fun hne => absurd rfl hne, ?_⟩
    intro c h1 hcopy
    obtain ⟨hu, hub⟩ := List_copy_empty τ hr (by rw [hnf.1]; simp) fuel
    rw [hub] at hcopy
    cases hcopy
  | cons n rest =>
    obtain ⟨h1', cs, hrun, hrc, hval, hnf1, hfr, hlow, _⟩ :=
      List_copy_ring τ hr hnf fuel (by simp only [List.length_cons] at hfuel; omega)
    refine ⟨fun _ => ⟨_, _, hrun⟩, ?_⟩
    intro c h1 hcopy
    rw [hrun] at hcopy
    cases hcopy
    have hlts := Ring_lt hr
    have hrs : Ring h1' src (n :: rest) la na :=
      Ring_frame hr (fun p hp => hfr p (hlts p hp))
    have hdis : ∀ p ∈ h.mem.length :: cs.map Prod.fst, p ∉ src :: (n :: rest).map Prod.fst :=
      fun p hp hq => Nat.lt_irrefl _ (Nat.lt_of_lt_of_le (hlts p hq) (hlow p hp))
    refine ⟨cs, hrc, hrs, hval, hdis, ?_⟩
    intro op
    constructor
    · intro ys hys
      obtain ⟨h2, _, hrun2, _, _, _, _, hfr2⟩ := run_ring hrc hnf1 op ys hys
      have hrs2 : Ring h2 src (n :: rest) la na :=
        Ring_of_Frame hrs hfr2 (fun p hp hq => hdis p hq hp)
      exact ⟨h2, hrun2, Ring_observe hrs2⟩
    · intro ys hys
      obtain ⟨h2, _, hrun2, _, _, _, _, hfr2⟩ := run_ring hrs hnf1 op ys hys
      have hrc2 : Ring h2 h.mem.length cs (τ.select la) (τ.select na) :=
        Ring_of_Frame hrc hfr2 hdis
      exact ⟨h2, hrun2, Ring_observe hrc2⟩

theorem heapA_copy : List_copy natTraits 2 0 heapA = Res.ok 3 heapB := by
  simp [List_copy, List_members, ctorBody, tryCatch, M.bind, allocate, construct, begin_, end_,
    Iterator.deref, Iterator.inc, get_value, getFollowing, setFollowing, setPrevious, incSize,
    getSize, setSize, getListAlloc, setListAlloc, getNodeAlloc, setNodeAlloc, heapA, heapB,
    natTraits, List.getElem?_cons_zero, List.getElem?_cons_succ]
  unfold copy_loop
  simp [copy_step, tryCatch, M.bind, allocate, construct,
    Iterator.deref, Iterator.inc, get_value, getFollowing, setFollowing, setPrevious, incSize,
    getSize, setSize, List.getElem?_cons_zero, List.getElem?_cons_succ]
  unfold copy_loop
  simp [M.bind, getListAlloc, setListAlloc, getNodeAlloc, setNodeAlloc, setFollowing,
    setPrevious, List.getElem?_cons_zero, List.getElem?_cons_succ]

theorem copy_isolation_witness :
    Ring heapA 0 [(1, 10), (2, 20)] 7 0 ∧ NoFail heapA ∧
    List_copy natTraits 2 0 heapA = Res.ok 3 heapB ∧
    (∃ h2, (Op.push_back 99).run 3 heapB = Res.ok () h2 ∧ size 0 h2 = Res.ok 2 h2 ∧
      forward 2 0 h2 = Res.ok [10, 20] h2) ∧
    (∃ h2, (Op.pop_front : Op Nat).run 0 heapB = Res.ok () h2 ∧ size 3 h2 = Res.ok 2 h2 ∧
      forward 2 3 h2 = Res.ok [10, 20] h2) := by
  have hring : Ring heapA 0 [(1, 10), (2, 20)] 7 0 := by decide
  obtain ⟨cs, hrc, _, hval, _, hops⟩ :=
    (copy_isolation natTraits hring ⟨rfl, rfl⟩ 2 (by decide)).2 3 heapB heapA_copy
  have hlen : cs.length = 2 := by simpa using congrArg List.length hval
  refine ⟨hring, ⟨rfl, rfl⟩, heapA_copy, ?_, ?_⟩
  · obtain ⟨h2, hrun, hsz, hfw⟩ := (hops (Op.push_back 99)).1 _ rfl
    exact ⟨h2, hrun, hsz, hfw 2 (by decide)⟩
  · obtain ⟨h2, hrun, hsz, hfw⟩ := (hops Op.pop_front).2 _ rfl
    refine ⟨h2, hrun, by rw [hsz, hlen], ?_⟩
    rw [hfw 2 (by omega), hval]
    rfl

end Isolation

/-! ## The claims that fail on the code, evaluated at a failing input -/

section Failing

theorem decWrap_zero : decWrap 0 = 18446744073709551614 + 1 := by decide

/-- Claim C2. `List(0, v)` and `List(0)` do not build an empty list. The first
node is allocated and constructed before `count` is looked at, and the loop
bound `count - 1` wraps to `2 ^ 64 - 1`. With unlimited memory the result is a
ring of `2 ^ 64` nodes; when memory runs out after the first node, the handler
releases that node and then destroys it (it is still linked to itself). -/
theorem fill_count_zero_overruns :
    (∃ h1 ns, List_fill natTraits 0 5 7 emptyHeap = Res.ok 0 h1 ∧ Ring h1 0 ns 7 0 ∧
      ns.length = 2 ^ 64) ∧
    List_fill natTraits 0 5 7 (memoryFor 1) =
      Res.ub ⟨[Cell.list 0 1 1 7 0, Cell.freed], some 0, none,
        [Event.allocate 1, Event.construct 1, Event.deallocate 1]⟩ ∧
    List_count natTraits 0 0 7 (memoryFor 1) =
      Res.ub ⟨[Cell.list 0 1 1 7 0, Cell.freed], some 0, none,
        [Event.allocate 1, Event.construct 1, Event.deallocate 1]⟩ := by
  refine ⟨?_, ?_, ?_⟩
  · obtain ⟨h1, ns, hrun, hr, hval, _⟩ :=
      List_fill_ring natTraits emptyHeap ⟨rfl, rfl⟩ 0 5 7
    refine ⟨h1, ns, hrun, hr, ?_⟩
    have hlen := congrArg List.length hval
    simp only [List.length_map, List.length_replicate] at hlen
    rw [hlen]
    decide
  · unfold List_fill
    rw [decWrap_zero]
    generalize 18446744073709551614 = n
    rfl
  · unfold List_count
    rw [decWrap_zero]
    generalize 18446744073709551614 = n
    rfl

/-- Claim C3. The initializer list constructor does not build an empty list
from an empty `std::initializer_list`: it allocates a node and reads
`*init.begin()` before looking at the length, which for an empty sequence is a
read past the end. -/
theorem init_empty_reads_past_end :
    List_init natTraits ([] : List Nat) 7 emptyHeap =
      Res.ub ⟨[Cell.list 0 0 0 7 0, Cell.raw], none, none, [Event.allocate 1]⟩ := by
  decide

/-- Claim C4. Copying an empty list does not give an empty list: the copy
constructor allocates a node and reads `*src.begin()`, which for an empty source
is the payload of the sentinel. -/
theorem copy_of_empty_reads_sentinel :
    (do let src ← List_default natTraits
        List_copy natTraits 5 src : M Nat Nat Addr) emptyHeap =
      Res.ub ⟨[Cell.list 0 0 0 0 0, Cell.list 1 1 0 0 0, Cell.raw], none, none,
        [Event.allocate 2]⟩ := by
  decide

/-- Claim C6. Assigning an empty list fails in the same way as copying one: the
temporary is built by the copy constructor, which reads the payload of the
sentinel of the empty source. The target still holds its two elements. -/
theorem assign_from_empty_reads_sentinel :
    (do let a ← List_init natTraits [10, 20] 7
        let b ← List_default natTraits
        assign natTraits 5 a b : M Nat Nat Unit) emptyHeap =
      Res.ub ⟨[Cell.list 2 1 2 7 0, Cell.node 0 2 10, Cell.node 1 0 20, Cell.list 3 3 0 0 0,
          Cell.list 4 4 0 0 0, Cell.raw], none, none,
        [Event.allocate 1, Event.construct 1, Event.allocate 2, Event.construct 2,
          Event.allocate 5]⟩ := by
  simp [List_init, List_default, List_members, ctorBody, tryCatch, throwExn, M.bind,
    allocate, construct, setListAlloc, readInit, setFollowing, setPrevious, getFollowing, incSize,
    getSize, setSize, init_loop, init_step, throwAfter, emptyHeap, natTraits,
    List.getElem?_cons_zero, List.getElem?_cons_succ]
  simp [assign, List_copy, List_members, ctorBody, tryCatch, M.bind, allocate, begin_, end_,
    Iterator.deref, get_value, getFollowing, List.getElem?_cons_zero, List.getElem?_cons_succ]

/-- Claim C7. When the constructor of the first element (`k = 0`) throws, the
handler runs `remove(size_ - 1)` with `size_ = 0`, that is `remove(2 ^ 64 - 1)`,
on the sentinel that is still linked to itself: it destroys and releases the
sentinel instead of propagating the exception. This happens in the fill, the
count, the initializer list and the copy constructor. -/
theorem bulk_first_element_throw :
    List_fill natTraits 3 5 7 (throwAfter 0) =
      Res.ub ⟨[Cell.list 0 0 0 7 0, Cell.raw], none, some 0, [Event.allocate 1]⟩ ∧
    List_count natTraits 0 3 7 (throwAfter 0) =
      Res.ub ⟨[Cell.list 0 0 0 7 0, Cell.raw], none, some 0, [Event.allocate 1]⟩ ∧
    List_init natTraits [1, 2, 3] 7 (throwAfter 0) =
      Res.ub ⟨[Cell.list 0 0 0 7 0, Cell.raw], none, some 0, [Event.allocate 1]⟩ ∧
    (do let src ← List_init natTraits [10, 20] 7
        List_copy natTraits 5 src : M Nat Nat Addr) (throwAfter 2) =
      Res.ub ⟨[Cell.list 2 1 2 7 0, Cell.node 0 2 10, Cell.node 1 0 20, Cell.list 3 3 0 0 0,
          Cell.raw], none, some 0,
        [Event.allocate 1, Event.construct 1, Event.allocate 2, Event.construct 2,
          Event.allocate 4]⟩ := by
  obtain ⟨N, hN⟩ : ∃ N, decWrap 0 = N + 1 := ⟨_, decWrap_zero⟩
  refine ⟨?_, ?_, ?_, ?_⟩
  · simp [List_fill, List_count, List_init, List_copy, assign, List_members, ctorBody,
    tryCatch, throwExn, undefinedOp, M.bind, allocate, construct, setListAlloc, readInit, begin_,
    end_, Iterator.deref, get_value, getFollowing, setFollowing, setPrevious, incSize, setSize,
    rollback, getSize, remove, hN, natTraits, throwAfter, List.getElem?_cons_zero,
    List.getElem?_cons_succ]
    simp [remove_loop, remove_one, M.bind, getPrevious, destroy, List.getElem?_cons_zero,
    List.getElem?_cons_succ]
  · simp [List_fill, List_count, List_init, List_copy, assign, List_members, ctorBody,
    tryCatch, throwExn, undefinedOp, M.bind, allocate, construct, setListAlloc, readInit, begin_,
    end_, Iterator.deref, get_value, getFollowing, setFollowing, setPrevious, incSize, setSize,
    rollback, getSize, remove, hN, natTraits, throwAfter, List.getElem?_cons_zero,
    List.getElem?_cons_succ]
    simp [remove_loop, remove_one, M.bind, getPrevious, destroy, List.getElem?_cons_zero,
    List.getElem?_cons_succ]
  · simp [List_fill, List_count, List_init, List_copy, assign, List_members, ctorBody,
    tryCatch, throwExn, undefinedOp, M.bind, allocate, construct, setListAlloc, readInit, begin_,
    end_, Iterator.deref, get_value, getFollowing, setFollowing, setPrevious, incSize, setSize,
    rollback, getSize, remove, hN, natTraits, throwAfter, List.getElem?_cons_zero,
    List.getElem?_cons_succ]
    simp [remove_loop, remove_one, M.bind, getPrevious, destroy, List.getElem?_cons_zero,
    List.getElem?_cons_succ]
  · simp [List_init, List_default, List_members, ctorBody, tryCatch, throwExn, M.bind,
    allocate, construct, setListAlloc, readInit, setFollowing, setPrevious, getFollowing, incSize,
    getSize, setSize, init_loop, init_step, throwAfter, emptyHeap, natTraits,
    List.getElem?_cons_zero, List.getElem?_cons_succ]
    simp [List_fill, List_count, List_init, List_copy, assign, List_members, ctorBody,
    tryCatch, throwExn, undefinedOp, M.bind, allocate, construct, setListAlloc, readInit, begin_,
    end_, Iterator.deref, get_value, getFollowing, setFollowing, setPrevious, incSize, setSize,
    rollback, getSize, remove, hN, natTraits, throwAfter, List.getElem?_cons_zero,
    List.getElem?_cons_succ]
    simp [remove_loop, remove_one, M.bind, getPrevious, destroy, List.getElem?_cons_zero,
    List.getElem?_cons_succ]

/-- Claim C8. When the payload constructor throws inside `push_back` or
`push_front`, the handler releases the storage and does not rethrow, so the
method goes on: `push_back` increments `size_` (it is `3` in the final store,
it was `2`) and then writes a link into the released node; `push_front` writes
into the released node at once. No exception reaches the caller. -/
theorem push_swallows_constructor_failure :
    (do let l ← List_init natTraits [10, 20] 7
        push_back l 30 : M Nat Nat Unit) (throwAfter 2) =
      Res.ub ⟨[Cell.list 2 1 3 7 0, Cell.node 0 2 10, Cell.node 1 0 20, Cell.freed],
        none, some 0,
        [Event.allocate 1, Event.construct 1, Event.allocate 2, Event.construct 2,
          Event.allocate 3, Event.deallocate 3]⟩ ∧
    (do let l ← List_init natTraits [10, 20] 7
        push_front l 30 : M Nat Nat Unit) (throwAfter 2) =
      Res.ub ⟨[Cell.list 2 1 2 7 0, Cell.node 0 2 10, Cell.node 1 0 20, Cell.freed],
        none, some 0,
        [Event.allocate 1, Event.construct 1, Event.allocate 2, Event.construct 2,
          Event.allocate 3, Event.deallocate 3]⟩ := by
  refine ⟨?_, ?_⟩
  · simp [List_init, List_default, List_members, ctorBody, tryCatch, throwExn, M.bind,
    allocate, construct, setListAlloc, readInit, setFollowing, setPrevious, getFollowing, incSize,
    getSize, setSize, init_loop, init_step, throwAfter, emptyHeap, natTraits,
    List.getElem?_cons_zero, List.getElem?_cons_succ]
    simp [push_back, tryCatch, M.bind, allocate, construct, deallocate, incSize, getSize, setSize,
      getPrevious, setPrevious, List.getElem?_cons_zero, List.getElem?_cons_succ]
  · simp [List_init, List_default, List_members, ctorBody, tryCatch, throwExn, M.bind,
    allocate, construct, setListAlloc, readInit, setFollowing, setPrevious, getFollowing, incSize,
    getSize, setSize, init_loop, init_step, throwAfter, emptyHeap, natTraits,
    List.getElem?_cons_zero, List.getElem?_cons_succ]
    simp [push_front, tryCatch, M.bind, allocate, construct, deallocate, getFollowing,
      setFollowing, List.getElem?_cons_zero, List.getElem?_cons_succ]

/-- Claim C9. When the copy of the first element of the source throws during
`a = b`, no exception reaches the caller: the copy constructor of the temporary
runs `remove(2 ^ 64 - 1)` on the sentinel of the temporary, which destroys and
releases that sentinel. -/
theorem assign_first_copy_throw :
    (do let a ← List_init natTraits [30] 8
        let b ← List_init natTraits [10, 20] 7
        assign natTraits 5 a b : M Nat Nat Unit) (throwAfter 3) =
      Res.ub ⟨[Cell.list 1 1 1 8 0, Cell.node 0 0 30, Cell.list 4 3 2 7 0, Cell.node 2 4 10,
          Cell.node 3 2 20, Cell.list 5 5 0 0 0, Cell.raw], none, some 0,
        [Event.allocate 1, Event.construct 1, Event.allocate 3, Event.construct 3,
          Event.allocate 4, Event.construct 4, Event.allocate 6]⟩ := by
  obtain ⟨N, hN⟩ : ∃ N, decWrap 0 = N + 1 := ⟨_, decWrap_zero⟩
  simp [List_init, List_default, List_members, ctorBody, tryCatch, throwExn, M.bind,
    allocate, construct, setListAlloc, readInit, setFollowing, setPrevious, getFollowing, incSize,
    getSize, setSize, init_loop, init_step, throwAfter, emptyHeap, natTraits,
    List.getElem?_cons_zero, List.getElem?_cons_succ]
  simp [List_fill, List_count, List_init, List_copy, assign, List_members, ctorBody,
    tryCatch, throwExn, undefinedOp, M.bind, allocate, construct, setListAlloc, readInit, begin_,
    end_, Iterator.deref, get_value, getFollowing, setFollowing, setPrevious, incSize, setSize,
    rollback, getSize, remove, hN, natTraits, throwAfter, List.getElem?_cons_zero,
    List.getElem?_cons_succ]
  simp [remove_loop, remove_one, M.bind, getPrevious, destroy, List.getElem?_cons_zero,
    List.getElem?_cons_succ]

/-- For contrast: when the constructor of the second element throws, the fill
constructor releases both nodes once and rethrows. -/
theorem fill_second_element_throw :
    List_fill natTraits 3 5 7 (throwAfter 1) =
      Res.threw Exn.payload ⟨[Cell.freed, Cell.freed, Cell.freed], none, some 0,
        [Event.allocate 1, Event.construct 1, Event.allocate 2, Event.deallocate 2,
          Event.destroy 1, Event.deallocate 1]⟩ := by
  have h3 : decWrap 3 = 2 := by decide
  have h1 : decWrap 1 = 0 := by decide
  simp [List_fill, List_members, ctorBody, tryCatch, throwExn, M.bind, allocate, construct,
    setListAlloc, getFollowing, setFollowing, setPrevious, incSize, getSize, setSize, natTraits,
    throwAfter, h3, fill_loop, fill_step, rollback, remove, remove_loop, dealloc, deallocate,
    destroy, endObject, h1, List.getElem?_cons_zero, List.getElem?_cons_succ]

/-- For contrast: when the copy of the second element throws during `a = b`,
the temporary is rolled back, the exception reaches the caller and the cells of
`a` and `b` are what they were. -/
theorem assign_second_copy_throw :
    (do let a ← List_init natTraits [30] 8
        let b ← List_init natTraits [10, 20] 7
        assign natTraits 5 a b : M Nat Nat Unit) (throwAfter 4) =
      Res.threw Exn.payload ⟨[Cell.list 1 1 1 8 0, Cell.node 0 0 30, Cell.list 4 3 2 7 0,
          Cell.node 2 4 10, Cell.node 3 2 20, Cell.freed, Cell.freed, Cell.freed], none, some 0,
        [Event.allocate 1, Event.construct 1, Event.allocate 3, Event.construct 3,
          Event.allocate 4, Event.construct 4, Event.allocate 6, Event.construct 6,
          Event.allocate 7, Event.deallocate 7, Event.destroy 6, Event.deallocate 6]⟩ := by
  have h1 : decWrap 1 = 0 := by decide
  simp [List_init, List_default, List_members, ctorBody, tryCatch, throwExn, M.bind,
    allocate, construct, setListAlloc, readInit, setFollowing, setPrevious, getFollowing, incSize,
    getSize, setSize, init_loop, init_step, throwAfter, emptyHeap, natTraits,
    List.getElem?_cons_zero, List.getElem?_cons_succ]
  simp [assign, List_copy, List_members, ctorBody, tryCatch, throwExn, M.bind, allocate,
    construct, begin_, end_, Iterator.deref, Iterator.inc, get_value, getFollowing, setFollowing,
    setPrevious, incSize, getSize, setSize, List.getElem?_cons_zero, List.getElem?_cons_succ]
  unfold copy_loop
  simp [copy_step, tryCatch, throwExn, M.bind, allocate, construct, Iterator.deref, get_value,
    getFollowing, setFollowing, rollback, getSize, h1, remove, remove_loop, dealloc, deallocate,
    destroy, endObject, List.getElem?_cons_zero, List.getElem?_cons_succ]

end Failing

/-! ## The failing paths for every list -/

section FailureLemmas
variable {T A : Type}

theorem exists_ub_of_run {α : Type} {P : Heap T A → Prop} {x : Res (Heap T A) α}
    (hk : ∀ r, x = r → ∃ h1, r = Res.ub h1 ∧ P h1) : ∃ h1, x = Res.ub h1 ∧ P h1 :=
  hk x rfl

/-- Whatever the list and the value: when the payload constructor throws inside
`push_back`, the call ends in undefined behaviour (a write into released
storage), after `size_` has been incremented. -/
theorem push_back_ctor_fail {h : Heap T A} {this : Addr} {ns : List (Addr × T)} {la na : A}
    (hr : Ring h this ns la na) (hab : h.allocBudget ≠ some 0) (hcb : h.ctorBudget = some 0)
    (v : T) :
    ∃ h1, push_back this v h = Res.ub h1 ∧
      size this h1 = Res.ok (ns.length + 1) h1 ∧
      h1.mem[h.mem.length]? = some Cell.freed ∧
      h1.trace = h.trace ++ [Event.allocate h.mem.length, Event.deallocate h.mem.length] := by
  obtain ⟨hnd, hc, hseg⟩ := hr
  have hlt := lt_of_cell hc
  have hne : this ≠ h.mem.length := Nat.ne_of_lt hlt
  apply exists_ub_of_run
  intro r hrun
  simp [-List.getElem?_eq_getElem, List.getElem?_cons_zero, push_back, M.bind, allocate,
    tryCatch, construct, deallocate, hab, hcb, getPrevious, setFollowing,
    setPrevious, incSize, getSize, setSize, List.getElem?_append, List.getElem?_set, hlt, hc, hne,
    hne.symm] at hrun
  subst hrun
  refine ⟨_, rfl, ?_, ?_, ?_⟩
  · simp [-List.getElem?_eq_getElem, size, getSize, List.getElem?_append, List.getElem?_set, hlt]
  · simp [-List.getElem?_eq_getElem, List.getElem?_append, List.getElem?_set,
      List.getElem?_cons_zero, hne]
  · simp

/-- The same for `push_front`, which writes into the released node before it
touches `size_`. -/
theorem push_front_ctor_fail {h : Heap T A} {this : Addr} {ns : List (Addr × T)} {la na : A}
    (hr : Ring h this ns la na) (hab : h.allocBudget ≠ some 0) (hcb : h.ctorBudget = some 0)
    (v : T) :
    ∃ h1, push_front this v h = Res.ub h1 ∧
      h1.mem[h.mem.length]? = some Cell.freed ∧
      h1.trace = h.trace ++ [Event.allocate h.mem.length, Event.deallocate h.mem.length] := by
  obtain ⟨hnd, hc, hseg⟩ := hr
  have hlt := lt_of_cell hc
  have hne : this ≠ h.mem.length := Nat.ne_of_lt hlt
  apply exists_ub_of_run
  intro r hrun
  simp [-List.getElem?_eq_getElem, List.getElem?_cons_zero, push_front, M.bind, allocate,
    tryCatch, construct, deallocate, hab, hcb, getFollowing, setFollowing,
    List.getElem?_append, List.getElem?_set, hlt, hc, hne, hne.symm] at hrun
  subst hrun
  refine ⟨_, rfl, ?_, ?_⟩
  · simp [-List.getElem?_eq_getElem, List.getElem?_append, List.getElem?_set,
      List.getElem?_cons_zero]
  · simp

/-- Whatever `count` and the store: when the constructor of the first element
throws, the fill constructor ends in undefined behaviour, because the handler
asks `remove` for `2 ^ 64 - 1` nodes of a ring that consists of the sentinel. -/
theorem List_fill_first_throw (τ : AllocTraits A) (h : Heap T A)
    (hab : h.allocBudget ≠ some 0) (hcb : h.ctorBudget = some 0) (count : Nat) (v : T)
    (alloc : A) :
    ∃ h1, List_fill τ count v alloc h = Res.ub h1 ∧
      h1.trace = h.trace ++ [Event.allocate (h.mem.length + 1)] := by
  obtain ⟨N, hN⟩ : ∃ N, decWrap 0 = N + 1 := ⟨_, decWrap_zero⟩
  apply exists_ub_of_run
  intro r hrun
  simp [-List.getElem?_eq_getElem, List.getElem?_cons_zero, List.getElem?_cons_succ, List_fill,
    List_members, ctorBody, M.bind, allocate,
    tryCatch, construct, hab, hcb, setListAlloc, rollback, getSize, remove, getFollowing, hN,
    List.getElem?_append, List.getElem?_set] at hrun
  simp [-List.getElem?_eq_getElem, List.getElem?_cons_zero, List.getElem?_cons_succ,
    remove_loop, remove_one, M.bind, getPrevious, destroy,
    List.getElem?_append, List.getElem?_set] at hrun
  subst hrun
  exact ⟨_, rfl, rfl⟩

end FailureLemmas

/-! ## Bulk removal and destruction -/

section Removal
variable {T A : Type}

theorem remove_one_run {h : Heap T A} {actual r rb rf fa : Addr} {rv : T} (idx : Nat)
    (hr : h.mem[r]? = some (Cell.node rb rf rv)) (hne : actual ≠ r)
    (hact : Links h.mem actual r fa) :
    remove_one idx actual h = Res.ok (idx + 1, fa)
      (Heap.mk (h.mem.set r Cell.freed) h.allocBudget h.ctorBudget
        (h.trace ++ [Event.destroy r, Event.deallocate r])) := by
  have hrlt := lt_of_cell hr
  rcases hact with ⟨v, ha⟩ | ⟨n, la, na, ha⟩
  · simp [-List.getElem?_eq_getElem, remove_one, M.bind, getPrevious, getFollowing, destroy,
      deallocate, List.getElem?_set, ha, hr, hrlt, hne, Ne.symm hne]
  · simp [-List.getElem?_eq_getElem, remove_one, M.bind, getPrevious, getFollowing, destroy,
      deallocate, List.getElem?_set, ha, hr, hrlt, hne, Ne.symm hne]

theorem Links_congr {m m1 : List (Cell T A)} {a b f : Addr} (hl : Links m a b f)
    (he : m1[a]? = m[a]?) : Links m1 a b f := by
  unfold Links
  rw [he]
  exact hl

/-- The loop of `remove` releases a run of nodes `rs` in order, reading the
links of the node after each one (the node after the last one is `z`). -/
theorem remove_loop_seg (z : Addr) (ds : Nat) :
    ∀ (rs : List (Addr × T)) (prev : Addr) (h : Heap T A) (idx : Nat),
      Seg h.mem prev rs z → z ∉ rs.map Prod.fst → (rs.map Prod.fst).Nodup →
      (∃ zb zf, Links h.mem z zb zf ∧ (rs ≠ [] → zb = lastAddr rs prev)) →
      idx + rs.length ≤ ds →
      ∃ h1, remove_loop ds rs.length idx (headAddr rs.tail z) h = Res.ok () h1 ∧
        (∀ p ∈ rs.map Prod.fst, h1.mem[p]? = some Cell.freed) ∧
        (∀ q, q ∉ rs.map Prod.fst → h1.mem[q]? = h.mem[q]?) ∧
        h1.mem.length = h.mem.length ∧
        h1.allocBudget = h.allocBudget ∧ h1.ctorBudget = h.ctorBudget ∧
        h1.trace = h.trace ++ freeTrace rs := by
  intro rs
  induction rs with
  | nil =>
    intro prev h idx _ _ _ _ _
    exact ⟨h, rfl, by simp, fun _ _ => rfl, rfl, rfl, rfl, by simp [freeTrace]⟩
  | cons r rest ih =>
    intro prev h idx hseg hz hnd hlink hds
    obtain ⟨hr, hrest⟩ := hseg
    obtain ⟨zb, zf, hzl, hzb⟩ := hlink
    simp only [List.map_cons, List.mem_cons, not_or] at hz
    simp only [List.map_cons, List.nodup_cons] at hnd
    simp only [List.length_cons] at hds
    have hzb1 : zb = lastAddr rest r.1 := by simpa using hzb (by simp)
    -- the node after `r`, with its links
    have hact : ∃ fa, Links h.mem (headAddr rest z) r.1 fa ∧ headAddr rest z ≠ r.1 ∧
        (rest ≠ [] → fa = headAddr rest.tail z) := by
      cases rest with
      | nil =>
        refine ⟨zf, ?_, hz.1, fun hne => absurd rfl hne⟩
        simpa [hzb1] using hzl
      | cons r1 rest1 =>
        refine ⟨headAddr rest1 z, Or.inl ⟨r1.2, hrest.1⟩, ?_, fun _ => rfl⟩
        intro e
        exact hnd.1 (by simp [← e])
    obtain ⟨fa, hla, hane, hfa⟩ := hact
    have hone := remove_one_run idx hr hane hla
    -- the store after one step
    have hmem1 : ∀ q, q ≠ r.1 → (h.mem.set r.1 Cell.freed)[q]? = h.mem[q]? := by
      intro q hq
      simp [List.getElem?_set, Ne.symm hq]
    have hrest1 : Seg (h.mem.set r.1 Cell.freed) r.1 rest z :=
      Seg_congr (fun p hp => hmem1 p (fun e => hnd.1 (e ▸ hp))) hrest
    have hlink1 : ∃ zb zf, Links (h.mem.set r.1 Cell.freed) z zb zf ∧
        (rest ≠ [] → zb = lastAddr rest r.1) :=
      ⟨zb, zf, Links_congr hzl (hmem1 z hz.1), fun _ => hzb1⟩
    obtain ⟨h1, hrun1, hfreed1, hsame1, hlen1, hab1, hcb1, htr1⟩ :=
      ih r.1 (Heap.mk (h.mem.set r.1 Cell.freed) h.allocBudget h.ctorBudget
        (h.trace ++ [Event.destroy r.1, Event.deallocate r.1])) (idx + 1)
        hrest1 hz.2 hnd.2 hlink1 (by omega)
    have hrun : remove_loop ds (rest.length + 1) idx (headAddr rest z) h = Res.ok () h1 := by
      have hlt : idx < ds := by omega
      simp only [remove_loop, hlt, if_true, bind_run, M.bind, hone]
      cases rest with
      | nil => simpa [remove_loop] using hrun1
      | cons r1 rest1 => rw [hfa (by simp)]; exact hrun1
    refine ⟨h1, hrun, ?_, ?_, ?_, hab1, hcb1, ?_⟩
    · intro p hp
      simp only [List.map_cons, List.mem_cons] at hp
      rcases hp with rfl | hp
      · rw [hsame1 _ hnd.1]
        simp [-List.getElem?_eq_getElem, List.getElem?_set, lt_of_cell hr]
      · exact hfreed1 p hp
    · intro q hq
      simp only [List.map_cons, List.mem_cons, not_or] at hq
      rw [hsame1 q hq.2]
      exact hmem1 q hq.1
    · rw [hlen1]; simp
    · rw [htr1]
      simp [freeTrace]


/-- The member `remove(k)` on a well formed list releases the first `k` value
nodes, in order, and nothing else. -/
theorem remove_ring {h : Heap T A} {this : Addr} {rs rest : List (Addr × T)} {la na : A}
    (hr : Ring h this (rs ++ rest) la na) :
    ∃ h1, remove this rs.length h = Res.ok () h1 ∧
      (∀ p ∈ rs.map Prod.fst, h1.mem[p]? = some Cell.freed) ∧
      (∀ q, q ∉ rs.map Prod.fst → h1.mem[q]? = h.mem[q]?) ∧
      h1.mem.length = h.mem.length ∧
      h1.allocBudget = h.allocBudget ∧ h1.ctorBudget = h.ctorBudget ∧
      h1.trace = h.trace ++ freeTrace rs := by
  obtain ⟨hnd, hc, hseg⟩ := hr
  rw [Seg_append] at hseg
  obtain ⟨hseg1, hseg2⟩ := hseg
  have hnd1 := hnd
  simp only [List.map_append, List.nodup_cons, List.mem_append, not_or,
    List.nodup_append] at hnd1
  obtain ⟨⟨htrs, htrest⟩, hrsnd, hrestnd, hdisj⟩ := hnd1
  -- the node after the run, and its links
  have hz : headAddr rest this ∉ rs.map Prod.fst := by
    cases rest with
    | nil => simpa using htrs
    | cons t rest1 =>
      intro hm
      exact hdisj hm (by simp)
  have hlink : ∃ zb zf, Links h.mem (headAddr rest this) zb zf ∧
      (rs ≠ [] → zb = lastAddr rs this) := by
    cases rest with
    | nil =>
      refine ⟨lastAddr rs this, headAddr rs this,
        Or.inr ⟨rs.length, la, na, ?_⟩, fun _ => rfl⟩
      simpa using hc
    | cons t rest1 => exact ⟨_, _, Or.inl ⟨_, hseg2.1⟩, fun _ => rfl⟩
  obtain ⟨h1, hrun1, hfreed, hsame, hlen, hab, hcb, htr⟩ :=
    remove_loop_seg (headAddr rest this) rs.length rs this h 0 hseg1 hz hrsnd hlink (by omega)
  refine ⟨h1, ?_, hfreed, hsame, hlen, hab, hcb, htr⟩
  cases rs with
  | nil =>
    obtain ⟨zb, zf, hzl, _⟩ := hlink
    simp only [List.nil_append] at hc
    have hfirst : getFollowing this h = Res.ok (headAddr rest this) h := by
      simp [getFollowing, hc]
    have hsecond : getFollowing (headAddr rest this) h = Res.ok zf h := by
      rcases hzl with ⟨v, hv⟩ | ⟨n, la1, na1, hv⟩ <;> simp [getFollowing, hv]
    simp only [List.length_nil, remove_loop] at hrun1
    simp [remove, M.bind, hfirst, hsecond, remove_loop]
    cases hrun1
    rfl
  | cons r rs1 =>
    have hfirst : getFollowing this h = Res.ok r.1 h := by
      simp [getFollowing, hc]
    have hsecond : getFollowing r.1 h = Res.ok (headAddr rs1 (headAddr rest this)) h := by
      simp [getFollowing, hseg1.1]
    simp only [List.tail_cons] at hrun1
    simp only [List.length_cons] at hrun1
    simp [remove, M.bind, hfirst, hsecond, hrun1]

/-- The destructor of a well formed list releases every value node once, in
order starting just after the sentinel, and then the object goes away; the
sentinel is neither destroyed nor deallocated through the allocator. -/
theorem List_dtor_ring {h : Heap T A} {this : Addr} {ns : List (Addr × T)} {la na : A}
    (hr : Ring h this ns la na) :
    ∃ h1, List_dtor this h = Res.ok () h1 ∧
      (∀ p ∈ this :: ns.map Prod.fst, h1.mem[p]? = some Cell.freed) ∧
      (∀ q, q ∉ this :: ns.map Prod.fst → h1.mem[q]? = h.mem[q]?) ∧
      h1.mem.length = h.mem.length ∧
      h1.allocBudget = h.allocBudget ∧ h1.ctorBudget = h.ctorBudget ∧
      h1.trace = h.trace ++ freeTrace ns := by
  have hr0 := hr
  obtain ⟨hnd, hc, hseg⟩ := hr
  have htn : this ∉ ns.map Prod.fst := (List.nodup_cons.mp hnd).1
  have hr1 : Ring h this (ns ++ []) la na := by simpa using hr0
  obtain ⟨h1, hrun1, hfreed, hsame, hlen, hab, hcb, htr⟩ := remove_ring hr1
  have hc1 : h1.mem[this]? =
      some (Cell.list (lastAddr ns this) (headAddr ns this) ns.length la na) := by
    rw [hsame this htn]; exact hc
  have hlt1 := lt_of_cell hc1
  have hsize : getSize this h = Res.ok ns.length h := by simp [getSize, hc]
  refine ⟨Heap.mk (h1.mem.set this Cell.freed) h1.allocBudget h1.ctorBudget h1.trace,
    ?_, ?_, ?_, ?_, hab, hcb, htr⟩
  · simp [List_dtor, M.bind, hsize, hrun1, endObject, hc1]
  · intro p hp
    rcases List.mem_cons.mp hp with rfl | hp
    · simp [-List.getElem?_eq_getElem, List.getElem?_set, hlt1]
    · have hpt : this ≠ p := fun e => htn (e ▸ hp)
      simp only [List.getElem?_set, hpt, if_false]
      exact hfreed p hp
  · intro q hq
    simp only [List.mem_cons, not_or] at hq
    simp only [List.getElem?_set, Ne.symm hq.1, if_false]
    exact hsame q hq.2
  · simp [hlen]

end Removal

/-! ## Rollback of a bulk constructor after a later element throws -/

section Rollback
variable {T A : Type}

/-- The member `remove(k)` on a chain of `k` nodes that starts just after the
sentinel and is followed by a linked cell `z`; the ring need not be closed. -/
theorem remove_seg {h : Heap T A} {this z tb : Addr} {rs : List (Addr × T)} {n : Nat}
    {la na : A}
    (hc : h.mem[this]? = some (Cell.list tb (headAddr rs z) n la na))
    (hseg : Seg h.mem this rs z) (hz : z ∉ rs.map Prod.fst)
    (hnd : (rs.map Prod.fst).Nodup)
    (hlink : ∃ zb zf, Links h.mem z zb zf ∧ (rs ≠ [] → zb = lastAddr rs this)) :
    ∃ h1, remove this rs.length h = Res.ok () h1 ∧
      (∀ p ∈ rs.map Prod.fst, h1.mem[p]? = some Cell.freed) ∧
      (∀ q, q ∉ rs.map Prod.fst → h1.mem[q]? = h.mem[q]?) ∧
      h1.mem.length = h.mem.length ∧
      h1.allocBudget = h.allocBudget ∧ h1.ctorBudget = h.ctorBudget ∧
      h1.trace = h.trace ++ freeTrace rs := by
  obtain ⟨h1, hrun1, hfreed, hsame, hlen, hab, hcb, htr⟩ :=
    remove_loop_seg z rs.length rs this h 0 hseg hz hnd hlink (by omega)
  refine ⟨h1, ?_, hfreed, hsame, hlen, hab, hcb, htr⟩
  cases rs with
  | nil =>
    obtain ⟨zb, zf, hzl, _⟩ := hlink
    have hfirst : getFollowing this h = Res.ok z h := by
      simp [getFollowing, hc]
    have hsecond : getFollowing z h = Res.ok zf h := by
      rcases hzl with ⟨v, hv⟩ | ⟨n, la1, na1, hv⟩ <;> simp [getFollowing, hv]
    simp only [List.length_nil, remove_loop] at hrun1
    simp [remove, M.bind, hfirst, hsecond, remove_loop]
    cases hrun1
    rfl
  | cons r rs1 =>
    have hfirst : getFollowing this h = Res.ok r.1 h := by
      simp [getFollowing, hc]
    have hsecond : getFollowing r.1 h = Res.ok (headAddr rs1 z) h := by
      simp [getFollowing, hseg.1]
    simp only [List.tail_cons, List.length_cons] at hrun1
    simp [remove, M.bind, hfirst, hsecond, hrun1]


/-- One iteration of the fill loop when the payload constructor still has
`j + 1` successful runs left. -/
theorem fill_step_budget {h : Heap T A} {this : Addr} {built : List (Addr × T)} {la na : A}
    {b0 : Nat} (hb : Building h this built la na b0) (hab : h.allocBudget = none) {j : Nat}
    (hcb : h.ctorBudget = some (j + 1)) (v : T) :
    ∃ h1, fill_step this v (lastAddr built this) h = Res.ok h.mem.length h1 ∧
      Building h1 this (built ++ [(h.mem.length, v)]) la na b0 ∧
      h1.allocBudget = none ∧ h1.ctorBudget = some j ∧
      (∀ q, q < b0 → h1.mem[q]? = h.mem[q]?) ∧ h1.mem.length = h.mem.length + 1 ∧
      h1.trace = h.trace ++ [Event.allocate h.mem.length, Event.construct h.mem.length] := by
  have hlts := Building_lt hb
  obtain ⟨hne0, hnd, hlow, hc, hseg⟩ := hb
  have hlt := lt_of_cell hc
  have hne : this ≠ h.mem.length := Nat.ne_of_lt hlt
  rcases snoc_cases built with rfl | ⟨built0, n, rfl⟩
  · exact absurd rfl hne0
  · rw [Seg_append] at hseg
    obtain ⟨hseg0, hn, _⟩ := hseg
    simp only [lastAddr_append, headAddr_append, lastAddr_cons, headAddr_cons, lastAddr_nil,
      headAddr_nil, List.length_append, List.length_singleton] at hc hn hseg0 ⊢
    have hnlt := lt_of_cell hn
    have hnne : n.1 ≠ h.mem.length := Nat.ne_of_lt hnlt
    have hnd0 := hnd
    simp only [List.map_append, List.map_cons, List.map_nil, List.nodup_cons, List.mem_append,
      List.mem_singleton, not_or, nodup_snoc_iff] at hnd
    obtain ⟨⟨htr, htn⟩, hnr, hrnd⟩ := hnd
    apply exists_of_run
    intro r hrun
    simp [-List.getElem?_eq_getElem, List.getElem?_cons_zero, fill_step, M.bind, allocate,
      tryCatch, construct, hab, hcb, getFollowing, setFollowing,
      setPrevious, incSize, getSize, setSize, List.getElem?_append, List.getElem?_set, hlt, hc, hne,
      hne.symm, hn, hnlt, hnne, hnne.symm, htn, Ne.symm htn] at hrun
    subst hrun
    have hfresh : h.mem.length ∉ this :: List.map Prod.fst (built0 ++ [n]) :=
      fun hm => Nat.lt_irrefl _ (hlts _ hm)
    refine ⟨_, rfl, ⟨?_, ?_, ?_, ?_, ?_⟩, rfl, rfl, ?_, ?_, rfl⟩
    · simp
    · rw [List.map_append, ← List.cons_append]
      exact nodup_snoc hnd0 hfresh
    · intro p hp
      rw [List.map_append, ← List.cons_append, List.mem_append] at hp
      rcases hp with hp | hp
      · exact hlow p hp
      · simp only [List.map_cons, List.map_nil, List.mem_singleton] at hp
        subst hp
        exact Nat.le_trans (hlow this (List.mem_cons_self _ _)) (Nat.le_of_lt hlt)
    · simp [-List.getElem?_eq_getElem, List.getElem?_append, List.getElem?_set, hlt,
        lastAddr_append, headAddr_append, htn, Ne.symm htn]
    · simp only [Seg_append, Seg, lastAddr_append, headAddr_append, lastAddr_cons, headAddr_cons,
        lastAddr_nil, headAddr_nil, and_true]
      refine ⟨⟨Seg_congr ?_ hseg0, ?_⟩, ?_⟩
      · intro p hp
        have hpl := Seg_lt hseg0 p hp
        have hpt : this ≠ p := fun e => htr (e ▸ hp)
        have hpn : n.1 ≠ p := fun e => hnr (e ▸ hp)
        simp [-List.getElem?_eq_getElem, List.getElem?_append, List.getElem?_set, hpl, hpt, hpn]
      · simp [-List.getElem?_eq_getElem, List.getElem?_append, List.getElem?_set, hnlt, htn]
      · simp [-List.getElem?_eq_getElem, List.getElem?_cons_zero, List.getElem?_append,
          List.getElem?_set, hlt]
    · intro q hq
      have hqt : this ≠ q := fun e => Nat.lt_irrefl _
        (Nat.lt_of_lt_of_le (e ▸ hq) (hlow this (List.mem_cons_self _ _)))
      have hqn : n.1 ≠ q := fun e => Nat.lt_irrefl _
        (Nat.lt_of_lt_of_le (e ▸ hq) (hlow n.1 (by simp)))
      have hql : q < h.mem.length :=
        Nat.lt_of_lt_of_le hq (Nat.le_trans (hlow this (List.mem_cons_self _ _)) (Nat.le_of_lt hlt))
      simp [-List.getElem?_eq_getElem, List.getElem?_append, List.getElem?_set, hql, hqt, hqn]
    · simp

/-- One iteration of the fill loop when the payload constructor throws: the
handler releases the nodes built so far and the fresh storage, each once, and
rethrows. -/
theorem fill_step_throw {h : Heap T A} {this : Addr} {built : List (Addr × T)} {la na : A}
    {b0 : Nat} (hb : Building h this built la na b0)
    (hab : h.allocBudget = none) (hcb : h.ctorBudget = some 0) (v : T) :
    ∃ h1, fill_step this v (lastAddr built this) h = Res.threw Exn.payload h1 ∧
      (∀ p ∈ built.map Prod.fst, h1.mem[p]? = some Cell.freed) ∧
      h1.mem[h.mem.length]? = some Cell.freed ∧
      h1.mem[this]? = h.mem[this]? ∧
      (∀ q, q < b0 → h1.mem[q]? = h.mem[q]?) ∧
      h1.mem.length = h.mem.length + 1 ∧
      h1.allocBudget = none ∧ h1.ctorBudget = some 0 ∧
      h1.trace = h.trace ++ [Event.allocate h.mem.length] ++ freeTrace built.dropLast ++
        [Event.deallocate h.mem.length, Event.destroy (lastAddr built this),
          Event.deallocate (lastAddr built this)] := by
  have hlts := Building_lt hb
  obtain ⟨hne0, hnd, hlow, hc, hseg⟩ := hb
  have hlt := lt_of_cell hc
  have hne : this ≠ h.mem.length := Nat.ne_of_lt hlt
  rcases snoc_cases built with rfl | ⟨built0, n, rfl⟩
  · exact absurd rfl hne0
  · rw [Seg_append] at hseg
    obtain ⟨hseg0, hn, _⟩ := hseg
    simp only [lastAddr_append, headAddr_append, lastAddr_cons, headAddr_cons, lastAddr_nil,
      headAddr_nil, List.length_append, List.length_singleton, List.dropLast_concat] at hc hn hseg0 ⊢
    have hnlt := lt_of_cell hn
    have hnne : n.1 ≠ h.mem.length := Nat.ne_of_lt hnlt
    simp only [List.map_append, List.map_cons, List.map_nil, List.nodup_cons, List.mem_append,
      List.mem_singleton, not_or, nodup_snoc_iff] at hnd
    obtain ⟨⟨htr, htn⟩, hnr, hrnd⟩ := hnd
    -- the store in which the handler starts
    have hstep : fill_step this v n.1 h =
        (rollback this n.1 Exn.payload : M T A Addr)
          (Heap.mk ((h.mem ++ [Cell.raw]).set n.1
            (Cell.node (lastAddr built0 this) h.mem.length n.2)) none (some 0)
            (h.trace ++ [Event.allocate h.mem.length])) := by
      simp [-List.getElem?_eq_getElem, List.getElem?_cons_zero, fill_step, M.bind, allocate,
        tryCatch, construct, hab, hcb, getFollowing, setFollowing, List.getElem?_append,
        List.getElem?_set, hn, hnlt, hnne, hnne.symm]
    generalize hH : (Heap.mk ((h.mem ++ [Cell.raw]).set n.1
            (Cell.node (lastAddr built0 this) h.mem.length n.2)) none (some 0)
            (h.trace ++ [Event.allocate h.mem.length]) : Heap T A) = H at hstep
    have hHlen : H.mem.length = h.mem.length + 1 := by subst hH; simp
    have hHn : H.mem[n.1]? = some (Cell.node (lastAddr built0 this) h.mem.length n.2) := by
      subst hH
      simp [-List.getElem?_eq_getElem, List.getElem?_append, List.getElem?_set, hnlt]
    have hHL : H.mem[h.mem.length]? = some Cell.raw := by
      subst hH
      simp [-List.getElem?_eq_getElem, List.getElem?_append, List.getElem?_set, hnne,
        List.getElem?_cons_zero]
    have hHo : ∀ q, q ≠ n.1 → q < h.mem.length → H.mem[q]? = h.mem[q]? := by
      intro q hq hql
      subst hH
      simp [-List.getElem?_eq_getElem, List.getElem?_append, List.getElem?_set, hql, Ne.symm hq]
    have hHt : H.mem[this]? =
        some (Cell.list this (headAddr built0 n.1) (built0.length + 1) la na) := by
      rw [hHo this htn hlt]; exact hc
    have hHseg : Seg H.mem this built0 n.1 := by
      refine Seg_congr ?_ hseg0
      intro p hp
      exact hHo p (fun e => hnr (e ▸ hp)) (Seg_lt hseg0 p hp)
    have hLb : h.mem.length ∉ built0.map Prod.fst :=
      fun hm => Nat.lt_irrefl _ (Seg_lt hseg0 _ hm)
    obtain ⟨h2, hrun2, hfreed2, hsame2, hlen2, hab2, hcb2, htr2⟩ :=
      remove_seg hHt hHseg hnr hrnd ⟨_, _, Or.inl ⟨_, hHn⟩, fun _ => rfl⟩
    have h2n : h2.mem[n.1]? = some (Cell.node (lastAddr built0 this) h.mem.length n.2) := by
      rw [hsame2 _ hnr]; exact hHn
    have h2L : h2.mem[h.mem.length]? = some Cell.raw := by
      rw [hsame2 _ hLb]; exact hHL
    have h2nlt : n.1 < h2.mem.length := lt_of_cell h2n
    have h2Llt : h.mem.length < h2.mem.length := lt_of_cell h2L
    have hsize : getSize this H = Res.ok (built0.length + 1) H := by simp [getSize, hHt]
    have hdw : decWrap (built0.length + 1) = built0.length := by simp [decWrap]
    have hd : dealloc n.1 h2 = Res.ok ()
        (Heap.mk (((h2.mem.set h.mem.length Cell.freed).set n.1 Cell.raw).set n.1 Cell.freed)
          h2.allocBudget h2.ctorBudget
          (h2.trace ++ [Event.deallocate h.mem.length, Event.destroy n.1,
            Event.deallocate n.1])) := by
      simp [-List.getElem?_eq_getElem, dealloc, M.bind, getFollowing, deallocate, destroy,
        List.getElem?_set, h2n, h2L, h2nlt, h2Llt, hnne, hnne.symm]
    refine ⟨Heap.mk
        (((h2.mem.set h.mem.length Cell.freed).set n.1 Cell.raw).set n.1 Cell.freed)
        h2.allocBudget h2.ctorBudget
        (h2.trace ++ [Event.deallocate h.mem.length, Event.destroy n.1,
          Event.deallocate n.1]), ?_, ?_, ?_, ?_, ?_, ?_, ?_, ?_, ?_⟩
    · rw [hstep]
      simp only [rollback, bind, M.bind, hsize, hdw, hrun2, hd, throwExn]
    · intro p hp
      simp only [List.map_append, List.map_cons, List.map_nil, List.mem_append,
        List.mem_singleton] at hp
      rcases hp with hp | rfl
      · have hpn : n.1 ≠ p := fun e => hnr (e ▸ hp)
        have hpL : h.mem.length ≠ p := fun e => hLb (e ▸ hp)
        simp only [List.getElem?_set, hpn, hpL, if_false]
        exact hfreed2 p hp
      · simp [-List.getElem?_eq_getElem, List.getElem?_set, h2nlt]
    · simp [-List.getElem?_eq_getElem, List.getElem?_set, h2Llt, hnne]
    · simp only [List.getElem?_set, Ne.symm htn, Ne.symm hne, if_false]
      rw [hsame2 _ htr, hHo this htn hlt]
    · intro q hq
      have hqt : q ≠ this := fun e => Nat.lt_irrefl _
        (Nat.lt_of_lt_of_le (e ▸ hq) (hlow this (List.mem_cons_self _ _)))
      have hqn : q ≠ n.1 := fun e => Nat.lt_irrefl _
        (Nat.lt_of_lt_of_le (e ▸ hq) (hlow n.1 (by simp)))
      have hql : q < h.mem.length :=
        Nat.lt_of_lt_of_le hq (Nat.le_trans (hlow this (List.mem_cons_self _ _)) (Nat.le_of_lt hlt))
      have hqb : q ∉ built0.map Prod.fst := fun hm => Nat.lt_irrefl _
        (Nat.lt_of_lt_of_le hq (hlow q (by simp [hm])))
      simp only [List.getElem?_set, Ne.symm hqn, Ne.symm (Nat.ne_of_lt hql), if_false]
      rw [hsame2 _ hqb, hHo q hqn hql]
    · simp [hlen2, hHlen]
    · subst hH; exact hab2
    · subst hH; exact hcb2
    · subst hH
      simp [htr2]


/-- The fill loop when the payload constructor has `j` successful runs left and
more than `j` iterations to go: `j` nodes are added, the next construction
throws, and the handler releases every node once and rethrows. -/
theorem fill_loop_throw (this : Addr) (v : T) (la na : A) (b0 : Nat) :
    ∀ (j n : Nat) (h : Heap T A) (built : List (Addr × T)),
      j < n → Building h this built la na b0 →
      h.allocBudget = none → h.ctorBudget = some j →
      ∃ h1 news, fill_loop this v n (lastAddr built this) h = Res.threw Exn.payload h1 ∧
        news.map Prod.fst = List.range' h.mem.length j ∧
        news.map Prod.snd = List.replicate j v ∧
        (∀ p ∈ (built ++ news).map Prod.fst, h1.mem[p]? = some Cell.freed) ∧
        h1.mem[h.mem.length + j]? = some Cell.freed ∧
        (∃ tb tf sz, h1.mem[this]? = some (Cell.list tb tf sz la na)) ∧
        (∀ q, q < b0 → h1.mem[q]? = h.mem[q]?) ∧
        h1.mem.length = h.mem.length + j + 1 ∧
        h1.allocBudget = none ∧ h1.ctorBudget = some 0 ∧
        h1.trace = h.trace ++ buildTrace news ++ [Event.allocate (h.mem.length + j)] ++
          freeTrace (built ++ news).dropLast ++
          [Event.deallocate (h.mem.length + j), Event.destroy (lastAddr (built ++ news) this),
            Event.deallocate (lastAddr (built ++ news) this)] := by
  intro j
  induction j with
  | zero =>
    intro n h built hjn hb hab hcb
    obtain ⟨n1, rfl⟩ : ∃ n1, n = n1 + 1 := ⟨n - 1, by omega⟩
    obtain ⟨h1, hrun1, hfreed, hL, hthis, hfr, hlen, hab1, hcb1, htr⟩ :=
      fill_step_throw hb hab hcb v
    refine ⟨h1, [], ?_, rfl, rfl, by simpa using hfreed, by simpa using hL,
      ⟨_, _, _, hthis.trans hb.2.2.2.1⟩, hfr, by simpa using hlen, hab1, hcb1, ?_⟩
    · simp only [fill_loop, bind, M.bind, hrun1]
    · simpa [buildTrace] using htr
  | succ j ih =>
    intro n h built hjn hb hab hcb
    obtain ⟨n1, rfl⟩ : ∃ n1, n = n1 + 1 := ⟨n - 1, by omega⟩
    obtain ⟨h1, hrun1, hb1, hab1, hcb1, hfr1, hlen1, htr1⟩ := fill_step_budget hb hab hcb v
    obtain ⟨h2, news, hrun2, hfst, hsnd, hfreed, hL, hthis, hfr2, hlen2, hab2, hcb2, htr2⟩ :=
      ih n1 h1 _ (by omega) hb1 hab1 hcb1
    have hlast : lastAddr (built ++ [(h.mem.length, v)]) this = h.mem.length := by
      simp [lastAddr_append]
    rw [hlast] at hrun2
    have happ : (built ++ [(h.mem.length, v)]) ++ news = built ++ (h.mem.length, v) :: news := by
      simp
    rw [happ] at hfreed htr2
    rw [hlen1] at hfst hL hlen2 htr2
    refine ⟨h2, (h.mem.length, v) :: news, ?_, ?_, ?_, hfreed, ?_, hthis, ?_, ?_, hab2, hcb2,
      ?_⟩
    · simp only [fill_loop, bind, M.bind, hrun1, hrun2]
    · simp [hfst, List.range'_succ]
    · simp [hsnd, List.replicate_succ]
    · rw [← hL]; congr 1; omega
    · intro q hq
      rw [hfr2 q hq, hfr1 q hq]
    · omega
    · rw [htr2, htr1]
      have e1 : h.mem.length + 1 + j = h.mem.length + (j + 1) := by omega
      simp [buildTrace, e1]

/-- The fill constructor when the payload constructor throws at element
`k + 1` (the elements `0 .. k` were constructed): the exception reaches the
caller, every node allocated by the constructor has been deallocated once and
every constructed payload destroyed once, and nothing else is touched. -/
theorem List_fill_later_throw (τ : AllocTraits A) (h : Heap T A) (count k : Nat) (v : T)
    (alloc : A) (hab : h.allocBudget = none) (hcb : h.ctorBudget = some (k + 1))
    (hk : k + 1 < count) :
    ∃ h1 ns, List_fill τ count v alloc h = Res.threw Exn.payload h1 ∧
      ns.map Prod.fst = List.range' (h.mem.length + 1) (k + 1) ∧
      ns.map Prod.snd = List.replicate (k + 1) v ∧
      h1.mem.length = h.mem.length + k + 3 ∧
      (∀ p, h.mem.length ≤ p → p < h1.mem.length → h1.mem[p]? = some Cell.freed) ∧
      (∀ q, q < h.mem.length → h1.mem[q]? = h.mem[q]?) ∧
      h1.trace = h.trace ++ buildTrace ns ++ [Event.allocate (h.mem.length + k + 2)] ++
        freeTrace ns.dropLast ++
        [Event.deallocate (h.mem.length + k + 2), Event.destroy (lastAddr ns h.mem.length),
          Event.deallocate (lastAddr ns h.mem.length)] := by
  suffices hgoal : ∀ r, List_fill τ count v alloc h = r → ∃ h1 ns, r = Res.threw Exn.payload h1 ∧
      ns.map Prod.fst = List.range' (h.mem.length + 1) (k + 1) ∧
      ns.map Prod.snd = List.replicate (k + 1) v ∧
      h1.mem.length = h.mem.length + k + 3 ∧
      (∀ p, h.mem.length ≤ p → p < h1.mem.length → h1.mem[p]? = some Cell.freed) ∧
      (∀ q, q < h.mem.length → h1.mem[q]? = h.mem[q]?) ∧
      h1.trace = h.trace ++ buildTrace ns ++ [Event.allocate (h.mem.length + k + 2)] ++
        freeTrace ns.dropLast ++
        [Event.deallocate (h.mem.length + k + 2), Event.destroy (lastAddr ns h.mem.length),
          Event.deallocate (lastAddr ns h.mem.length)] from hgoal _ rfl
  intro r hrun
  simp [-List.getElem?_eq_getElem, List.getElem?_cons_zero, List_fill, List_members, ctorBody,
    M.bind, allocate, tryCatch, construct, hab, hcb, getFollowing, setFollowing, setListAlloc,
    setPrevious, incSize, getSize, setSize, List.getElem?_append, List.getElem?_set] at hrun
  generalize hH : (Heap.mk (h.mem ++
      [Cell.list h.mem.length (h.mem.length + 1) 1 alloc τ.dflt,
        Cell.node h.mem.length (h.mem.length + 1) v]) none (some k)
      (h.trace ++ [Event.allocate (h.mem.length + 1),
        Event.construct (h.mem.length + 1)]) : Heap T A) = H at hrun
  have hB : Building H h.mem.length [(h.mem.length + 1, v)] alloc τ.dflt h.mem.length := by
    subst hH
    refine ⟨by simp, by simp, ?_, ?_, ?_, trivial⟩
    · intro p hp
      simp only [List.map_cons, List.map_nil, List.mem_cons, List.not_mem_nil, or_false] at hp
      rcases hp with rfl | rfl <;> omega
    · simp [-List.getElem?_eq_getElem, List.getElem?_append, List.getElem?_cons_zero]
    · simp [-List.getElem?_eq_getElem, List.getElem?_append, List.getElem?_cons_succ,
        List.getElem?_cons_zero]
  have hHlen : H.mem.length = h.mem.length + 2 := by subst hH; simp
  have hHlow : ∀ q, q < h.mem.length → H.mem[q]? = h.mem[q]? := by
    intro q hq
    subst hH
    simp [-List.getElem?_eq_getElem, List.getElem?_append, hq]
  have hHtr : H.trace = h.trace ++ buildTrace [(h.mem.length + 1, v)] := by
    subst hH; simp [buildTrace]
  have hdw : k < decWrap count := by
    have : count ≠ 0 := by omega
    simp only [decWrap, this, if_false]
    omega
  obtain ⟨h1, news, hrun1, hfst, hsnd, hfreed, hL, ⟨tb, tf, sz, hthis⟩, hfr1, hlen1, hab1, hcb1,
      htr1⟩ :=
    fill_loop_throw h.mem.length v alloc τ.dflt h.mem.length k (decWrap count) H _ hdw hB
      (by subst hH; rfl) (by subst hH; rfl)
  simp only [lastAddr_cons, lastAddr_nil] at hrun1
  rw [hrun1] at hrun
  simp [endObject, hthis, throwExn, M.bind] at hrun
  subst hrun
  have hthislt := lt_of_cell hthis
  rw [hHlen] at hfst hL hlen1 htr1
  refine ⟨_, (h.mem.length + 1, v) :: news, rfl, ?_, ?_, ?_, ?_, ?_, ?_⟩
  · simp [hfst, List.range'_succ]
  · simp [hsnd, List.replicate_succ]
  · simp [hlen1]; omega
  · intro p hp1 hp2
    simp [hlen1] at hp2
    by_cases hpt : p = h.mem.length
    · subst hpt
      simp [-List.getElem?_eq_getElem, List.getElem?_set, hthislt]
    · simp only [List.getElem?_set, Ne.symm hpt, if_false]
      by_cases hpl : p = h.mem.length + 2 + k
      · rw [hpl]; exact hL
      · apply hfreed
        simp only [List.map_append, List.map_cons, List.map_nil, hfst, List.mem_append,
          List.mem_singleton, List.mem_range'_1]
        have hgt : h.mem.length < p := Nat.lt_of_le_of_ne hp1 (fun e => hpt e.symm)
        rcases Nat.lt_or_ge p (h.mem.length + 2) with hlo | hhi
        · exact Or.inl (Nat.le_antisymm (by omega) (by omega))
        · exact Or.inr ⟨hhi, Nat.lt_of_le_of_ne (by omega) hpl⟩
  · intro q hq
    simp only [List.getElem?_set, Nat.ne_of_gt hq, if_false]
    rw [hfr1 q hq, hHlow q hq]
  · rw [htr1, hHtr]
    have e1 : h.mem.length + 2 + k = h.mem.length + k + 2 := by omega
    simp [buildTrace, e1, lastAddr_append]

end Rollback

/-! ## Copy assignment from a non-empty list -/

section Assignment
variable {T A : Type}

/-- The member `swap` exchanges the links and the sizes of two list objects and
leaves their allocators where they are. -/
theorem swap_run {h : Heap T A} {x y xb xf xn yb yf yn : Nat} {xla xna yla yna : A}
    (hx : h.mem[x]? = some (Cell.list xb xf xn xla xna))
    (hy : h.mem[y]? = some (Cell.list yb yf yn yla yna)) (hne : x ≠ y) :
    ∃ h1, swap x y h = Res.ok () h1 ∧
      h1.mem[x]? = some (Cell.list yb yf yn xla xna) ∧
      h1.mem[y]? = some (Cell.list xb xf xn yla yna) ∧
      (∀ q, q ≠ x → q ≠ y → h1.mem[q]? = h.mem[q]?) ∧
      h1.mem.length = h.mem.length ∧ h1.allocBudget = h.allocBudget ∧
      h1.ctorBudget = h.ctorBudget ∧ h1.trace = h.trace := by
  have hxl := lt_of_cell hx
  have hyl := lt_of_cell hy
  apply exists_of_run
  intro r hrun
  simp [-List.getElem?_eq_getElem, swap, M.bind, getPrevious, getFollowing, setPrevious,
    setFollowing, getSize, setSize, List.getElem?_set, hx, hy, hne, Ne.symm hne, hxl, hyl] at hrun
  subst hrun
  refine ⟨_, rfl, ?_, ?_, ?_, ?_, rfl, rfl, rfl⟩
  · simp [-List.getElem?_eq_getElem, List.getElem?_set, hne, Ne.symm hne, hxl, hyl]
  · simp [-List.getElem?_eq_getElem, List.getElem?_set, hne, Ne.symm hne, hxl, hyl]
  · intro q hqx hqy
    simp [-List.getElem?_eq_getElem, List.getElem?_set, Ne.symm hqx, Ne.symm hqy]
  · simp

/-- The two statements `fictitious_.previous->following = &fictitious_;
fictitious_.following->previous = &fictitious_;` close a non-empty chain that
was closed around another sentinel `t` around `this`. -/
theorem reclose_ring {h : Heap T A} {this t : Addr} {cs : List (Addr × T)} {la na : A}
    (hne : cs ≠ []) (hnd : (this :: cs.map Prod.fst).Nodup)
    (hc : h.mem[this]? = some (Cell.list (lastAddr cs t) (headAddr cs t) cs.length la na))
    (hseg : Seg h.mem t cs t) :
    ∃ h3 h4, getPrevious this h = Res.ok (lastAddr cs t) h ∧
      setFollowing (lastAddr cs t) this h = Res.ok () h3 ∧
      getFollowing this h3 = Res.ok (headAddr cs t) h3 ∧
      setPrevious (headAddr cs t) this h3 = Res.ok () h4 ∧
      Ring h4 this cs la na ∧
      (∀ q, q ∉ cs.map Prod.fst → h4.mem[q]? = h.mem[q]?) ∧
      h4.mem.length = h.mem.length ∧ h4.allocBudget = h.allocBudget ∧
      h4.ctorBudget = h.ctorBudget ∧ h4.trace = h.trace := by
  have hlt := lt_of_cell hc
  cases cs with
  | nil => exact absurd rfl hne
  | cons c rest =>
    rcases snoc_cases rest with rfl | ⟨rest0, d, rfl⟩
    · obtain ⟨hcc, _⟩ := hseg
      simp only [lastAddr_cons, headAddr_cons, lastAddr_nil, headAddr_nil, List.length_cons,
        List.length_nil] at hc hcc ⊢
      have hclt := lt_of_cell hcc
      simp only [List.map_cons, List.map_nil, List.nodup_cons, List.mem_singleton,
        List.not_mem_nil, not_false_eq_true, List.nodup_nil, and_true] at hnd
      refine ⟨Heap.mk (h.mem.set c.1 (Cell.node t this c.2)) h.allocBudget h.ctorBudget h.trace,
        Heap.mk ((h.mem.set c.1 (Cell.node t this c.2)).set c.1 (Cell.node this this c.2))
          h.allocBudget h.ctorBudget h.trace, ?_, ?_, ?_, ?_, ⟨?_, ?_, ?_⟩, ?_, ?_, rfl, rfl, rfl⟩
      · simp [getPrevious, hc]
      · simp [setFollowing, hcc]
      · simp [-List.getElem?_eq_getElem, getFollowing, List.getElem?_set, hc, Ne.symm hnd]
      · simp [-List.getElem?_eq_getElem, setPrevious, List.getElem?_set, hclt]
      · simpa using hnd
      · simp [-List.getElem?_eq_getElem, List.getElem?_set, hc, Ne.symm hnd]
      · simp [-List.getElem?_eq_getElem, Seg, List.getElem?_set, hclt]
      · intro q hq
        simp only [List.map_cons, List.map_nil, List.mem_singleton] at hq
        simp [-List.getElem?_eq_getElem, List.getElem?_set, Ne.symm hq]
      · simp
    · obtain ⟨hcc, hseg1⟩ := hseg
      rw [Seg_append] at hseg1
      obtain ⟨hseg0, hd, _⟩ := hseg1
      simp only [lastAddr_cons, headAddr_cons, lastAddr_nil, headAddr_nil, List.length_cons,
        lastAddr_append, headAddr_append, List.length_append, List.length_nil] at hc hcc hd hseg0 ⊢
      have hclt := lt_of_cell hcc
      have hdlt := lt_of_cell hd
      have hnd0 := hnd
      simp only [List.map_cons, List.map_append, List.map_nil, List.nodup_cons, List.mem_cons,
        List.mem_append, List.mem_singleton, not_or, nodup_snoc_iff, List.not_mem_nil,
        not_false_eq_true, and_true, or_false] at hnd
      obtain ⟨⟨htc, htr, htd⟩, ⟨hcr, hcd⟩, hdr, hrnd⟩ := hnd
      refine ⟨Heap.mk (h.mem.set d.1 (Cell.node (lastAddr rest0 c.1) this d.2))
          h.allocBudget h.ctorBudget h.trace,
        Heap.mk ((h.mem.set d.1 (Cell.node (lastAddr rest0 c.1) this d.2)).set c.1
            (Cell.node this (headAddr rest0 d.1) c.2))
          h.allocBudget h.ctorBudget h.trace, ?_, ?_, ?_, ?_, ⟨hnd0, ?_, ?_⟩, ?_, ?_, rfl, rfl,
          rfl⟩
      · simp [getPrevious, hc]
      · simp [setFollowing, hd]
      · simp [-List.getElem?_eq_getElem, getFollowing, List.getElem?_set, hc, Ne.symm htd]
      · simp [-List.getElem?_eq_getElem, setPrevious, List.getElem?_set, hcc, Ne.symm hcd, hcd]
      · simp [-List.getElem?_eq_getElem, List.getElem?_set, hc, htc, htd, Ne.symm htc,
          Ne.symm htd, lastAddr_append, headAddr_append]
      · simp only [Seg, Seg_append, lastAddr_cons, headAddr_cons, lastAddr_nil, headAddr_nil,
          lastAddr_append, headAddr_append, and_true]
        refine ⟨?_, Seg_congr ?_ hseg0, ?_⟩
        · simp [-List.getElem?_eq_getElem, List.getElem?_set, hclt]
        · intro p hp
          have hpc : c.1 ≠ p := fun e => hcr (e ▸ hp)
          have hpd : d.1 ≠ p := fun e => hdr (e ▸ hp)
          simp [-List.getElem?_eq_getElem, List.getElem?_set, hpc, hpd]
        · simp [-List.getElem?_eq_getElem, List.getElem?_set, hdlt, hcd, Ne.symm hcd]
      · intro q hq
        simp only [List.map_cons, List.map_append, List.map_nil, List.mem_cons, List.mem_append,
          List.mem_singleton, not_or, List.not_mem_nil, not_false_eq_true, and_true,
          or_false] at hq
        simp [-List.getElem?_eq_getElem, List.getElem?_set, Ne.symm hq.1, Ne.symm hq.2.2]
      · simp


/-- Writing `list_alloc_` keeps a well formed list well formed. -/
theorem setListAlloc_ring {h : Heap T A} {this : Addr} {ns : List (Addr × T)} {la na : A}
    (hr : Ring h this ns la na) (x : A) :
    ∃ h1, setListAlloc this x h = Res.ok () h1 ∧ Ring h1 this ns x na ∧
      (∀ q, q ≠ this → h1.mem[q]? = h.mem[q]?) ∧
      h1.mem.length = h.mem.length ∧ h1.allocBudget = h.allocBudget ∧
      h1.ctorBudget = h.ctorBudget ∧ h1.trace = h.trace := by
  obtain ⟨hnd, hc, hseg⟩ := hr
  have hlt := lt_of_cell hc
  have htn : this ∉ ns.map Prod.fst := (List.nodup_cons.mp hnd).1
  refine ⟨Heap.mk (h.mem.set this
      (Cell.list (lastAddr ns this) (headAddr ns this) ns.length x na))
      h.allocBudget h.ctorBudget h.trace, ?_, ⟨hnd, ?_, Seg_congr ?_ hseg⟩, ?_, ?_, rfl, rfl, rfl⟩
  · simp [setListAlloc, hc]
  · simp [-List.getElem?_eq_getElem, List.getElem?_set, hlt]
  · intro p hp
    have hpt : this ≠ p := fun e => htn (e ▸ hp)
    simp [-List.getElem?_eq_getElem, List.getElem?_set, hpt]
  · intro q hq
    simp [-List.getElem?_eq_getElem, List.getElem?_set, Ne.symm hq]
  · simp

/-- The end of `operator=`: the temporary, which after the swap holds the links
of the old chain of the target, is closed around its own sentinel (or linked to
itself when the chain is empty). -/
theorem assign_tail {h : Heap T A} {tmp a : Addr} {xs : List (Addr × T)} {la na : A}
    (hnd : (tmp :: xs.map Prod.fst).Nodup)
    (hc : h.mem[tmp]? = some (Cell.list (lastAddr xs a) (headAddr xs a) xs.length la na))
    (hseg : Seg h.mem a xs a) {α : Type} (k : M T A α) :
    ∃ hT, (do
        let e ← empty tmp
        (if !e then do
            let b ← getPrevious tmp
            setFollowing b tmp
            let f ← getFollowing tmp
            setPrevious f tmp
          else pure ())
        let e ← empty tmp
        (if e then do
            setPrevious tmp tmp
            setFollowing tmp tmp
          else pure ())
        k : M T A α) h = k hT ∧
      Ring hT tmp xs la na ∧
      (∀ q, q ≠ tmp → q ∉ xs.map Prod.fst → hT.mem[q]? = h.mem[q]?) ∧
      hT.mem.length = h.mem.length ∧ hT.allocBudget = h.allocBudget ∧
      hT.ctorBudget = h.ctorBudget ∧ hT.trace = h.trace := by
  have hlt := lt_of_cell hc
  cases xs with
  | nil =>
    simp only [lastAddr_nil, headAddr_nil, List.length_nil] at hc
    refine ⟨Heap.mk ((h.mem.set tmp (Cell.list tmp a 0 la na)).set tmp
        (Cell.list tmp tmp 0 la na)) h.allocBudget h.ctorBudget h.trace,
      ?_, ⟨by simp, ?_, trivial⟩, ?_, ?_, rfl, rfl, rfl⟩
    · simp [-List.getElem?_eq_getElem, bind, M.bind, empty, getSize, setPrevious, setFollowing,
        List.getElem?_set, hc, hlt]
    · simp [-List.getElem?_eq_getElem, List.getElem?_set, hlt]
    · intro q hq _
      simp [-List.getElem?_eq_getElem, List.getElem?_set, Ne.symm hq]
    · simp
  | cons x xs1 =>
    obtain ⟨h3, h4, e1, e2, e3, e4, hr4, hfr4, hlen4, hab4, hcb4, htr4⟩ :=
      reclose_ring (List.cons_ne_nil x xs1) hnd hc hseg
    have hc4 := hr4.2.1
    have hsz : getSize tmp h = Res.ok (xs1.length + 1) h := by simp [getSize, hc]
    have hsz4 : getSize tmp h4 = Res.ok (xs1.length + 1) h4 := by simp [getSize, hc4]
    refine ⟨h4, ?_, hr4, fun q _ hq => hfr4 q hq, hlen4, hab4, hcb4, htr4⟩
    simp only [lastAddr_cons, headAddr_cons] at e1 e2 e3 e4
    simp [bind, M.bind, empty, hsz, hsz4, e1, e2, e3, e4]


/-- Copy assignment `a = b` from a non-empty well formed list `b` to a well
formed list `a` (empty or not) that shares no node with `b`, when nothing
fails: the call returns, `a` is a well formed list with the payloads of `b` in
order, `b` is as it was, the old nodes of `a` have been released once each, and
`list_alloc_` of `a` follows the propagation rule. -/
theorem assign_ring (τ : AllocTraits A) {h : Heap T A} {this src : Addr}
    {xs : List (Addr × T)} {n : Addr × T} {rest : List (Addr × T)} {la na lb nb : A}
    (hra : Ring h this xs la na) (hrb : Ring h src (n :: rest) lb nb)
    (hdis : ∀ p ∈ this :: xs.map Prod.fst, p ∉ src :: (n :: rest).map Prod.fst)
    (hnf : NoFail h) (fuel : Nat) (hfuel : rest.length ≤ fuel) :
    ∃ h1 cs, assign τ fuel this src h = Res.ok () h1 ∧
      Ring h1 this cs (if τ.ne la lb && τ.pocca then lb else la) na ∧
      cs.map Prod.snd = (n :: rest).map Prod.snd ∧
      Ring h1 src (n :: rest) lb nb ∧
      (∀ p ∈ xs.map Prod.fst, h1.mem[p]? = some Cell.freed) ∧
      NoFail h1 ∧
      h1.trace = h.trace ++ buildTrace cs ++ freeTrace xs := by
  have hlta := Ring_lt hra
  have hltb := Ring_lt hrb
  obtain ⟨h1, cs, hrun1, hrc, hval, hnf1, hfr1, hlow, htr1⟩ :=
    List_copy_ring τ hrb hnf fuel hfuel
  have hcsne : cs ≠ [] := by
    intro e
    rw [e] at hval
    simp at hval
  have hra1 : Ring h1 this xs la na := Ring_frame hra (fun p hp => hfr1 p (hlta p hp))
  have hrb1 : Ring h1 src (n :: rest) lb nb := Ring_frame hrb (fun p hp => hfr1 p (hltb p hp))
  -- the temporary and its nodes are new
  have hnew : ∀ p ∈ h.mem.length :: cs.map Prod.fst, ∀ q, q < h.mem.length → p ≠ q :=
    fun p hp q hq e => Nat.lt_irrefl _ (Nat.lt_of_lt_of_le (e ▸ hq) (hlow p hp))
  have htt : this ≠ h.mem.length := Nat.ne_of_lt (hlta this (List.mem_cons_self _ _))
  have htcs : this ∉ cs.map Prod.fst := fun hm =>
    hnew this (List.mem_cons_of_mem _ hm) this (hlta this (List.mem_cons_self _ _)) rfl
  have htmpxs : h.mem.length ∉ xs.map Prod.fst := fun hm =>
    Nat.lt_irrefl _ (hlta _ (List.mem_cons_of_mem _ hm))
  have hxscs : ∀ p ∈ xs.map Prod.fst, p ∉ cs.map Prod.fst := fun p hp hm =>
    hnew p (List.mem_cons_of_mem _ hm) p (hlta p (List.mem_cons_of_mem _ hp)) rfl
  -- swap
  obtain ⟨h2, hrun2, h2t, h2m, hfr2, hlen2, hab2, hcb2, htr2⟩ :=
    swap_run hra1.2.1 hrc.2.1 htt
  -- close the new chain around the target
  have hnd3 : (this :: cs.map Prod.fst).Nodup :=
    List.nodup_cons.mpr ⟨htcs, (List.nodup_cons.mp hrc.1).2⟩
  have hseg2 : Seg h2.mem h.mem.length cs h.mem.length := by
    refine Seg_congr ?_ hrc.2.2
    intro p hp
    exact hfr2 p (fun e => htcs (e ▸ hp)) (fun e => (List.nodup_cons.mp hrc.1).1 (e ▸ hp))
  obtain ⟨h3, h4, e1, e2, e3, e4, hr4, hfr4, hlen4, hab4, hcb4, htr4⟩ :=
    reclose_ring hcsne hnd3 h2t hseg2
  -- the allocators
  have hsrc4 : ∀ p ∈ src :: (n :: rest).map Prod.fst, h4.mem[p]? = h1.mem[p]? := by
    intro p hp
    have hpl := hltb p hp
    have hpcs : p ∉ cs.map Prod.fst := fun hm => hnew p (List.mem_cons_of_mem _ hm) p hpl rfl
    have hpt : p ≠ this := fun e => hdis this (List.mem_cons_self _ _) (e ▸ hp)
    rw [hfr4 p hpcs, hfr2 p hpt (Nat.ne_of_lt hpl)]
  have hgla : getListAlloc this h4 = Res.ok la h4 := by simp [getListAlloc, hr4.2.1]
  have hglb : getListAlloc src h4 = Res.ok lb h4 := by
    simp [getListAlloc, hsrc4 src (List.mem_cons_self _ _), hrb1.2.1]
  obtain ⟨h5, hrun5, hr5, hfr5, hlen5, hab5, hcb5, htr5⟩ :
      ∃ h5, (if (τ.ne la lb && τ.pocca) = true then setListAlloc this lb else pure ()) h4
          = Res.ok () h5 ∧
        Ring h5 this cs (if τ.ne la lb && τ.pocca then lb else la) na ∧
        (∀ q, q ≠ this → h5.mem[q]? = h4.mem[q]?) ∧
        h5.mem.length = h4.mem.length ∧ h5.allocBudget = h4.allocBudget ∧
        h5.ctorBudget = h4.ctorBudget ∧ h5.trace = h4.trace := by
    cases hcond : (τ.ne la lb && τ.pocca) with
    | true =>
      obtain ⟨h5, hrun5, hr5, hrest⟩ := setListAlloc_ring hr4 lb
      exact ⟨h5, by simpa using hrun5, by simpa using hr5, hrest⟩
    | false =>
      exact ⟨h4, by simp, by simpa using hr4, fun _ _ => rfl, rfl, rfl, rfl, rfl⟩
  -- close the old chain around the temporary and destroy it
  have hnd5 : (h.mem.length :: xs.map Prod.fst).Nodup :=
    List.nodup_cons.mpr ⟨htmpxs, (List.nodup_cons.mp hra.1).2⟩
  have hold5 : ∀ p, p ≠ this → p ∉ cs.map Prod.fst → h5.mem[p]? = h2.mem[p]? := by
    intro p hpt hpcs
    rw [hfr5 p hpt, hfr4 p hpcs]
  have hc5 : h5.mem[h.mem.length]? = some (Cell.list (lastAddr xs this) (headAddr xs this)
      xs.length (τ.select lb) (τ.select nb)) := by
    rw [hold5 _ (Ne.symm htt) (List.nodup_cons.mp hrc.1).1]
    exact h2m
  have hseg5 : Seg h5.mem this xs this := by
    refine Seg_congr ?_ hra1.2.2
    intro p hp
    have hpt : p ≠ this := fun e => (List.nodup_cons.mp hra.1).1 (e ▸ hp)
    rw [hold5 p hpt (hxscs p hp), hfr2 p hpt (fun e => htmpxs (e ▸ hp))]
  obtain ⟨hT, hrunT, hrT, hfrT, hlenT, habT, hcbT, htrT⟩ :=
    assign_tail hnd5 hc5 hseg5 (List_dtor h.mem.length)
  obtain ⟨hF, hrunF, hfreedF, hsameF, hlenF, habF, hcbF, htrF⟩ := List_dtor_ring hrT
  have hkeep : ∀ p, p ≠ h.mem.length → p ∉ xs.map Prod.fst → hF.mem[p]? = h5.mem[p]? := by
    intro p hp1 hp2
    rw [hsameF p (by simp [hp1, hp2]), hfrT p hp1 hp2]
  refine ⟨hF, cs, ?_, ?_, hval, ?_, ?_, ?_, ?_⟩
  · rw [hrunF] at hrunT
    simp only [bind, M.bind] at hrunT
    simp only [assign, bind, M.bind, hrun1, hrun2, e1, e2, e3, e4, hgla, hglb, hrun5]
    exact hrunT
  · refine Ring_frame hr5 ?_
    intro p hp
    rcases List.mem_cons.mp hp with rfl | hp
    · exact hkeep _ htt (List.nodup_cons.mp hra.1).1
    · exact hkeep p (fun e => (List.nodup_cons.mp hrc.1).1 (e ▸ hp))
        (fun hm => hxscs p hm hp)
  · refine Ring_frame hrb1 ?_
    intro p hp
    have hpl := hltb p hp
    have hpcs : p ∉ cs.map Prod.fst := fun hm => hnew p (List.mem_cons_of_mem _ hm) p hpl rfl
    have hpt : p ≠ this := fun e => hdis this (List.mem_cons_self _ _) (e ▸ hp)
    have hpxs : p ∉ xs.map Prod.fst := fun hm => hdis p (List.mem_cons_of_mem _ hm) hp
    rw [hkeep p (Nat.ne_of_lt hpl) hpxs, hfr5 p hpt, hsrc4 p hp]
  · intro p hp
    exact hfreedF p (List.mem_cons_of_mem _ hp)
  · exact ⟨by rw [habF, habT, hab5, hab4, hab2]; exact hnf1.1,
      by rw [hcbF, hcbT, hcb5, hcb4, hcb2]; exact hnf1.2⟩
  · rw [htrF, htrT, htr5, htr4, htr2, htr1]

end Assignment

/-! ## Allocator propagation on copy assignment -/

section AllocatorProofs
variable {T A : Type}

theorem Triple_bind {α β : Type} {P : Heap T A → Prop} {x : M T A α} {f : α → M T A β}
    {Q : α → Heap T A → Prop} {R : β → Heap T A → Prop}
    (hx : Triple P x Q) (hf : ∀ a, Triple (Q a) (f a) R) : Triple P (x >>= f) R := by
  intro h b h2 hP hrun
  simp only [bind_run, M.bind] at hrun
  cases hxh : x h with
  | ok a h1 =>
    rw [hxh] at hrun
    exact hf a h1 b h2 (hx h a h1 hP hxh) hrun
  | threw e h1 => rw [hxh] at hrun; cases hrun
  | ub h1 => rw [hxh] at hrun; cases hrun
  | timeout => rw [hxh] at hrun; cases hrun

theorem Triple_pure {α : Type} {P : Heap T A → Prop} {Q : α → Heap T A → Prop} (a : α)
    (hpq : ∀ h, P h → Q a h) : Triple P (pure a : M T A α) Q := by
  intro h b h1 hP hrun
  cases hrun
  exact hpq h hP

theorem Triple_weaken {α : Type} {P P1 : Heap T A → Prop} {m : M T A α}
    {Q Q1 : α → Heap T A → Prop} (hm : Triple P m Q) (hp : ∀ h, P1 h → P h)
    (hq : ∀ a h, Q a h → Q1 a h) : Triple P1 m Q1 :=
  fun h a h1 hP hrun => hq a h1 (hm h a h1 (hp h hP) hrun)

theorem Triple_both {α : Type} {P1 P2 : Heap T A → Prop} {m : M T A α}
    {Q1 Q2 : α → Heap T A → Prop} (h1 : Triple P1 m Q1) (h2 : Triple P2 m Q2) :
    Triple (fun h => P1 h ∧ P2 h) m (fun a h => Q1 a h ∧ Q2 a h) :=
  fun h a hf hP hrun => ⟨h1 h a hf hP.1 hrun, h2 h a hf hP.2 hrun⟩

theorem Triple_ite {α : Type} {P : Heap T A → Prop} {c : Prop} [Decidable c] {x y : M T A α}
    {Q : α → Heap T A → Prop} (hx : Triple P x Q) (hy : Triple P y Q) :
    Triple P (if c then x else y) Q := by
  split
  · exact hx
  · exact hy

theorem Triple_tryCatch {α : Type} {P : Heap T A → Prop} {body : M T A α}
    {handler : Exn → M T A α} {Q : α → Heap T A → Prop}
    (hb : Triple P body Q) (hh : ∀ e, NeverOk (handler e)) :
    Triple P (tryCatch body handler) Q := by
  intro h a h1 hP hrun
  unfold tryCatch at hrun
  cases hbh : body h with
  | ok a0 h0 => rw [hbh] at hrun; exact hb h a h1 hP (by rw [hbh]; exact hrun)
  | threw e h0 => rw [hbh] at hrun; exact absurd hrun (hh e h0 a h1)
  | ub h0 => rw [hbh] at hrun; cases hrun
  | timeout => rw [hbh] at hrun; cases hrun

theorem NeverOk_bind {α β : Type} {x : M T A α} {f : α → M T A β}
    (hf : ∀ a, NeverOk (f a)) : NeverOk (x >>= f) := by
  intro h b h2 hrun
  simp only [bind_run, M.bind] at hrun
  cases hxh : x h with
  | ok a h1 => rw [hxh] at hrun; exact hf a h1 b h2 hrun
  | threw e h1 => rw [hxh] at hrun; cases hrun
  | ub h1 => rw [hxh] at hrun; cases hrun
  | timeout => rw [hxh] at hrun; cases hrun

theorem NeverOk_throwExn {α : Type} (e : Exn) : NeverOk (throwExn e : M T A α) := by
  intro h a h1 hrun
  cases hrun

theorem NeverOk_rollback {α : Type} (this actual : Addr) (e : Exn) :
    NeverOk (rollback this actual e : M T A α) :=
  NeverOk_bind fun _ => NeverOk_bind fun _ => NeverOk_bind fun _ => NeverOk_throwExn e

theorem Triple_ctorBody {α : Type} {P : Heap T A → Prop} {body : M T A α}
    {Q : α → Heap T A → Prop} (this : Addr) (hb : Triple P body Q) :
    Triple P (ctorBody this body) Q :=
  Triple_tryCatch hb fun e => NeverOk_bind fun _ => NeverOk_throwExn e

/-! ### Steps that leave `list_alloc_` of every list object alone -/

theorem HasAlloc_set_ne {p q : Addr} {la : A} {h : Heap T A} {m1 : List (Cell T A)}
    {ab cb : Option Nat} {tr : List Event} {c : Cell T A}
    (hp : HasAlloc p la h) (hm : m1 = h.mem.set q c) (hq : q ≠ p) :
    HasAlloc p la (Heap.mk m1 ab cb tr) := by
  obtain ⟨b, f, n, na, hc⟩ := hp
  refine ⟨b, f, n, na, ?_⟩
  subst hm
  simpa [List.getElem?_set, hq] using hc

theorem HasAlloc_set_list {p q : Addr} {la la1 : A} {h : Heap T A} {m1 : List (Cell T A)}
    {ab cb : Option Nat} {tr : List Event} {b f n b1 f1 n1 : Nat} {na na1 : A}
    (hp : HasAlloc p la h) (hq : h.mem[q]? = some (Cell.list b f n la1 na))
    (hm : m1 = h.mem.set q (Cell.list b1 f1 n1 la1 na1)) :
    HasAlloc p la (Heap.mk m1 ab cb tr) := by
  by_cases hqp : q = p
  · subst hqp
    obtain ⟨b0, f0, n0, na0, hc⟩ := hp
    rw [hc] at hq
    cases hq
    refine ⟨b1, f1, n1, na1, ?_⟩
    subst hm
    simp [-List.getElem?_eq_getElem, List.getElem?_set, lt_of_cell hc]
  · exact HasAlloc_set_ne hp hm hqp

theorem HasAlloc_ne_of_node {p q : Addr} {la : A} {h : Heap T A} {b f : Addr} {v : T}
    (hp : HasAlloc p la h) (hq : h.mem[q]? = some (Cell.node b f v)) : q ≠ p := by
  rintro rfl
  obtain ⟨_, _, _, _, hc⟩ := hp
  rw [hc] at hq
  cases hq

theorem HasAlloc_ne_of_raw {p q : Addr} {la : A} {h : Heap T A}
    (hp : HasAlloc p la h) (hq : h.mem[q]? = some Cell.raw) : q ≠ p := by
  rintro rfl
  obtain ⟨_, _, _, _, hc⟩ := hp
  rw [hc] at hq
  cases hq

theorem HasAlloc_append {p : Addr} {la : A} {h : Heap T A} {ab cb : Option Nat}
    {tr : List Event} (c : Cell T A) (hp : HasAlloc p la h) :
    HasAlloc p la (Heap.mk (h.mem ++ [c]) ab cb tr) := by
  obtain ⟨b, f, n, na, hc⟩ := hp
  refine ⟨b, f, n, na, ?_⟩
  simpa [-List.getElem?_eq_getElem, List.getElem?_append, lt_of_cell hc] using hc

/-- Allocation keeps the allocator of every list object. -/
theorem keeps_allocate (p : Addr) (la : A) :
    Keeps p la (allocate : M T A Addr) := by
  intro h a h1 hP hrun
  unfold allocate at hrun
  split at hrun
  · cases hrun
  · cases hrun
    exact HasAlloc_append _ hP

theorem keeps_deallocate (p : Addr) (la : A) (q : Addr) :
    Keeps p la (deallocate q : M T A Unit) := by
  intro h a h1 hP hrun
  unfold deallocate at hrun
  split at hrun
  · cases hrun
    exact HasAlloc_set_ne hP rfl (HasAlloc_ne_of_raw hP (by assumption))
  · cases hrun
    exact HasAlloc_set_ne hP rfl (HasAlloc_ne_of_node hP (by assumption))
  · cases hrun

theorem keeps_construct (p : Addr) (la : A) (q : Addr) (v : T) :
    Keeps p la (construct q v : M T A Unit) := by
  intro h a h1 hP hrun
  unfold construct at hrun
  split at hrun
  · split at hrun
    · cases hrun
    · cases hrun
      exact HasAlloc_set_ne hP rfl (HasAlloc_ne_of_raw hP (by assumption))
  · cases hrun

theorem keeps_destroy (p : Addr) (la : A) (q : Addr) :
    Keeps p la (destroy q : M T A Unit) := by
  intro h a h1 hP hrun
  unfold destroy at hrun
  split at hrun
  · cases hrun
    exact HasAlloc_set_ne hP rfl (HasAlloc_ne_of_node hP (by assumption))
  · cases hrun

theorem keeps_getFollowing (p : Addr) (la : A) (q : Addr) :
    Keeps p la (getFollowing q : M T A Addr) := by
  intro h a h1 hP hrun
  unfold getFollowing at hrun
  split at hrun
  all_goals cases hrun
  all_goals exact hP

theorem keeps_getPrevious (p : Addr) (la : A) (q : Addr) :
    Keeps p la (getPrevious q : M T A Addr) := by
  intro h a h1 hP hrun
  unfold getPrevious at hrun
  split at hrun
  all_goals cases hrun
  all_goals exact hP

theorem keeps_get_value (p : Addr) (la : A) (q : Addr) :
    Keeps p la (get_value q : M T A T) := by
  intro h a h1 hP hrun
  unfold get_value at hrun
  split at hrun
  all_goals cases hrun
  all_goals exact hP

theorem keeps_getSize (p : Addr) (la : A) (q : Addr) :
    Keeps p la (getSize q : M T A Nat) := by
  intro h a h1 hP hrun
  unfold getSize at hrun
  split at hrun
  all_goals cases hrun
  all_goals exact hP

theorem keeps_getListAlloc (p : Addr) (la : A) (q : Addr) :
    Keeps p la (getListAlloc q : M T A A) := by
  intro h a h1 hP hrun
  unfold getListAlloc at hrun
  split at hrun
  all_goals cases hrun
  all_goals exact hP

theorem keeps_getNodeAlloc (p : Addr) (la : A) (q : Addr) :
    Keeps p la (getNodeAlloc q : M T A A) := by
  intro h a h1 hP hrun
  unfold getNodeAlloc at hrun
  split at hrun
  all_goals cases hrun
  all_goals exact hP

theorem keeps_setFollowing (p : Addr) (la : A) (q r : Addr) :
    Keeps p la (setFollowing q r : M T A Unit) := by
  intro h a h1 hP hrun
  unfold setFollowing at hrun
  split at hrun
  · cases hrun
    exact HasAlloc_set_ne hP rfl (HasAlloc_ne_of_node hP (by assumption))
  · cases hrun
    exact HasAlloc_set_list hP (by assumption) rfl
  · cases hrun

theorem keeps_setPrevious (p : Addr) (la : A) (q r : Addr) :
    Keeps p la (setPrevious q r : M T A Unit) := by
  intro h a h1 hP hrun
  unfold setPrevious at hrun
  split at hrun
  · cases hrun
    exact HasAlloc_set_ne hP rfl (HasAlloc_ne_of_node hP (by assumption))
  · cases hrun
    exact HasAlloc_set_list hP (by assumption) rfl
  · cases hrun

theorem keeps_setSize (p : Addr) (la : A) (q n : Nat) :
    Keeps p la (setSize q n : M T A Unit) := by
  intro h a h1 hP hrun
  unfold setSize at hrun
  split at hrun
  · cases hrun
    exact HasAlloc_set_list hP (by assumption) rfl
  · cases hrun

theorem keeps_setNodeAlloc (p : Addr) (la : A) (q : Addr) (x : A) :
    Keeps p la (setNodeAlloc q x : M T A Unit) := by
  intro h a h1 hP hrun
  unfold setNodeAlloc at hrun
  split at hrun
  · cases hrun
    exact HasAlloc_set_list hP (by assumption) rfl
  · cases hrun

theorem keeps_setListAlloc (p : Addr) (la : A) (q : Addr) (x : A) (hq : q ≠ p) :
    Keeps p la (setListAlloc q x : M T A Unit) := by
  intro h a h1 hP hrun
  unfold setListAlloc at hrun
  split at hrun
  · cases hrun
    exact HasAlloc_set_ne hP rfl hq
  · cases hrun

theorem keeps_endObject (p : Addr) (la : A) (q : Addr) (hq : q ≠ p) :
    Keeps p la (endObject q : M T A Unit) := by
  intro h a h1 hP hrun
  unfold endObject at hrun
  split at hrun
  · cases hrun
    exact HasAlloc_set_ne hP rfl hq
  · cases hrun


theorem Keeps_bind {α β : Type} {p : Addr} {la : A} {x : M T A α} {f : α → M T A β}
    (hx : Keeps p la x) (hf : ∀ a, Keeps p la (f a)) : Keeps p la (x >>= f) :=
  Triple_bind hx hf

theorem Keeps_pure {α : Type} {p : Addr} {la : A} (a : α) : Keeps p la (pure a : M T A α) :=
  Triple_pure a fun _ hP => hP

theorem Keeps_ite {α : Type} {p : Addr} {la : A} {c : Prop} [Decidable c] {x y : M T A α}
    (hx : Keeps p la x) (hy : Keeps p la y) : Keeps p la (if c then x else y) :=
  Triple_ite hx hy

theorem Triple_of_pure {α : Type} {P : Heap T A → Prop} {φ : Prop} {m : M T A α}
    {Q : α → Heap T A → Prop} (hm : φ → Triple P m Q) : Triple (fun h => P h ∧ φ) m Q :=
  fun h a h1 hP hrun => hm hP.2 h a h1 hP.1 hrun

theorem keeps_incSize (p : Addr) (la : A) (q : Addr) : Keeps p la (incSize q : M T A Unit) :=
  Keeps_bind (keeps_getSize p la q) fun _ => keeps_setSize p la q _

theorem keeps_empty (p : Addr) (la : A) (q : Addr) : Keeps p la (empty q : M T A Bool) :=
  Keeps_bind (keeps_getSize p la q) fun _ => Keeps_pure _

theorem keeps_inc (p : Addr) (la : A) (r : Bool) (it : Iterator) :
    Keeps p la (Iterator.inc r it : M T A Iterator) :=
  Keeps_bind (Keeps_ite (Keeps_bind (keeps_getFollowing p la _) fun _ => Keeps_pure _)
      (Keeps_pure _)) fun _ =>
    Keeps_bind (Keeps_ite (Keeps_bind (keeps_getPrevious p la _) fun _ => Keeps_pure _)
      (Keeps_pure _)) fun _ => Keeps_pure _

theorem keeps_remove_one (p : Addr) (la : A) (idx : Nat) (node : Addr) :
    Keeps p la (remove_one idx node : M T A (Nat × Addr)) :=
  Keeps_bind (keeps_getPrevious p la _) fun _ =>
  Keeps_bind (keeps_destroy p la _) fun _ =>
  Keeps_bind (keeps_getPrevious p la _) fun _ =>
  Keeps_bind (keeps_deallocate p la _) fun _ =>
  Keeps_bind (keeps_getFollowing p la _) fun _ => Keeps_pure _

theorem keeps_remove_loop (p : Addr) (la : A) (ds : Nat) :
    ∀ (n idx : Nat) (actual : Addr), Keeps p la (remove_loop ds n idx actual : M T A Unit) := by
  intro n
  induction n with
  | zero => intro idx actual; exact Keeps_pure _
  | succ n ih =>
    intro idx actual
    unfold remove_loop
    exact Keeps_ite (Keeps_bind (keeps_remove_one p la _ _) fun _ => ih _ _) (Keeps_pure _)

theorem keeps_remove (p : Addr) (la : A) (this ds : Nat) :
    Keeps p la (remove this ds : M T A Unit) :=
  Keeps_bind (keeps_getFollowing p la _) fun _ =>
  Keeps_bind (keeps_getFollowing p la _) fun _ => keeps_remove_loop p la _ _ _ _

theorem keeps_List_dtor (p : Addr) (la : A) (this : Addr) (hne : this ≠ p) :
    Keeps p la (List_dtor this : M T A Unit) :=
  Keeps_bind (keeps_getSize p la _) fun _ =>
  Keeps_bind (keeps_remove p la _ _) fun _ => keeps_endObject p la _ hne

theorem keeps_copy_step (p : Addr) (la : A) (this : Addr) (nb : Iterator) (actual : Addr) :
    Keeps p la (copy_step this nb actual : M T A (Iterator × Addr)) :=
  Triple_tryCatch
    (Keeps_bind (keeps_allocate p la) fun _ =>
     Keeps_bind (keeps_setFollowing p la _ _) fun _ =>
     Keeps_bind (keeps_getFollowing p la _) fun _ =>
     Keeps_bind (keeps_get_value p la _) fun _ =>
     Keeps_bind (keeps_construct p la _ _) fun _ =>
     Keeps_bind (keeps_incSize p la _) fun _ =>
     Keeps_bind (keeps_getFollowing p la _) fun _ =>
     Keeps_bind (keeps_setPrevious p la _ _) fun _ =>
     Keeps_bind (keeps_getFollowing p la _) fun _ =>
     Keeps_bind (keeps_inc p la _ _) fun _ => Keeps_pure _)
    (fun e => NeverOk_rollback this actual e)

theorem keeps_copy_loop (p : Addr) (la : A) (this : Addr) (new_end : Iterator) :
    ∀ (fuel : Nat) (nb : Iterator) (actual : Addr),
      Keeps p la (copy_loop this new_end fuel nb actual : M T A Addr) := by
  intro fuel
  induction fuel with
  | zero =>
    intro nb actual
    unfold copy_loop
    refine Keeps_ite (Keeps_pure _) ?_
    intro h a h1 _ hrun
    cases hrun
  | succ fuel ih =>
    intro nb actual
    unfold copy_loop
    exact Keeps_ite (Keeps_pure _) (Keeps_bind (keeps_copy_step p la _ _ _) fun _ => ih _ _)

theorem List_members_fresh (τ : AllocTraits A) (p : Addr) (la : A) :
    Triple (HasAlloc p la) (List_members τ : M T A Addr)
      (fun this h => HasAlloc p la h ∧ this ≠ p) := by
  intro h a h1 hP hrun
  cases hrun
  refine ⟨HasAlloc_append _ hP, ?_⟩
  obtain ⟨_, _, _, _, hc⟩ := hP
  exact Nat.ne_of_gt (lt_of_cell hc)

theorem List_copy_keeps (τ : AllocTraits A) (fuel : Nat) (src p : Addr) (la : A) :
    Triple (HasAlloc p la) (List_copy τ fuel src : M T A Addr)
      (fun c h => HasAlloc p la h ∧ c ≠ p) :=
  Triple_bind (List_members_fresh τ p la) fun this =>
    Triple_of_pure fun hne =>
      Triple_ctorBody this <|
        Triple_bind (keeps_allocate p la) fun actual =>
        Triple_bind (Keeps_pure (Iterator.mk src)) fun new_end =>
        Triple_bind (Keeps_bind (keeps_getFollowing p la _) fun _ => Keeps_pure _) fun _ =>
        Triple_bind (Triple_tryCatch
          (Keeps_bind (keeps_get_value p la _) fun _ =>
           Keeps_bind (keeps_construct p la _ _) fun _ =>
           Keeps_bind (keeps_setFollowing p la _ _) fun _ =>
           Keeps_bind (keeps_setPrevious p la _ _) fun _ =>
           Keeps_bind (keeps_inc p la _ _) fun _ =>
           Keeps_bind (keeps_incSize p la _) fun _ => Keeps_pure _)
          (fun e => NeverOk_rollback this actual e)) fun nb1 =>
        Triple_bind (keeps_copy_loop p la this new_end fuel nb1 actual) fun _ =>
        Triple_bind (keeps_setFollowing p la _ _) fun _ =>
        Triple_bind (keeps_setPrevious p la _ _) fun _ =>
        Triple_bind (keeps_getListAlloc p la _) fun _ =>
        Triple_bind (keeps_setListAlloc p la _ _ hne) fun _ =>
        Triple_bind (keeps_getNodeAlloc p la _) fun _ =>
        Triple_bind (keeps_setNodeAlloc p la _ _) fun _ =>
        Triple_pure this fun _ hP => ⟨hP, hne⟩

theorem keeps_swap (p : Addr) (la : A) (x y : Addr) : Keeps p la (swap x y : M T A Unit) :=
  Keeps_bind (keeps_getPrevious p la _) fun _ =>
  Keeps_bind (keeps_getFollowing p la _) fun _ =>
  Keeps_bind (keeps_getPrevious p la _) fun _ =>
  Keeps_bind (keeps_getFollowing p la _) fun _ =>
  Keeps_bind (keeps_setPrevious p la _ _) fun _ =>
  Keeps_bind (keeps_setFollowing p la _ _) fun _ =>
  Keeps_bind (keeps_setPrevious p la _ _) fun _ =>
  Keeps_bind (keeps_setFollowing p la _ _) fun _ =>
  Keeps_bind (keeps_getSize p la _) fun _ =>
  Keeps_bind (keeps_getSize p la _) fun _ =>
  Keeps_bind (keeps_setSize p la _ _) fun _ => keeps_setSize p la _ _

theorem getListAlloc_value (p : Addr) (la : A) :
    Triple (HasAlloc p la) (getListAlloc p : M T A A) (fun a h => HasAlloc p la h ∧ a = la) := by
  intro h a h1 hP hrun
  obtain ⟨b, f, n, na, hc⟩ := hP
  simp only [getListAlloc, hc] at hrun
  cases hrun
  exact ⟨⟨b, f, n, na, hc⟩, rfl⟩

theorem setListAlloc_value (p : Addr) (la x : A) :
    Triple (HasAlloc p la) (setListAlloc p x : M T A Unit) (fun _ => HasAlloc p x) := by
  intro h a h1 hP hrun
  obtain ⟨b, f, n, na, hc⟩ := hP
  simp only [setListAlloc, hc] at hrun
  cases hrun
  exact ⟨b, f, n, na, by simp [-List.getElem?_eq_getElem, List.getElem?_set, lt_of_cell hc]⟩

theorem get_allocator_iff (p : Addr) (la : A) (h : Heap T A) :
    get_allocator p h = Res.ok la h ↔ HasAlloc p la h := by
  constructor
  · intro hrun
    unfold get_allocator getListAlloc at hrun
    split at hrun
    · cases hrun
      exact ⟨_, _, _, _, by assumption⟩
    · cases hrun
  · rintro ⟨b, f, n, na, hc⟩
    simp [get_allocator, getListAlloc, hc]

/-- What `operator=` leaves in `list_alloc_` of the target. -/
theorem assign_triple (τ : AllocTraits A) (fuel : Nat) (this src : Addr) (la sa : A) :
    Triple (fun h => HasAlloc this la h ∧ HasAlloc src sa h)
      (assign τ fuel this src : M T A Unit)
      (fun _ => HasAlloc this (if τ.ne la sa && τ.pocca then sa else la)) := by
  have both : ∀ {α : Type} {m : M T A α}, (∀ p a, Keeps p a m) →
      Triple (fun h => HasAlloc this la h ∧ HasAlloc src sa h) m
        (fun _ h => HasAlloc this la h ∧ HasAlloc src sa h) :=
    fun hk => Triple_both (hk this la) (hk src sa)
  refine Triple_bind (Q := fun tmp h => (HasAlloc this la h ∧ HasAlloc src sa h) ∧ tmp ≠ this)
    ?_ fun tmp => Triple_of_pure fun hne => ?_
  · intro h c h1 hP hrun
    exact ⟨⟨(List_copy_keeps τ fuel src this la h c h1 hP.1 hrun).1,
      (List_copy_keeps τ fuel src src sa h c h1 hP.2 hrun).1⟩,
      (List_copy_keeps τ fuel src this la h c h1 hP.1 hrun).2⟩
  · refine Triple_bind (both fun p a => keeps_swap p a _ _) fun _ => ?_
    refine Triple_bind (both fun p a => keeps_getPrevious p a _) fun _ => ?_
    refine Triple_bind (both fun p a => keeps_setFollowing p a _ _) fun _ => ?_
    refine Triple_bind (both fun p a => keeps_getFollowing p a _) fun _ => ?_
    refine Triple_bind (both fun p a => keeps_setPrevious p a _ _) fun _ => ?_
    refine Triple_bind
      (Q := fun a h => (HasAlloc this la h ∧ HasAlloc src sa h) ∧ a = la) ?_ fun la1 =>
        Triple_of_pure fun hla => ?_
    · intro h a h1 hP hrun
      exact ⟨⟨(getListAlloc_value this la h a h1 hP.1 hrun).1,
        keeps_getListAlloc src sa this h a h1 hP.2 hrun⟩,
        (getListAlloc_value this la h a h1 hP.1 hrun).2⟩
    · refine Triple_bind
        (Q := fun a h => HasAlloc this la h ∧ a = sa) ?_ fun sa1 =>
          Triple_of_pure fun hsa => ?_
      · intro h a h1 hP hrun
        exact ⟨keeps_getListAlloc this la src h a h1 hP.1 hrun,
          (getListAlloc_value src sa h a h1 hP.2 hrun).2⟩
      · subst hla hsa
        refine Triple_bind
          (Q := fun _ => HasAlloc this (if τ.ne la1 sa1 && τ.pocca then sa1 else la1)) ?_
          fun _ => ?_
        · split
          · exact setListAlloc_value this la1 sa1
          · exact Keeps_pure _
        · refine Keeps_bind (keeps_empty _ _ _) fun _ => ?_
          refine Keeps_bind (Keeps_ite
            (Keeps_bind (keeps_getPrevious _ _ _) fun _ =>
             Keeps_bind (keeps_setFollowing _ _ _ _) fun _ =>
             Keeps_bind (keeps_getFollowing _ _ _) fun _ => keeps_setPrevious _ _ _ _)
            (Keeps_pure _)) fun _ => ?_
          refine Keeps_bind (keeps_empty _ _ _) fun _ => ?_
          refine Keeps_bind (Keeps_ite
            (Keeps_bind (keeps_setPrevious _ _ _ _) fun _ => keeps_setFollowing _ _ _ _)
            (Keeps_pure _)) fun _ => ?_
          exact keeps_List_dtor _ _ _ hne

/-- Claim C10. Allocator propagation on copy assignment. Whenever `a = b` runs to
completion, `a.get_allocator()` afterwards is the allocator of `b` exactly when
the two allocators compared unequal and the allocator type propagates on copy
assignment, and is otherwise the allocator `a` had before. Hence (for an
`operator!=` that never calls an allocator different from itself) with the flag
set the allocator of `a` compares equal to that of `b`, and with the flag not
set it is unchanged, whether or not the two allocators are equal. And `a = b`
does run to completion when `a` is a well formed list, `b` is a non-empty well
formed list that shares no node with `a`, and nothing fails. -/
theorem assign_allocator (τ : AllocTraits A) (fuel : Nat) (this src : Addr) (la sa : A)
    (h : Heap T A) (hrefl : ∀ x, τ.ne x x = false)
    (hla : get_allocator this h = Res.ok la h) (hsa : get_allocator src h = Res.ok sa h) :
    (∀ h1, assign τ fuel this src h = Res.ok () h1 →
      ∃ a1, get_allocator this h1 = Res.ok a1 h1 ∧
        a1 = (if τ.ne la sa && τ.pocca then sa else la) ∧
        (τ.pocca = true → τ.ne a1 sa = false) ∧
        (τ.pocca = false → a1 = la)) ∧
    (∀ (xs : List (Addr × T)) (n : Addr × T) (rest : List (Addr × T)) (na nb : A),
      Ring h this xs la na → Ring h src (n :: rest) sa nb →
      (∀ p ∈ this :: xs.map Prod.fst, p ∉ src :: (n :: rest).map Prod.fst) →
      NoFail h → rest.length ≤ fuel →
      ∃ h1, assign τ fuel this src h = Res.ok () h1) := by
  constructor
  · intro h1 hrun
    have hpost := assign_triple τ fuel this src la sa h () h1
      ⟨(get_allocator_iff _ _ _).mp hla, (get_allocator_iff _ _ _).mp hsa⟩ hrun
    refine ⟨_, (get_allocator_iff _ _ _).mpr hpost, rfl, ?_, ?_⟩
    · intro hp
      cases hne : τ.ne la sa with
      | true => simp [hp, hrefl]
      | false => simp [hne]
    · intro hp
      simp [hp]
  · intro xs n rest na nb hra hrb hdis hnf hfuel
    obtain ⟨h1, _, hrun, _⟩ := assign_ring τ hra hrb hdis hnf fuel hfuel
    exact ⟨h1, hrun⟩

theorem heapC_assign : assign natTraitsProp 2 3 0 heapC = Res.ok () heapD := by
  simp [assign, List_copy, List_members, ctorBody, tryCatch, M.bind, allocate, construct, begin_,
    end_, Iterator.deref, Iterator.inc, get_value, getFollowing, setFollowing, setPrevious,
    incSize, getSize, setSize, heapC, heapD,
    natTraitsProp, List.getElem?_cons_zero, List.getElem?_cons_succ]
  unfold copy_loop
  simp [copy_step, tryCatch, M.bind, allocate, construct,
    Iterator.deref, Iterator.inc, get_value, getFollowing, setFollowing, setPrevious, incSize,
    getSize, setSize, List.getElem?_cons_zero, List.getElem?_cons_succ]
  unfold copy_loop
  simp [M.bind, getListAlloc, setListAlloc, getNodeAlloc, setNodeAlloc, setFollowing,
    setPrevious, getFollowing, getPrevious, swap, getSize, setSize, empty, List_dtor, remove,
    remove_loop, remove_one, destroy, deallocate, endObject,
    List.getElem?_cons_zero, List.getElem?_cons_succ]

theorem assign_allocator_witness :
    (∀ x, natTraitsProp.ne x x = false) ∧
    get_allocator 3 heapC = Res.ok 8 heapC ∧ get_allocator 0 heapC = Res.ok 7 heapC ∧
    assign natTraitsProp 2 3 0 heapC = Res.ok () heapD ∧
    ∃ a1, get_allocator 3 heapD = Res.ok a1 heapD ∧ a1 = 7 := by
  have hrefl : ∀ x, natTraitsProp.ne x x = false := by intro x; simp [natTraitsProp]
  obtain ⟨a1, hget, hval, _, _⟩ :=
    (assign_allocator natTraitsProp 2 3 0 8 7 heapC hrefl rfl rfl).1 heapD heapC_assign
  exact ⟨hrefl, rfl, rfl, heapC_assign, a1, hget, by rw [hval]; decide⟩

end AllocatorProofs

/-! ## Links and iterators on a well formed list -/

section Iterators
variable {T A : Type}

theorem getFollowing_of {h : Heap T A} {p f : Addr} (hf : followingOf h.mem p = some f) :
    getFollowing p h = Res.ok f h := by
  unfold followingOf at hf
  unfold getFollowing
  split at hf <;> simp_all

theorem getPrevious_of {h : Heap T A} {p b : Addr} (hb : previousOf h.mem p = some b) :
    getPrevious p h = Res.ok b h := by
  unfold previousOf at hb
  unfold getPrevious
  split at hb <;> simp_all

/-- The cell of a value node of a well formed list, given the nodes before and
after it. -/
theorem Ring_cell {h : Heap T A} {this : Addr} {l r : List (Addr × T)} {n : Addr × T}
    {la na : A} (hr : Ring h this (l ++ n :: r) la na) :
    h.mem[n.1]? = some (Cell.node (lastAddr l this) (headAddr r this) n.2) := by
  obtain ⟨_, _, hseg⟩ := hr
  rw [Seg_append] at hseg
  exact hseg.2.1

theorem Ring_following {h : Heap T A} {this : Addr} {l r : List (Addr × T)} {n : Addr × T}
    {la na : A} (hr : Ring h this (l ++ n :: r) la na) :
    followingOf h.mem n.1 = some (headAddr r this) ∧
      previousOf h.mem (headAddr r this) = some n.1 := by
  have hc := Ring_cell hr
  refine ⟨by simp [followingOf, hc], ?_⟩
  cases r with
  | nil =>
    have ht := hr.2.1
    simp [previousOf, ht, lastAddr_append]
  | cons y r1 =>
    have hr1 : Ring h this ((l ++ [n]) ++ y :: r1) la na := by simpa using hr
    have hy := Ring_cell hr1
    simp [previousOf, hy, lastAddr_append]

theorem Ring_previous {h : Heap T A} {this : Addr} {l r : List (Addr × T)} {n : Addr × T}
    {la na : A} (hr : Ring h this (l ++ n :: r) la na) :
    previousOf h.mem n.1 = some (lastAddr l this) ∧
      followingOf h.mem (lastAddr l this) = some n.1 := by
  have hc := Ring_cell hr
  refine ⟨by simp [previousOf, hc], ?_⟩
  rcases snoc_cases l with rfl | ⟨l1, z, rfl⟩
  · have ht := hr.2.1
    simp [followingOf, ht]
  · have hr1 : Ring h this (l1 ++ z :: (n :: r)) la na := by simpa using hr
    have hz := Ring_cell hr1
    simp [followingOf, hz, lastAddr_append]

theorem Ring_sentinel {h : Heap T A} {this : Addr} {ns : List (Addr × T)} {la na : A}
    (hr : Ring h this ns la na) :
    followingOf h.mem this = some (headAddr ns this) ∧
      previousOf h.mem (headAddr ns this) = some this ∧
      previousOf h.mem this = some (lastAddr ns this) ∧
      followingOf h.mem (lastAddr ns this) = some this := by
  have ht := hr.2.1
  refine ⟨by simp [followingOf, ht], ?_, by simp [previousOf, ht], ?_⟩
  · cases ns with
    | nil =>
      simp only [lastAddr_nil, headAddr_nil, List.length_nil] at ht ⊢
      simp [previousOf, ht]
    | cons y r =>
      have hy := hr.2.2.1
      simp [previousOf, hy]
  · rcases snoc_cases ns with rfl | ⟨l, z, rfl⟩
    · simp only [lastAddr_nil, headAddr_nil, List.length_nil] at ht ⊢
      simp [followingOf, ht]
    · have hz := Ring_cell hr
      simp [followingOf, hz, lastAddr_append]

/-- In a well formed list every node, the sentinel included, is linked back by
both of its neighbours, and the neighbours belong to the list. -/
theorem Ring_linked {h : Heap T A} {this : Addr} {ns : List (Addr × T)} {la na : A}
    (hr : Ring h this ns la na) :
    ∀ x ∈ this :: ns.map Prod.fst, ∃ f b,
      followingOf h.mem x = some f ∧ previousOf h.mem f = some x ∧
      previousOf h.mem x = some b ∧ followingOf h.mem b = some x := by
  intro x hx
  rcases List.mem_cons.mp hx with rfl | hx
  · obtain ⟨h1, h2, h3, h4⟩ := Ring_sentinel hr
    exact ⟨_, _, h1, h2, h3, h4⟩
  · obtain ⟨n, hn, rfl⟩ := List.mem_map.mp hx
    obtain ⟨l, r, rfl⟩ := List.append_of_mem hn
    obtain ⟨h1, h2⟩ := Ring_following hr
    obtain ⟨h3, h4⟩ := Ring_previous hr
    exact ⟨_, _, h1, h2, h3, h4⟩

theorem walk_seg_rev (this : Addr) (h : Heap T A) :
    ∀ (ns : List (Addr × T)) (nxt : Addr) (fuel : Nat),
      this ∉ ns.map Prod.fst → Seg h.mem this ns nxt → ns.length ≤ fuel →
      walk true (Iterator.mk this) fuel (Iterator.mk (lastAddr ns this)) h
        = Res.ok (ns.map Prod.snd).reverse h := by
  intro ns
  induction ns using List.reverseRecOn with
  | nil =>
    intro nxt fuel _ _ _
    unfold walk
    simp
  | append_singleton ns0 n ih =>
    intro nxt fuel hnot hseg hfuel
    rw [Seg_append] at hseg
    obtain ⟨hseg0, hc, _⟩ := hseg
    simp only [List.map_append, List.map_cons, List.map_nil, List.mem_append,
      List.mem_singleton, not_or] at hnot
    simp only [headAddr_cons] at hseg0
    cases fuel with
    | zero => simp at hfuel
    | succ fuel =>
      unfold walk
      have hne : n.1 ≠ this := fun e => hnot.2 e.symm
      have ih1 := ih n.1 fuel hnot.1 hseg0 (by simpa using hfuel)
      simp [hne, M.bind, Iterator.deref, get_value, hc, Iterator.inc, getPrevious, ih1,
        lastAddr_append]

theorem backward_ring {h : Heap T A} {this : Addr} {ns : List (Addr × T)} {la na : A}
    (hr : Ring h this ns la na) (fuel : Nat) (hfuel : ns.length ≤ fuel) :
    backward fuel this h = Res.ok (ns.map Prod.snd).reverse h := by
  obtain ⟨hnd, hc, hseg⟩ := hr
  have hnot : this ∉ ns.map Prod.fst := (List.nodup_cons.mp hnd).1
  simp [backward, M.bind, rbegin, rend, getPrevious, hc,
    walk_seg_rev this h ns this fuel hnot hseg hfuel]


/-- Claim C11. On every well formed list the traversal with a reverse iterator
from `rbegin()` to `rend()` returns and yields the reverse of what the
traversal with a forward iterator from `begin()` to `end()` yields, and both
have `size()` elements. -/
theorem reverse_traversal_mirrors_forward {h : Heap T A} {this : Addr}
    {ns : List (Addr × T)} {la na : A} (hr : Ring h this ns la na) (fuel : Nat)
    (hfuel : ns.length ≤ fuel) :
    ∃ xs, forward fuel this h = Res.ok xs h ∧ backward fuel this h = Res.ok xs.reverse h ∧
      size this h = Res.ok xs.length h ∧ xs.reverse.length = xs.length ∧
      xs = ns.map Prod.snd :=
  ⟨ns.map Prod.snd, forward_ring hr fuel hfuel, backward_ring hr fuel hfuel,
    by simpa using size_ring hr, by simp, rfl⟩

theorem reverse_traversal_mirrors_forward_witness :
    Ring heapE 0 [(1, 1), (2, 2), (3, 3)] 7 0 ∧
    forward 3 0 heapE = Res.ok [1, 2, 3] heapE ∧
    backward 3 0 heapE = Res.ok [3, 2, 1] heapE ∧ size 0 heapE = Res.ok 3 heapE := by
  have hring : Ring heapE 0 [(1, 1), (2, 2), (3, 3)] 7 0 := by decide
  obtain ⟨xs, hf, hb, hs, _, hx⟩ := reverse_traversal_mirrors_forward hring 3 (by decide)
  subst hx
  exact ⟨hring, hf, hb, hs⟩

/-- Claim C12. The list made by `List()` is an empty ring: both links of the
sentinel refer to the sentinel itself, `size()` is `0`, `empty()` is `true`,
`begin() == end()` and `rbegin() == rend()`. And for every list object
`empty()` is `size() == 0`. -/
theorem default_list_is_empty_ring (τ : AllocTraits A) (h : Heap T A) :
    (∃ h1, List_default τ h = Res.ok h.mem.length h1 ∧
      getFollowing h.mem.length h1 = Res.ok h.mem.length h1 ∧
      getPrevious h.mem.length h1 = Res.ok h.mem.length h1 ∧
      size h.mem.length h1 = Res.ok 0 h1 ∧ empty h.mem.length h1 = Res.ok true h1 ∧
      (∃ b e, begin_ h.mem.length h1 = Res.ok b h1 ∧ end_ h.mem.length h1 = Res.ok e h1 ∧
        b.operator_eq e = true ∧ b.operator_ne e = false) ∧
      (∃ rb re, rbegin h.mem.length h1 = Res.ok rb h1 ∧ rend h.mem.length h1 = Res.ok re h1 ∧
        rb.operator_eq re = true ∧ rb.operator_ne re = false) ∧
      Ring h1 h.mem.length [] τ.dflt τ.dflt) ∧
    (∀ (this : Addr) (g : Heap T A) (n : Nat), size this g = Res.ok n g →
      empty this g = Res.ok (n == 0) g) ∧
    (∀ (this : Addr) (g : Heap T A), empty this g = Res.ok true g ↔ size this g = Res.ok 0 g) := by
  refine ⟨?_, ?_, ?_⟩
  · refine ⟨Heap.mk (h.mem ++ [Cell.list h.mem.length h.mem.length 0 τ.dflt τ.dflt])
      h.allocBudget h.ctorBudget h.trace, rfl, ?_, ?_, ?_, ?_,
      ⟨Iterator.mk h.mem.length, Iterator.mk h.mem.length, ?_, ?_, ?_, ?_⟩,
      ⟨Iterator.mk h.mem.length, Iterator.mk h.mem.length, ?_, ?_, ?_, ?_⟩, ?_⟩
    · simp [getFollowing]
    · simp [getPrevious]
    · simp [size, getSize]
    · simp [empty, getSize, M.bind]
    · simp [begin_, getFollowing, M.bind]
    · rfl
    · simp [Iterator.operator_eq]
    · simp [Iterator.operator_ne]
    · simp [rbegin, getPrevious, M.bind]
    · rfl
    · simp [Iterator.operator_eq]
    · simp [Iterator.operator_ne]
    · exact ⟨by simp, by simp, trivial⟩
  · intro this g n hs
    unfold size at hs
    simp [empty, M.bind, hs]
  · intro this g
    unfold size empty
    cases hg : getSize this g with
    | ok n g1 =>
      have hgg : g1 = g := by
        unfold getSize at hg
        split at hg <;> cases hg
        rfl
      subst hgg
      simp [bind, M.bind, hg]
    | threw e g1 => simp [bind, M.bind, hg]
    | ub g1 => simp [bind, M.bind, hg]
    | timeout => simp [bind, M.bind, hg]

/-- Claim C20. The ring is closed through the sentinel: on every well formed
list `++end() == begin()`, `--begin() == end()`, `++rend() == rbegin()` and
`--rbegin() == rend()`; on an empty list `begin()`, `end()`, `++end()` and
`--end()` are all the position of the sentinel. -/
theorem sentinel_closes_ring {h : Heap T A} {this : Addr} {ns : List (Addr × T)}
    {la na : A} (hr : Ring h this ns la na) :
    ∃ b e rb re : Iterator, begin_ this h = Res.ok b h ∧ end_ this h = Res.ok e h ∧
      rbegin this h = Res.ok rb h ∧ rend this h = Res.ok re h ∧
      (∃ x, Iterator.inc false e h = Res.ok x h ∧ x.operator_eq b = true) ∧
      (∃ x, Iterator.dec false b h = Res.ok x h ∧ x.operator_eq e = true) ∧
      (∃ x, Iterator.inc true re h = Res.ok x h ∧ x.operator_eq rb = true) ∧
      (∃ x, Iterator.dec true rb h = Res.ok x h ∧ x.operator_eq re = true) ∧
      (ns = [] → b = Iterator.mk this ∧ e = Iterator.mk this ∧
        Iterator.inc false e h = Res.ok (Iterator.mk this) h ∧
        Iterator.dec false e h = Res.ok (Iterator.mk this) h) := by
  obtain ⟨h1, h2, h3, h4⟩ := Ring_sentinel hr
  have g1 := getFollowing_of h1
  have g2 := getPrevious_of h2
  have g3 := getPrevious_of h3
  have g4 := getFollowing_of h4
  refine ⟨Iterator.mk (headAddr ns this), Iterator.mk this, Iterator.mk (lastAddr ns this),
    Iterator.mk this, ?_, rfl, ?_, rfl, ⟨Iterator.mk (headAddr ns this), ?_, ?_⟩,
    ⟨Iterator.mk this, ?_, ?_⟩, ⟨Iterator.mk (lastAddr ns this), ?_, ?_⟩,
    ⟨Iterator.mk this, ?_, ?_⟩, ?_⟩
  · simp [begin_, M.bind, g1]
  · simp [rbegin, M.bind, g3]
  · simp [Iterator.inc, M.bind, g1]
  · simp [Iterator.operator_eq]
  · simp [Iterator.dec, M.bind, g2]
  · simp [Iterator.operator_eq]
  · simp [Iterator.inc, M.bind, g3]
  · simp [Iterator.operator_eq]
  · simp [Iterator.dec, M.bind, g4]
  · simp [Iterator.operator_eq]
  · intro hns
    subst hns
    simp only [headAddr_nil, lastAddr_nil] at g1 g3
    refine ⟨rfl, rfl, ?_, ?_⟩
    · simp [Iterator.inc, M.bind, g1]
    · simp [Iterator.dec, M.bind, g3]

theorem sentinel_closes_ring_witness :
    Ring heapE 0 [(1, 1), (2, 2), (3, 3)] 7 0 ∧
    ∃ b e : Iterator, begin_ 0 heapE = Res.ok b heapE ∧ end_ 0 heapE = Res.ok e heapE ∧
      (∃ x, Iterator.inc false e heapE = Res.ok x heapE ∧ x.operator_eq b = true) ∧
      (∃ x, Iterator.dec false b heapE = Res.ok x heapE ∧ x.operator_eq e = true) := by
  have hring : Ring heapE 0 [(1, 1), (2, 2), (3, 3)] 7 0 := by decide
  obtain ⟨b, e, _, _, hb, he, _, _, h1, h2, _⟩ := sentinel_closes_ring hring
  exact ⟨hring, b, e, hb, he, h1, h2⟩

/-- Claim C18. A forward iterator steps to `following` with `++` and to
`previous` with `--`, a reversed iterator the other way round. Hence on every
node of a well formed list, the sentinel included, and for either direction,
`--(++it) == it` and `++(--it) == it`, and `++` of a reversed iterator lands
where `--` of a forward iterator lands. -/
theorem iterator_steps_invert {h : Heap T A} {this : Addr} {ns : List (Addr × T)}
    {la na : A} (hr : Ring h this ns la na) (p : Addr) (hp : p ∈ this :: ns.map Prod.fst) :
    (∀ (g : Heap T A) (it : Iterator),
      Iterator.inc false it g =
        (do let f ← getFollowing it.actual_; pure (Iterator.mk f) : M T A Iterator) g ∧
      Iterator.dec false it g =
        (do let b ← getPrevious it.actual_; pure (Iterator.mk b) : M T A Iterator) g ∧
      Iterator.inc true it g =
        (do let b ← getPrevious it.actual_; pure (Iterator.mk b) : M T A Iterator) g ∧
      Iterator.dec true it g =
        (do let f ← getFollowing it.actual_; pure (Iterator.mk f) : M T A Iterator) g) ∧
    (∀ rev : Bool,
      (∃ x, (do let a ← Iterator.inc rev (Iterator.mk p)
                Iterator.dec rev a : M T A Iterator) h = Res.ok x h ∧
        x.operator_eq (Iterator.mk p) = true) ∧
      (∃ x, (do let a ← Iterator.dec rev (Iterator.mk p)
                Iterator.inc rev a : M T A Iterator) h = Res.ok x h ∧
        x.operator_eq (Iterator.mk p) = true)) ∧
    (∃ x, Iterator.inc true (Iterator.mk p) h = Res.ok x h ∧
      Iterator.dec false (Iterator.mk p) h = Res.ok x h) := by
  obtain ⟨f, b, h1, h2, h3, h4⟩ := Ring_linked hr p hp
  have g1 := getFollowing_of h1
  have g2 := getPrevious_of h2
  have g3 := getPrevious_of h3
  have g4 := getFollowing_of h4
  refine ⟨?_, ?_, ⟨Iterator.mk b, ?_, ?_⟩⟩
  · intro g it
    refine ⟨?_, ?_, ?_, ?_⟩
    · cases hg : getFollowing it.actual_ g <;>
        simp [Iterator.inc, bind, M.bind, pure, M.pure, hg]
    · cases hg : getPrevious it.actual_ g <;>
        simp [Iterator.dec, bind, M.bind, pure, M.pure, hg]
    · cases hg : getPrevious it.actual_ g <;>
        simp [Iterator.inc, bind, M.bind, pure, M.pure, hg]
    · cases hg : getFollowing it.actual_ g <;>
        simp [Iterator.dec, bind, M.bind, pure, M.pure, hg]
  · intro rev
    cases rev with
    | false =>
      exact ⟨⟨Iterator.mk p, by simp [Iterator.inc, Iterator.dec, M.bind, g1, g2],
          by simp [Iterator.operator_eq]⟩,
        ⟨Iterator.mk p, by simp [Iterator.inc, Iterator.dec, M.bind, g3, g4],
          by simp [Iterator.operator_eq]⟩⟩
    | true =>
      exact ⟨⟨Iterator.mk p, by simp [Iterator.inc, Iterator.dec, M.bind, g3, g4],
          by simp [Iterator.operator_eq]⟩,
        ⟨Iterator.mk p, by simp [Iterator.inc, Iterator.dec, M.bind, g1, g2],
          by simp [Iterator.operator_eq]⟩⟩
  · simp [Iterator.inc, M.bind, g3]
  · simp [Iterator.dec, M.bind, g3]

theorem iterator_steps_invert_witness :
    Ring heapE 0 [(1, 1), (2, 2), (3, 3)] 7 0 ∧
    (∃ x, (do let a ← Iterator.inc false (Iterator.mk 3)
              Iterator.dec false a : M Nat Nat Iterator) heapE = Res.ok x heapE ∧
      x.operator_eq (Iterator.mk 3) = true) ∧
    (∃ x, (do let a ← Iterator.dec true (Iterator.mk 3)
              Iterator.inc true a : M Nat Nat Iterator) heapE = Res.ok x heapE ∧
      x.operator_eq (Iterator.mk 3) = true) := by
  have hring : Ring heapE 0 [(1, 1), (2, 2), (3, 3)] 7 0 := by decide
  have hall := (iterator_steps_invert hring 3 (by decide)).2.1
  exact ⟨hring, (hall false).1, (hall true).2⟩

end Iterators

/-! ## Destruction, and a push undone by a pop -/

section Destruction
variable {T A : Type}

theorem freeTrace_count (ns : List (Addr × T)) (p : Addr) :
    (freeTrace ns).count (Event.destroy p) = (ns.map Prod.fst).count p ∧
      (freeTrace ns).count (Event.deallocate p) = (ns.map Prod.fst).count p := by
  induction ns with
  | nil => exact ⟨rfl, rfl⟩
  | cons n ns ih =>
    simp only [freeTrace, List.flatMap_cons] at ih ⊢
    constructor
    · simp [List.count_cons, ih.1]
    · simp [List.count_cons, ih.2]

/-- Claim C14. On a well formed list with the nodes `ns`, `remove(k)` for
`k ≤ size()` returns after destroying and deallocating the first `k` value
nodes, in the order of the ring starting just after the sentinel, and nothing
else. The destructor (`remove(size_)`) therefore destroys and deallocates every
value node exactly once and never the sentinel. -/
theorem destruction_releases_each_node_once {h : Heap T A} {this : Addr}
    {ns : List (Addr × T)} {la na : A} (hr : Ring h this ns la na) (k : Nat)
    (hk : k ≤ ns.length) :
    (∃ h1, remove this k h = Res.ok () h1 ∧
      h1.trace = h.trace ++ freeTrace (ns.take k) ∧
      (∀ p ∈ (ns.take k).map Prod.fst, h1.mem[p]? = some Cell.freed) ∧
      (∀ q, q ∉ (ns.take k).map Prod.fst → h1.mem[q]? = h.mem[q]?)) ∧
    (∃ h2, List_dtor this h = Res.ok () h2 ∧
      h2.trace = h.trace ++ freeTrace ns ∧
      (∀ p ∈ ns.map Prod.fst, h2.mem[p]? = some Cell.freed) ∧
      (∀ q, q ∉ this :: ns.map Prod.fst → h2.mem[q]? = h.mem[q]?)) ∧
    freeTrace ns = ns.flatMap (fun r => [Event.destroy r.1, Event.deallocate r.1]) ∧
    (∀ p ∈ ns.map Prod.fst, (freeTrace ns).count (Event.destroy p) = 1 ∧
      (freeTrace ns).count (Event.deallocate p) = 1) ∧
    (freeTrace ns).count (Event.destroy this) = 0 ∧
    (freeTrace ns).count (Event.deallocate this) = 0 := by
  have hnd := hr.1
  have htn : this ∉ ns.map Prod.fst := (List.nodup_cons.mp hnd).1
  have hnd1 : (ns.map Prod.fst).Nodup := (List.nodup_cons.mp hnd).2
  refine ⟨?_, ?_, rfl, ?_, ?_, ?_⟩
  · have hsplit : Ring h this (ns.take k ++ ns.drop k) la na := by
      rw [List.take_append_drop]; exact hr
    obtain ⟨h1, hrun, hfreed, hsame, _, _, _, htr⟩ := remove_ring hsplit
    have hlen : (ns.take k).length = k := by simp [hk]
    rw [hlen] at hrun
    exact ⟨h1, hrun, htr, hfreed, hsame⟩
  · obtain ⟨h2, hrun, hfreed, hsame, _, _, _, htr⟩ := List_dtor_ring hr
    exact ⟨h2, hrun, htr, fun p hp => hfreed p (List.mem_cons_of_mem _ hp), hsame⟩
  · intro p hp
    obtain ⟨h1, h2⟩ := freeTrace_count ns p
    rw [h1, h2, List.count_eq_one_of_mem hnd1 hp]
    exact ⟨rfl, rfl⟩
  · rw [(freeTrace_count ns this).1, List.count_eq_zero_of_not_mem htn]
  · rw [(freeTrace_count ns this).2, List.count_eq_zero_of_not_mem htn]

theorem destruction_releases_each_node_once_witness :
    Ring heapE 0 [(1, 1), (2, 2), (3, 3)] 7 0 ∧
    (∃ h1, remove 0 2 heapE = Res.ok () h1 ∧
      h1.trace = [Event.destroy 1, Event.deallocate 1, Event.destroy 2, Event.deallocate 2] ∧
      h1.mem[3]? = heapE.mem[3]?) ∧
    (∃ h2, List_dtor 0 heapE = Res.ok () h2 ∧
      h2.trace = [Event.destroy 1, Event.deallocate 1, Event.destroy 2, Event.deallocate 2,
        Event.destroy 3, Event.deallocate 3]) := by
  have hring : Ring heapE 0 [(1, 1), (2, 2), (3, 3)] 7 0 := by decide
  obtain ⟨⟨h1, hrun1, htr1, _, hsame⟩, ⟨h2, hrun2, htr2, _⟩, _⟩ :=
    destruction_releases_each_node_once hring 2 (by decide)
  exact ⟨hring, ⟨h1, hrun1, by rw [htr1]; rfl, hsame 3 (by decide)⟩,
    ⟨h2, hrun2, by rw [htr2]; rfl⟩⟩

theorem Seg_cells_eq {m m1 : List (Cell T A)} :
    ∀ {ns : List (Addr × T)} {prev nxt : Addr}, Seg m prev ns nxt → Seg m1 prev ns nxt →
      ∀ p ∈ ns.map Prod.fst, m1[p]? = m[p]? := by
  intro ns
  induction ns with
  | nil => intro _ _ _ _ p hp; simp at hp
  | cons a as ih =>
    intro prev nxt hs hs1 p hp
    simp only [List.map_cons, List.mem_cons] at hp
    rcases hp with rfl | hp
    · rw [hs.1, hs1.1]
    · exact ih hs.2 hs1.2 p hp

/-- Two stores in which the same nodes form a well formed list around the same
sentinel agree on the sentinel and on every node. -/
theorem Ring_cells_eq {h h1 : Heap T A} {this : Addr} {ns : List (Addr × T)} {la na : A}
    (hr : Ring h this ns la na) (hr1 : Ring h1 this ns la na) :
    ∀ p ∈ this :: ns.map Prod.fst, h1.mem[p]? = h.mem[p]? := by
  intro p hp
  rcases List.mem_cons.mp hp with rfl | hp
  · rw [hr.2.1, hr1.2.1]
  · exact Seg_cells_eq hr.2.2 hr1.2.2 p hp

/-- Claim C19. On a well formed list, when nothing fails, `push_back(x)`
followed by `pop_back()` returns and leaves the sentinel and every node exactly
as they were, hence the same `size()` and the same forward traversal; the node
the push allocated and constructed is the one the pop destroys and deallocates.
The same holds for `push_front(x)` followed by `pop_front()`. -/
theorem push_pop_round_trip {h : Heap T A} {this : Addr} {ns : List (Addr × T)}
    {la na : A} (hr : Ring h this ns la na) (hnf : NoFail h) (x : T) :
    (∃ h2, (do push_back this x; pop_back this : M T A Unit) h = Res.ok () h2 ∧
      Ring h2 this ns la na ∧
      (∀ p ∈ this :: ns.map Prod.fst, h2.mem[p]? = h.mem[p]?) ∧
      size this h = Res.ok ns.length h ∧ size this h2 = Res.ok ns.length h2 ∧
      (∀ fuel, ns.length ≤ fuel → forward fuel this h = Res.ok (ns.map Prod.snd) h ∧
        forward fuel this h2 = Res.ok (ns.map Prod.snd) h2) ∧
      h2.mem[h.mem.length]? = some Cell.freed ∧
      h2.trace = h.trace ++ [Event.allocate h.mem.length, Event.construct h.mem.length,
        Event.destroy h.mem.length, Event.deallocate h.mem.length]) ∧
    (∃ h2, (do push_front this x; pop_front this : M T A Unit) h = Res.ok () h2 ∧
      Ring h2 this ns la na ∧
      (∀ p ∈ this :: ns.map Prod.fst, h2.mem[p]? = h.mem[p]?) ∧
      size this h = Res.ok ns.length h ∧ size this h2 = Res.ok ns.length h2 ∧
      (∀ fuel, ns.length ≤ fuel → forward fuel this h = Res.ok (ns.map Prod.snd) h ∧
        forward fuel this h2 = Res.ok (ns.map Prod.snd) h2) ∧
      h2.mem[h.mem.length]? = some Cell.freed ∧
      h2.trace = h.trace ++ [Event.allocate h.mem.length, Event.construct h.mem.length,
        Event.destroy h.mem.length, Event.deallocate h.mem.length]) := by
  constructor
  · obtain ⟨h1, hrun1, hr1, _, _, _, htr1⟩ := push_back_ring hr hnf x
    obtain ⟨h2, hrun2, hr2, _, _, _, _, hfreed, htr2⟩ := pop_back_ring hr1
    refine ⟨h2, ?_, hr2, Ring_cells_eq hr hr2, size_ring hr, size_ring hr2,
      fun fuel hf => ⟨forward_ring hr fuel hf, forward_ring hr2 fuel hf⟩, hfreed, ?_⟩
    · simp only [bind, M.bind, hrun1, hrun2]
    · rw [htr2, htr1]; simp
  · obtain ⟨h1, hrun1, hr1, _, _, _, htr1⟩ := push_front_ring hr hnf x
    obtain ⟨h2, hrun2, hr2, _, _, _, _, hfreed, htr2⟩ := pop_front_ring hr1
    refine ⟨h2, ?_, hr2, Ring_cells_eq hr hr2, size_ring hr, size_ring hr2,
      fun fuel hf => ⟨forward_ring hr fuel hf, forward_ring hr2 fuel hf⟩, hfreed, ?_⟩
    · simp only [bind, M.bind, hrun1, hrun2]
    · rw [htr2, htr1]; simp

theorem push_pop_round_trip_witness :
    Ring heapE 0 [(1, 1), (2, 2), (3, 3)] 7 0 ∧ NoFail heapE ∧
    (∃ h2, (do push_back 0 9; pop_back 0 : M Nat Nat Unit) heapE = Res.ok () h2 ∧
      h2.mem[0]? = heapE.mem[0]? ∧ h2.mem[3]? = heapE.mem[3]? ∧
      forward 3 0 h2 = Res.ok [1, 2, 3] h2 ∧
      h2.trace = [Event.allocate 4, Event.construct 4, Event.destroy 4, Event.deallocate 4]) := by
  have hring : Ring heapE 0 [(1, 1), (2, 2), (3, 3)] 7 0 := by decide
  obtain ⟨⟨h2, hrun, _, hcells, _, _, hfw, _, htr⟩, _⟩ :=
    push_pop_round_trip hring ⟨rfl, rfl⟩ 9
  exact ⟨hring, ⟨rfl, rfl⟩, h2, hrun, hcells 0 (by decide), hcells 3 (by decide),
    (hfw 3 (by decide)).2, by rw [htr]; rfl⟩

end Destruction

/-! ## The ring invariant in the words of the specification -/

section SpecInvariant
variable {T A : Type}

theorem chase_of_seg (m : List (Cell T A)) (this : Addr) :
    ∀ (ns : List (Addr × T)) (prev : Addr) (fuel : Nat),
      this ∉ ns.map Prod.fst → Seg m prev ns this → ns.length ≤ fuel →
      chase m this fuel (headAddr ns this) = some (ns.map Prod.fst) := by
  intro ns
  induction ns with
  | nil =>
    intro prev fuel _ _ _
    unfold chase
    simp
  | cons n rest ih =>
    intro prev fuel hnot hseg hfuel
    obtain ⟨hc, hrest⟩ := hseg
    simp only [List.map_cons, List.mem_cons, not_or] at hnot
    cases fuel with
    | zero => simp at hfuel
    | succ fuel =>
      unfold chase
      have hne : n.1 ≠ this := fun e => hnot.1 e.symm
      have ih1 := ih n.1 fuel hnot.2 hrest (by simpa using hfuel)
      simp [hne, hc, ih1]

/-- A well formed list satisfies the ring invariant of the specification. -/
theorem RingInvariant_of_Ring {h : Heap T A} {this : Addr} {ns : List (Addr × T)} {la na : A}
    (hr : Ring h this ns la na) : RingInvariant h this := by
  have hnd := hr.1
  have htn : this ∉ ns.map Prod.fst := (List.nodup_cons.mp hnd).1
  refine ⟨lastAddr ns this, headAddr ns this, ns.length, la, na, ns.map Prod.fst, hr.2.1,
    chase_of_seg h.mem this ns this ns.length htn hr.2.2 (Nat.le_refl _), by simp,
    (List.nodup_cons.mp hnd).2, ?_⟩
  intro x hx
  obtain ⟨f, b, h1, h2, h3, h4⟩ := Ring_linked hr x hx
  exact ⟨by simp [h1, h2], by simp [h3, h4]⟩

theorem chase_seg (m : List (Cell T A)) (this : Addr) :
    ∀ (fuel : Nat) (p prev : Addr) (path : List Addr),
      chase m this fuel p = some path → followingOf m prev = some p →
      (∀ x ∈ prev :: path, (followingOf m x).bind (previousOf m) = some x) →
      ∃ ns : List (Addr × T), ns.map Prod.fst = path ∧ Seg m prev ns this ∧
        headAddr ns this = p ∧ followingOf m (lastAddr ns prev) = some this ∧
        this ∉ path := by
  intro fuel
  induction fuel with
  | zero =>
    intro p prev path hch hf hl
    unfold chase at hch
    by_cases hp : p = this
    · simp only [hp, if_true, Option.some.injEq] at hch
      subst hch
      exact ⟨[], rfl, trivial, by simp [hp], by simpa [hp] using hf, by simp⟩
    · simp [hp] at hch
  | succ fuel ih =>
    intro p prev path hch hf hl
    unfold chase at hch
    by_cases hp : p = this
    · simp only [hp, if_true, Option.some.injEq] at hch
      subst hch
      exact ⟨[], rfl, trivial, by simp [hp], by simpa [hp] using hf, by simp⟩
    · simp only [hp, if_false] at hch
      cases hcell : m[p]? with
      | none => simp [hcell] at hch
      | some c =>
        cases c with
        | freed => simp [hcell] at hch
        | raw => simp [hcell] at hch
        | list b f n la na => simp [hcell] at hch
        | node b f v =>
          simp only [hcell, Option.map_eq_some'] at hch
          obtain ⟨path1, hch1, rfl⟩ := hch
          have hb : b = prev := by
            have := hl prev (List.mem_cons_self _ _)
            simpa [hf, previousOf, hcell] using this
          subst hb
          have hfp : followingOf m p = some f := by simp [followingOf, hcell]
          obtain ⟨ns1, hmap, hseg, hhead, hlast, hnot⟩ :=
            ih f p path1 hch1 hfp (fun x hx => hl x (List.mem_cons_of_mem _ hx))
          refine ⟨(p, v) :: ns1, by simp [hmap], ⟨?_, hseg⟩, by simp, by simpa using hlast, ?_⟩
          · simp [hcell, hhead]
          · simp only [List.mem_cons, not_or]
            exact ⟨fun e => hp e.symm, hnot⟩

/-- A list that satisfies the ring invariant of the specification is well
formed. -/
theorem Ring_of_RingInvariant {h : Heap T A} {this : Addr} (hinv : RingInvariant h this) :
    ∃ (ns : List (Addr × T)) (la na : A), Ring h this ns la na := by
  obtain ⟨b, f, n, la, na, path, hc, hch, hlen, hnd, hl⟩ := hinv
  have hf : followingOf h.mem this = some f := by simp [followingOf, hc]
  obtain ⟨ns, hmap, hseg, hhead, hlast, hnot⟩ :=
    chase_seg h.mem this n f this path hch hf (fun x hx => (hl x hx).1)
  have hmem : lastAddr ns this ∈ this :: path := by
    rw [← hmap]; exact List.mem_cons.mpr (lastAddr_mem ns this)
  have hb : b = lastAddr ns this := by
    have := (hl _ hmem).1
    simpa [hlast, previousOf, hc] using this
  refine ⟨ns, la, na, ?_, ?_, hseg⟩
  · rw [hmap]
    exact List.nodup_cons.mpr ⟨hnot, hnd⟩
  · have hl2 : ns.length = n := by rw [← hlen, ← hmap]; simp
    rw [hc, hb, hhead, hl2]


/-- Claim C15. If a list satisfies the ring invariant (the `following` links
from the sentinel visit each of the `size_` value nodes exactly once and return
to the sentinel, and every node is linked back by both neighbours), then
`push_front`, `push_back` (when nothing fails) and `pop_front`, `pop_back` (on
a non-empty list) return and the list satisfies the ring invariant again, its
count being the number of value nodes reached from the sentinel. -/
theorem ring_invariant_preserved {h : Heap T A} {this : Addr}
    (hinv : RingInvariant h this) (hnf : NoFail h) (op : Op T)
    (hpop : op = Op.pop_back ∨ op = Op.pop_front → size this h ≠ Res.ok 0 h) :
    ∃ h1, op.run this h = Res.ok () h1 ∧ RingInvariant h1 this ∧
      ∃ n path, size this h1 = Res.ok n h1 ∧
        (do let b ← begin_ this; pure (chase h1.mem this n b.actual_) :
          M T A (Option (List Addr))) h1 = Res.ok (some path) h1 ∧
        path.length = n := by
  obtain ⟨ns, la, na, hr⟩ := Ring_of_RingInvariant hinv
  have hspec : ∃ ys, op.spec (ns.map Prod.snd) = some ys := by
    cases op with
    | push_back v => exact ⟨_, rfl⟩
    | push_front v => exact ⟨_, rfl⟩
    | pop_back =>
      cases ns with
      | nil => exact absurd (size_ring hr) (hpop (Or.inl rfl))
      | cons n rest => exact ⟨_, rfl⟩
    | pop_front =>
      cases ns with
      | nil => exact absurd (size_ring hr) (hpop (Or.inr rfl))
      | cons n rest => exact ⟨_, rfl⟩
  obtain ⟨ys, hys⟩ := hspec
  obtain ⟨h1, ns1, hrun, hr1, _, _, _, _⟩ := run_ring hr hnf op ys hys
  have htn : this ∉ ns1.map Prod.fst := (List.nodup_cons.mp hr1.1).1
  refine ⟨h1, hrun, RingInvariant_of_Ring hr1, ns1.length, ns1.map Prod.fst, size_ring hr1,
    ?_, by simp⟩
  have hb : begin_ this h1 = Res.ok (Iterator.mk (headAddr ns1 this)) h1 := by
    simp [begin_, M.bind, getFollowing, hr1.2.1]
  simp [bind, M.bind, hb, pure, M.pure,
    chase_of_seg h1.mem this ns1 this ns1.length htn hr1.2.2 (Nat.le_refl _)]

theorem ring_invariant_preserved_witness :
    RingInvariant heapE 0 ∧ NoFail heapE ∧
    ∃ h1, (Op.pop_front : Op Nat).run 0 heapE = Res.ok () h1 ∧ RingInvariant h1 0 := by
  have hring : Ring heapE 0 [(1, 1), (2, 2), (3, 3)] 7 0 := by decide
  have hinv := RingInvariant_of_Ring hring
  obtain ⟨h1, hrun, hinv1, _⟩ :=
    ring_invariant_preserved hinv ⟨rfl, rfl⟩ Op.pop_front (fun _ => by decide)
  exact ⟨hinv, ⟨rfl, rfl⟩, h1, hrun, hinv1⟩

end SpecInvariant

/-! ## The two rings of a copy assignment -/

section AssignmentSteps
variable {T A : Type}

theorem M_bind_assoc {α β γ : Type} (x : M T A α) (f : α → M T A β) (g : β → M T A γ) :
    (x >>= f) >>= g = x >>= fun a => f a >>= g := by
  funext h
  show M.bind (M.bind x f) g h = M.bind x (fun a => M.bind (f a) g) h
  simp only [M.bind]
  cases x h <;> rfl

theorem M_pure_bind {α β : Type} (a : α) (f : α → M T A β) :
    (pure a >>= f) = f a := by
  funext h
  rfl

/-- The copy assignment is its statements followed by the destruction of the
temporary. -/
theorem assign_eq_body_dtor (τ : AllocTraits A) (fuel : Nat) (this src : Addr) :
    (assign τ fuel this src : M T A Unit) =
      (do let tmp ← assign_body τ fuel this src; List_dtor tmp) := by
  simp only [assign, assign_body, M_bind_assoc, M_pure_bind]

/-- The statements of `a = b` up to `return *this`, for a non-empty source that
shares no node with the target, when nothing fails. -/
theorem assign_body_ring (τ : AllocTraits A) {h : Heap T A} {this src : Addr}
    {xs : List (Addr × T)} {n : Addr × T} {rest : List (Addr × T)} {la na lb nb : A}
    (hra : Ring h this xs la na) (hrb : Ring h src (n :: rest) lb nb)
    (hdis : ∀ p ∈ this :: xs.map Prod.fst, p ∉ src :: (n :: rest).map Prod.fst)
    (hnf : NoFail h) (fuel : Nat) (hfuel : rest.length ≤ fuel) :
    ∃ hT cs, assign_body τ fuel this src h = Res.ok h.mem.length hT ∧
      Ring hT this cs (if τ.ne la lb && τ.pocca then lb else la) na ∧
      cs.map Prod.snd = (n :: rest).map Prod.snd ∧
      (∀ p ∈ cs.map Prod.fst, h.mem.length < p) ∧
      hT.trace = h.trace ++ buildTrace cs ∧
      Ring hT h.mem.length xs (τ.select lb) (τ.select nb) ∧
      Ring hT src (n :: rest) lb nb := by
  have hlta := Ring_lt hra
  have hltb := Ring_lt hrb
  obtain ⟨h1, cs, hrun1, hrc, hval, hnf1, hfr1, hlow, htr1⟩ :=
    List_copy_ring τ hrb hnf fuel hfuel
  have hcsne : cs ≠ [] := by
    intro e
    rw [e] at hval
    simp at hval
  have hra1 : Ring h1 this xs la na := Ring_frame hra (fun p hp => hfr1 p (hlta p hp))
  have hrb1 : Ring h1 src (n :: rest) lb nb := Ring_frame hrb (fun p hp => hfr1 p (hltb p hp))
  have hnew : ∀ p ∈ h.mem.length :: cs.map Prod.fst, ∀ q, q < h.mem.length → p ≠ q :=
    fun p hp q hq e => Nat.lt_irrefl _ (Nat.lt_of_lt_of_le (e ▸ hq) (hlow p hp))
  have htt : this ≠ h.mem.length := Nat.ne_of_lt (hlta this (List.mem_cons_self _ _))
  have htcs : this ∉ cs.map Prod.fst := fun hm =>
    hnew this (List.mem_cons_of_mem _ hm) this (hlta this (List.mem_cons_self _ _)) rfl
  have htmpxs : h.mem.length ∉ xs.map Prod.fst := fun hm =>
    Nat.lt_irrefl _ (hlta _ (List.mem_cons_of_mem _ hm))
  have htmpcs : h.mem.length ∉ cs.map Prod.fst := (List.nodup_cons.mp hrc.1).1
  have hxscs : ∀ p ∈ xs.map Prod.fst, p ∉ cs.map Prod.fst := fun p hp hm =>
    hnew p (List.mem_cons_of_mem _ hm) p (hlta p (List.mem_cons_of_mem _ hp)) rfl
  obtain ⟨h2, hrun2, h2t, h2m, hfr2, hlen2, hab2, hcb2, htr2⟩ :=
    swap_run hra1.2.1 hrc.2.1 htt
  have hnd3 : (this :: cs.map Prod.fst).Nodup :=
    List.nodup_cons.mpr ⟨htcs, (List.nodup_cons.mp hrc.1).2⟩
  have hseg2 : Seg h2.mem h.mem.length cs h.mem.length := by
    refine Seg_congr ?_ hrc.2.2
    intro p hp
    exact hfr2 p (fun e => htcs (e ▸ hp)) (fun e => htmpcs (e ▸ hp))
  obtain ⟨h3, h4, e1, e2, e3, e4, hr4, hfr4, hlen4, hab4, hcb4, htr4⟩ :=
    reclose_ring hcsne hnd3 h2t hseg2
  have hsrc4 : ∀ p ∈ src :: (n :: rest).map Prod.fst, h4.mem[p]? = h1.mem[p]? := by
    intro p hp
    have hpl := hltb p hp
    have hpcs : p ∉ cs.map Prod.fst := fun hm => hnew p (List.mem_cons_of_mem _ hm) p hpl rfl
    have hpt : p ≠ this := fun e => hdis this (List.mem_cons_self _ _) (e ▸ hp)
    rw [hfr4 p hpcs, hfr2 p hpt (Nat.ne_of_lt hpl)]
  have hgla : getListAlloc this h4 = Res.ok la h4 := by simp [getListAlloc, hr4.2.1]
  have hglb : getListAlloc src h4 = Res.ok lb h4 := by
    simp [getListAlloc, hsrc4 src (List.mem_cons_self _ _), hrb1.2.1]
  obtain ⟨h5, hrun5, hr5, hfr5, hlen5, hab5, hcb5, htr5⟩ :
      ∃ h5, (if (τ.ne la lb && τ.pocca) = true then setListAlloc this lb else pure ()) h4
          = Res.ok () h5 ∧
        Ring h5 this cs (if τ.ne la lb && τ.pocca then lb else la) na ∧
        (∀ q, q ≠ this → h5.mem[q]? = h4.mem[q]?) ∧
        h5.mem.length = h4.mem.length ∧ h5.allocBudget = h4.allocBudget ∧
        h5.ctorBudget = h4.ctorBudget ∧ h5.trace = h4.trace := by
    cases hcond : (τ.ne la lb && τ.pocca) with
    | true =>
      obtain ⟨h5, hrun5, hr5, hrest⟩ := setListAlloc_ring hr4 lb
      exact ⟨h5, by simpa using hrun5, by simpa using hr5, hrest⟩
    | false =>
      exact ⟨h4, by simp, by simpa using hr4, fun _ _ => rfl, rfl, rfl, rfl, rfl⟩
  have hnd5 : (h.mem.length :: xs.map Prod.fst).Nodup :=
    List.nodup_cons.mpr ⟨htmpxs, (List.nodup_cons.mp hra.1).2⟩
  have hold5 : ∀ p, p ≠ this → p ∉ cs.map Prod.fst → h5.mem[p]? = h2.mem[p]? := by
    intro p hpt hpcs
    rw [hfr5 p hpt, hfr4 p hpcs]
  have hc5 : h5.mem[h.mem.length]? = some (Cell.list (lastAddr xs this) (headAddr xs this)
      xs.length (τ.select lb) (τ.select nb)) := by
    rw [hold5 _ (Ne.symm htt) htmpcs]
    exact h2m
  have hseg5 : Seg h5.mem this xs this := by
    refine Seg_congr ?_ hra1.2.2
    intro p hp
    have hpt : p ≠ this := fun e => (List.nodup_cons.mp hra.1).1 (e ▸ hp)
    rw [hold5 p hpt (hxscs p hp), hfr2 p hpt (fun e => htmpxs (e ▸ hp))]
  obtain ⟨hT, hrunT, hrT, hfrT, hlenT, habT, hcbT, htrT⟩ :=
    assign_tail hnd5 hc5 hseg5 (pure h.mem.length : M T A Addr)
  refine ⟨hT, cs, ?_, ?_, hval, ?_, ?_, hrT, ?_⟩
  · simp only [bind, M.bind] at hrunT
    simp only [assign_body, bind, M.bind, hrun1, hrun2, e1, e2, e3, e4, hgla, hglb, hrun5]
    exact hrunT
  · refine Ring_frame hr5 ?_
    intro p hp
    rcases List.mem_cons.mp hp with rfl | hp
    · exact hfrT _ htt (List.nodup_cons.mp hra.1).1
    · exact hfrT p (fun e => htmpcs (e ▸ hp)) (fun hm => hxscs p hm hp)
  · intro p hp
    exact Nat.lt_of_le_of_ne (hlow p (List.mem_cons_of_mem _ hp)) (fun e => htmpcs (e ▸ hp))
  · rw [htrT, htr5, htr4, htr2, htr1]
  · refine Ring_frame hrb1 ?_
    intro p hp
    have hpl := hltb p hp
    have hpcs : p ∉ cs.map Prod.fst := fun hm => hnew p (List.mem_cons_of_mem _ hm) p hpl rfl
    have hpt : p ≠ this := fun e => hdis this (List.mem_cons_self _ _) (e ▸ hp)
    have hpxs : p ∉ xs.map Prod.fst := fun hm => hdis p (List.mem_cons_of_mem _ hm) hp
    rw [hfrT p (Nat.ne_of_lt hpl) hpxs, hfr5 p hpt, hsrc4 p hp]


/-- Claim C16. Let `a` be a well formed list (empty or not) and `b` a well
formed list sharing no node with it, and let nothing fail. When `b` is not
empty the statements of `a = b` up to `return *this` are reached and passed.
After them the sentinel of `a` closes a ring over exactly the freshly copied
nodes, with `size_` their number, and the sentinel of the temporary closes a
ring over exactly the former nodes of `a`, with `size_` the former size of `a`
(it is linked to itself when `a` was empty). The destruction of the temporary
then destroys and deallocates each former node of `a` exactly once and none of
the new nodes, and `a` remains the ring over the new nodes. -/
theorem assignment_closes_both_rings (τ : AllocTraits A) {h : Heap T A} {this src : Addr}
    {xs bs : List (Addr × T)} {la na lb nb : A}
    (hra : Ring h this xs la na) (hrb : Ring h src bs lb nb)
    (hdis : ∀ p ∈ this :: xs.map Prod.fst, p ∉ src :: bs.map Prod.fst)
    (hnf : NoFail h) (fuel : Nat) (hfuel : bs.length ≤ fuel) :
    (bs ≠ [] → ∃ tmp hT, assign_body τ fuel this src h = Res.ok tmp hT) ∧
    ∀ tmp hT, assign_body τ fuel this src h = Res.ok tmp hT →
      ∃ cs hF,
        Ring hT this cs (if τ.ne la lb && τ.pocca then lb else la) na ∧
        size this hT = Res.ok cs.length hT ∧
        cs.map Prod.snd = bs.map Prod.snd ∧
        hT.trace = h.trace ++ buildTrace cs ∧
        Ring hT tmp xs (τ.select lb) (τ.select nb) ∧
        size tmp hT = Res.ok xs.length hT ∧
        (xs = [] → getFollowing tmp hT = Res.ok tmp hT ∧ getPrevious tmp hT = Res.ok tmp hT) ∧
        List_dtor tmp hT = Res.ok () hF ∧
        assign τ fuel this src h = Res.ok () hF ∧
        hF.trace = hT.trace ++ freeTrace xs ∧
        (∀ p ∈ xs.map Prod.fst, hF.mem[p]? = some Cell.freed ∧
          (freeTrace xs).count (Event.destroy p) = 1 ∧
          (freeTrace xs).count (Event.deallocate p) = 1) ∧
        (∀ p ∈ cs.map Prod.fst, (freeTrace xs).count (Event.destroy p) = 0 ∧
          (freeTrace xs).count (Event.deallocate p) = 0) ∧
        Ring hF this cs (if τ.ne la lb && τ.pocca then lb else la) na := by
  cases bs with
  | nil =>
    refine ⟨fun hne => absurd rfl hne, ?_⟩
    intro tmp hT hbody
    obtain ⟨hu, hub⟩ := List_copy_empty τ hrb (by rw [hnf.1]; simp) fuel
    simp [assign_body, bind, M.bind, hub] at hbody
  | cons n rest =>
    obtain ⟨hT1, cs, hrun, hrA, hval, hfresh, htr, hrT, _⟩ :=
      assign_body_ring τ hra hrb hdis hnf fuel
        (by simp only [List.length_cons] at hfuel; omega)
    refine ⟨fun _ => ⟨_, _, hrun⟩, ?_⟩
    intro tmp hT hbody
    rw [hrun] at hbody
    cases hbody
    have hlta := Ring_lt hra
    have hxsnd : (xs.map Prod.fst).Nodup := (List.nodup_cons.mp hra.1).2
    have hcsxs : ∀ p ∈ cs.map Prod.fst, p ∉ xs.map Prod.fst := fun p hp hm =>
      Nat.lt_irrefl _ (Nat.lt_trans (hfresh p hp) (hlta p (List.mem_cons_of_mem _ hm)))
    obtain ⟨hF, hrunF, hfreedF, hsameF, _, _, _, htrF⟩ := List_dtor_ring hrT
    refine ⟨cs, hF, hrA, size_ring hrA, hval, htr, hrT, size_ring hrT, ?_, hrunF, ?_, htrF,
      ?_, ?_, ?_⟩
    · intro hxs
      subst hxs
      obtain ⟨g1, _, g3, _⟩ := Ring_sentinel hrT
      exact ⟨getFollowing_of g1, getPrevious_of g3⟩
    · rw [assign_eq_body_dtor]
      simp only [bind, M.bind, hrun, hrunF]
    · intro p hp
      obtain ⟨c1, c2⟩ := freeTrace_count xs p
      rw [c1, c2, List.count_eq_one_of_mem hxsnd hp]
      exact ⟨hfreedF p (List.mem_cons_of_mem _ hp), rfl, rfl⟩
    · intro p hp
      obtain ⟨c1, c2⟩ := freeTrace_count xs p
      rw [c1, c2, List.count_eq_zero_of_not_mem (hcsxs p hp)]
      exact ⟨rfl, rfl⟩
    · refine Ring_frame hrA ?_
      intro p hp
      apply hsameF
      simp only [List.mem_cons, not_or]
      rcases List.mem_cons.mp hp with rfl | hp
      · exact ⟨Nat.ne_of_lt (hlta _ (List.mem_cons_self _ _)), (List.nodup_cons.mp hra.1).1⟩
      · exact ⟨Nat.ne_of_gt (hfresh p hp), hcsxs p hp⟩

theorem assignment_closes_both_rings_witness :
    Ring heapC 3 [(4, 30)] 8 0 ∧ Ring heapC 0 [(1, 10), (2, 20)] 7 0 ∧ NoFail heapC ∧
    ∃ tmp hT, assign_body natTraits 2 3 0 heapC = Res.ok tmp hT ∧
      ∃ cs hF, Ring hT 3 cs 8 0 ∧ cs.map Prod.snd = [10, 20] ∧ Ring hT tmp [(4, 30)] 7 0 ∧
        List_dtor tmp hT = Res.ok () hF ∧
        hF.trace = hT.trace ++ [Event.destroy 4, Event.deallocate 4] := by
  have hra : Ring heapC 3 [(4, 30)] 8 0 := by decide
  have hrb : Ring heapC 0 [(1, 10), (2, 20)] 7 0 := by decide
  have hall := assignment_closes_both_rings natTraits hra hrb (by decide) ⟨rfl, rfl⟩ 2
    (by decide)
  obtain ⟨tmp, hT, hbody⟩ := hall.1 (by simp)
  obtain ⟨cs, hF, hA, _, hval, _, hT1, _, _, hdtor, _, htr, _⟩ := hall.2 tmp hT hbody
  exact ⟨hra, hrb, ⟨rfl, rfl⟩, tmp, hT, hbody, cs, hF, hA, hval, hT1, hdtor, htr⟩

end AssignmentSteps

/-! ## `front()` and `back()`, and allocation failure in a bulk constructor -/

section MoreFailing
variable {T A : Type}

/-- On every well formed list `front()` and `back()` return a reference into a
temporary node that is gone when they return: the reference is to none of the
nodes of the list, and reading through it is undefined. -/
theorem front_back_dangle (conv : Addr → T) {h : Heap T A} {this : Addr}
    {ns : List (Addr × T)} {la na : A} (hr : Ring h this ns la na)
    (hcb : h.ctorBudget ≠ some 0) :
    h.mem.length ∉ this :: ns.map Prod.fst ∧
    ∃ h1, h1.mem[h.mem.length]? = some Cell.freed ∧
      front conv this h = Res.ok h.mem.length h1 ∧
      back conv this h = Res.ok h.mem.length h1 ∧
      (do let r ← front conv this; get_value r : M T A T) h = Res.ub h1 ∧
      (do let r ← back conv this; get_value r : M T A T) h = Res.ub h1 := by
  have hlts := Ring_lt hr
  have hc := hr.2.1
  have hlt := lt_of_cell hc
  refine ⟨fun hm => Nat.lt_irrefl _ (hlts _ hm),
    Heap.mk ((h.mem ++ [Cell.node h.mem.length h.mem.length (conv (headAddr ns this))]).set
      h.mem.length Cell.freed) h.allocBudget (h.ctorBudget.map (fun k => k - 1)) h.trace,
    ?_, ?_, ?_, ?_, ?_⟩
  · simp [-List.getElem?_eq_getElem, List.getElem?_set, List.getElem?_append,
      List.getElem?_cons_zero]
  · simp [-List.getElem?_eq_getElem, front, M.bind, getFollowing, castToNode, endTemporary, hc,
      hcb, List.getElem?_append, List.getElem?_cons_zero]
  · simp [-List.getElem?_eq_getElem, back, M.bind, getPrevious, castToNode, endTemporary, hc,
      hcb, List.getElem?_append, List.getElem?_cons_zero]
  · simp [-List.getElem?_eq_getElem, front, M.bind, getFollowing, castToNode, endTemporary, hc,
      hcb, get_value, List.getElem?_append, List.getElem?_cons_zero, List.getElem?_set]
  · simp [-List.getElem?_eq_getElem, back, M.bind, getPrevious, castToNode, endTemporary, hc,
      hcb, get_value, List.getElem?_append, List.getElem?_cons_zero, List.getElem?_set]


/-- Claim C13. `front()` and `back()` do not return the payload of the first
and of the last value node. The cast in them is to the class `Node<T>`, so it
makes a temporary node from the converted pointer (for `bool`, a non-null
pointer converts to `true`) and the reference returned is to the payload of
that temporary, which is gone at the `return`. On the list `false, true` the
temporary of `front()` holds `true`, the reference is to the released cell `3`
and not to the first node `1`, and reading through it is undefined. -/
theorem front_back_refer_to_a_dead_temporary :
    (do let l ← List_init natTraits [false, true] 7
        let f ← getFollowing l
        castToNode (fun _ => true) f : M Bool Nat Addr) ⟨[], none, none, []⟩ =
      Res.ok 3 ⟨[Cell.list 2 1 2 7 0, Cell.node 0 2 false, Cell.node 1 0 true,
          Cell.node 3 3 true], none, none,
        [Event.allocate 1, Event.construct 1, Event.allocate 2, Event.construct 2]⟩ ∧
    (do let l ← List_init natTraits [false, true] 7
        front (fun _ => true) l : M Bool Nat Addr) ⟨[], none, none, []⟩ =
      Res.ok 3 ⟨[Cell.list 2 1 2 7 0, Cell.node 0 2 false, Cell.node 1 0 true, Cell.freed],
        none, none,
        [Event.allocate 1, Event.construct 1, Event.allocate 2, Event.construct 2]⟩ ∧
    (do let l ← List_init natTraits [false, true] 7
        let r ← front (fun _ => true) l
        get_value r : M Bool Nat Bool) ⟨[], none, none, []⟩ =
      Res.ub ⟨[Cell.list 2 1 2 7 0, Cell.node 0 2 false, Cell.node 1 0 true, Cell.freed],
        none, none,
        [Event.allocate 1, Event.construct 1, Event.allocate 2, Event.construct 2]⟩ ∧
    (do let l ← List_init natTraits [true, false] 7
        let r ← back (fun _ => true) l
        get_value r : M Bool Nat Bool) ⟨[], none, none, []⟩ =
      Res.ub ⟨[Cell.list 2 1 2 7 0, Cell.node 0 2 true, Cell.node 1 0 false, Cell.freed],
        none, none,
        [Event.allocate 1, Event.construct 1, Event.allocate 2, Event.construct 2]⟩ := by
  refine ⟨?_, ?_, ?_, ?_⟩
  · simp [List_init, List_members, ctorBody, tryCatch, throwExn, M.bind,
      allocate, construct, setListAlloc, readInit, setFollowing, setPrevious, getFollowing,
      incSize, getSize, setSize, init_loop, init_step, natTraits,
      List.getElem?_cons_zero, List.getElem?_cons_succ]
    simp [castToNode]
  · simp [List_init, List_members, ctorBody, tryCatch, throwExn, M.bind,
      allocate, construct, setListAlloc, readInit, setFollowing, setPrevious, getFollowing,
      incSize, getSize, setSize, init_loop, init_step, natTraits,
      List.getElem?_cons_zero, List.getElem?_cons_succ]
    simp [front, M.bind, getFollowing, castToNode, endTemporary, List.getElem?_cons_zero,
      List.getElem?_cons_succ]
  · simp [List_init, List_members, ctorBody, tryCatch, throwExn, M.bind,
      allocate, construct, setListAlloc, readInit, setFollowing, setPrevious, getFollowing,
      incSize, getSize, setSize, init_loop, init_step, natTraits,
      List.getElem?_cons_zero, List.getElem?_cons_succ]
    simp [front, M.bind, getFollowing, castToNode, endTemporary, get_value,
      List.getElem?_cons_zero, List.getElem?_cons_succ]
  · simp [List_init, List_members, ctorBody, tryCatch, throwExn, M.bind,
      allocate, construct, setListAlloc, readInit, setFollowing, setPrevious, getFollowing,
      incSize, getSize, setSize, init_loop, init_step, natTraits,
      List.getElem?_cons_zero, List.getElem?_cons_succ]
    simp [back, M.bind, getPrevious, castToNode, endTemporary, get_value,
      List.getElem?_cons_zero, List.getElem?_cons_succ]

/-- Claim C17. When the allocation of a further node fails after `k ≥ 1` nodes
have been built, the handler does not release each node once. The node built
last is still linked to itself (`actual->following` was not yet assigned), so
`dealloc(actual)` deallocates it through `actual->following` and then destroys
and deallocates it again. In the fill and the initializer list constructor
with three elements and memory for two nodes, and in the copy of a list of two
elements with memory for one node, the run is undefined at that `destroy`. -/
theorem alloc_failure_releases_last_node_twice :
    List_fill natTraits 3 5 7 (memoryFor 2) =
      Res.ub ⟨[Cell.list 0 1 2 7 0, Cell.freed, Cell.freed], some 0, none,
        [Event.allocate 1, Event.construct 1, Event.allocate 2, Event.construct 2,
          Event.destroy 1, Event.deallocate 1, Event.deallocate 2]⟩ ∧
    List_init natTraits [1, 2, 3] 7 (memoryFor 2) =
      Res.ub ⟨[Cell.list 0 1 2 7 0, Cell.freed, Cell.freed], some 0, none,
        [Event.allocate 1, Event.construct 1, Event.allocate 2, Event.construct 2,
          Event.destroy 1, Event.deallocate 1, Event.deallocate 2]⟩ ∧
    (do let src ← List_init natTraits [10, 20] 7
        List_copy natTraits 5 src : M Nat Nat Addr) (memoryFor 3) =
      Res.ub ⟨[Cell.list 2 1 2 7 0, Cell.node 0 2 10, Cell.node 1 0 20, Cell.list 3 4 1 0 0,
          Cell.freed], some 0, none,
        [Event.allocate 1, Event.construct 1, Event.allocate 2, Event.construct 2,
          Event.allocate 4, Event.construct 4, Event.deallocate 4]⟩ := by
  have h3 : decWrap 3 = 2 := by decide
  have h2 : decWrap 2 = 1 := by decide
  have h1 : decWrap 1 = 0 := by decide
  refine ⟨?_, ?_, ?_⟩
  · simp [List_fill, List_members, ctorBody, tryCatch, throwExn, M.bind, allocate, construct,
      setListAlloc, getFollowing, setFollowing, setPrevious, incSize, getSize, setSize,
      natTraits, memoryFor, h3, List.getElem?_cons_zero, List.getElem?_cons_succ]
    simp [fill_loop, fill_step, tryCatch, M.bind, allocate, construct,
      getFollowing, setFollowing, setPrevious, incSize, getSize, setSize,
      List.getElem?_cons_zero, List.getElem?_cons_succ]
    simp [rollback, M.bind, getSize, h2, remove, getFollowing, List.getElem?_cons_zero,
      List.getElem?_cons_succ]
    simp [remove_loop, remove_one, M.bind, getPrevious, getFollowing, destroy, deallocate,
      List.getElem?_cons_zero, List.getElem?_cons_succ]
    simp [dealloc, M.bind, getFollowing, destroy, deallocate, throwExn, endObject,
      List.getElem?_cons_zero, List.getElem?_cons_succ]
  · simp [List_init, List_members, ctorBody, tryCatch, throwExn, M.bind, allocate, construct,
      setListAlloc, readInit, getFollowing, setFollowing, setPrevious, incSize,
      getSize, setSize, natTraits, memoryFor, List.getElem?_cons_zero,
      List.getElem?_cons_succ]
    simp [init_loop, init_step, tryCatch, M.bind, allocate, construct, getFollowing,
      setFollowing, setPrevious, incSize, getSize, setSize, List.getElem?_cons_zero,
      List.getElem?_cons_succ]
    simp [rollback, M.bind, getSize, h2, remove, getFollowing, List.getElem?_cons_zero,
      List.getElem?_cons_succ]
    simp [remove_loop, remove_one, M.bind, getPrevious, getFollowing, destroy, deallocate,
      List.getElem?_cons_zero, List.getElem?_cons_succ]
    simp [dealloc, M.bind, getFollowing, destroy, deallocate, throwExn, endObject,
      List.getElem?_cons_zero, List.getElem?_cons_succ]
  · simp [List_init, List_default, List_members, ctorBody, tryCatch, throwExn, M.bind,
      allocate, construct, setListAlloc, readInit, setFollowing, setPrevious, getFollowing,
      incSize, getSize, setSize, init_loop, init_step, memoryFor, natTraits,
      List.getElem?_cons_zero, List.getElem?_cons_succ]
    simp [List_copy, List_members, ctorBody, tryCatch, throwExn, M.bind, allocate,
      construct, begin_, end_, Iterator.deref, Iterator.inc, get_value, getFollowing,
      setFollowing, setPrevious, incSize, getSize, setSize, List.getElem?_cons_zero,
      List.getElem?_cons_succ]
    unfold copy_loop
    simp [copy_step, tryCatch, M.bind, allocate, List.getElem?_cons_zero,
      List.getElem?_cons_succ]
    simp [rollback, M.bind, getSize, h1, remove, getFollowing, List.getElem?_cons_zero,
      List.getElem?_cons_succ]
    simp [remove_loop, dealloc, M.bind, getFollowing, destroy, deallocate, throwExn, endObject,
      List.getElem?_cons_zero, List.getElem?_cons_succ]


/-- One iteration of the fill loop when the allocation fails, whatever the
number of nodes built so far: the handler releases the node built last through
its own `following` link and then destroys it. -/
theorem fill_step_alloc_fail {h : Heap T A} {this : Addr} {built : List (Addr × T)}
    {la na : A} {b0 : Nat} (hb : Building h this built la na b0)
    (hab : h.allocBudget = some 0) (v : T) :
    ∃ h1, fill_step this v (lastAddr built this) h = Res.ub h1 ∧
      h1.mem[lastAddr built this]? = some Cell.freed ∧
      h1.trace = h.trace ++ freeTrace built.dropLast ++
        [Event.deallocate (lastAddr built this)] := by
  obtain ⟨hne0, hnd, hlow, hc, hseg⟩ := hb
  have hlt := lt_of_cell hc
  rcases snoc_cases built with rfl | ⟨built0, n, rfl⟩
  · exact absurd rfl hne0
  · rw [Seg_append] at hseg
    obtain ⟨hseg0, hn, _⟩ := hseg
    simp only [lastAddr_append, headAddr_append, lastAddr_cons, headAddr_cons, lastAddr_nil,
      headAddr_nil, List.length_append, List.length_singleton, List.dropLast_concat]
      at hc hn hseg0 ⊢
    have hnlt := lt_of_cell hn
    simp only [List.map_append, List.map_cons, List.map_nil, List.nodup_cons, List.mem_append,
      List.mem_singleton, not_or, nodup_snoc_iff] at hnd
    obtain ⟨⟨htr, htn⟩, hnr, hrnd⟩ := hnd
    have hstep : fill_step this v n.1 h = (rollback this n.1 Exn.bad_alloc : M T A Addr) h := by
      simp [fill_step, M.bind, allocate, tryCatch, hab]
    obtain ⟨h2, hrun2, hfreed2, hsame2, hlen2, hab2, hcb2, htr2⟩ :=
      remove_seg hc hseg0 hnr hrnd ⟨_, _, Or.inl ⟨_, hn⟩, fun _ => rfl⟩
    have h2n : h2.mem[n.1]? = some (Cell.node (lastAddr built0 this) n.1 n.2) := by
      rw [hsame2 _ hnr]; exact hn
    have h2nlt : n.1 < h2.mem.length := lt_of_cell h2n
    have hsize : getSize this h = Res.ok (built0.length + 1) h := by simp [getSize, hc]
    have hdw : decWrap (built0.length + 1) = built0.length := by simp [decWrap]
    have hd : dealloc n.1 h2 = Res.ub
        (Heap.mk (h2.mem.set n.1 Cell.freed) h2.allocBudget h2.ctorBudget
          (h2.trace ++ [Event.deallocate n.1])) := by
      simp [-List.getElem?_eq_getElem, dealloc, M.bind, getFollowing, deallocate, destroy,
        List.getElem?_set, h2n, h2nlt]
    refine ⟨Heap.mk (h2.mem.set n.1 Cell.freed) h2.allocBudget h2.ctorBudget
        (h2.trace ++ [Event.deallocate n.1]), ?_, ?_, ?_⟩
    · rw [hstep]
      simp only [rollback, bind, M.bind, hsize, hdw, hrun2, hd]
    · simp [-List.getElem?_eq_getElem, List.getElem?_set, h2nlt]
    · simp [htr2]

end MoreFailing

end MyList
